import Mathlib

/-!
Verification of the `sonar` TSP algorithm library.

The JavaScript sources are shallowly embedded: distance matrices become
functions `ℕ → ℕ → ℚ` (JS floating-point numbers are modelled by exact
rationals), tours become `List ℕ` of point ids, and the imperative loops
become structural recursions (with an explicit fuel argument where the JS
loop bound is data-dependent).
-/

namespace Sonar

/-- A distance matrix, modelled as a total function on point ids.
The JS code indexes `graph[i][j]`; all claims only evaluate it at ids
below `n`. -/
def Graph : Type := ℕ → ℕ → ℚ

/-- Embedding of `TSPUtils.calculateTourLength` (src/algorithms/utils.js):
`for (i = 0; i < n; i++) total += graph[tour[i]][tour[(i + 1) % n]]`. -/
def calculateTourLength (graph : Graph) (tour : List ℕ) : ℚ :=
  ((List.range tour.length).map
    (fun i => graph (tour.getD i 0) (tour.getD ((i + 1) % tour.length) 0))).sum

/-- Embedding of `TSPUtils.calculateEfficiency` (src/algorithms/utils.js):
`if (solutionLength <= 0) return 0; return (optimalLength / solutionLength) * 100`. -/
def calculateEfficiency (solutionLength optimalLength : ℚ) : ℚ :=
  if solutionLength ≤ 0 then 0 else optimalLength / solutionLength * 100

/-- Open-path length of a tour: the sum of consecutive edge distances
without the wrap-around edge.  Used to reason about the cyclic
`calculateTourLength`. -/
def pathLen (graph : Graph) : List ℕ → ℚ
  | [] => 0
  | [_] => 0
  | a :: b :: tl => graph a b + pathLen graph (b :: tl)

/-- The JS destructuring swap `[arr[start], arr[i]] = [arr[i], arr[start]]`
on a list: both right-hand values are read before either write. -/
def listSwap (l : List ℕ) (a b : ℕ) : List ℕ :=
  let va := l.getD a 0
  let vb := l.getD b 0
  (l.set a vb).set b va

/-- Embedding of the recursive `permute(arr, start)` helper inside
`bruteForceExact` (src/algorithms/brute-force.js).  The mutable
`(bestTour, bestLength)` pair is threaded as `st`; the JS swap /
recurse / swap-back pattern becomes a fold that hands each iteration the
unswapped `arr`.  `fuel` bounds the recursion depth (`arr.length - start`
in the source); `bruteForceExact` supplies enough.  The JS leaf test
`start === arr.length - 1` is written `start + 1 = arr.length`, which
agrees with it for every natural `start` (JS `arr.length - 1` is `-1`
on the empty array, never equal to a non-negative `start`). -/
def permuteAux (graph : Graph) : ℕ → List ℕ → ℕ → List ℕ × ℚ → List ℕ × ℚ
  | 0, _, _, st => st
  | fuel + 1, arr, start, st =>
      if start + 1 = arr.length then
        let len := calculateTourLength graph arr
        if len < st.2 then (arr, len) else st
      else
        (List.range' start (arr.length - start)).foldl
          (fun acc i => permuteAux graph fuel (listSwap arr start i) (start + 1) acc) st

/-- Embedding of `bruteForceExact(graph, n)` (src/algorithms/brute-force.js):
start from the identity ordering, explore all permutations with city 0
fixed, and return the best `(tour, length)` pair seen. -/
def bruteForceExact (graph : Graph) (n : ℕ) : List ℕ × ℚ :=
  let cities := List.range n
  permuteAux graph n cities 1 (cities, calculateTourLength graph cities)

/-- Point-wise update of a two-key map, modelling
`map.set(`..mask,last..`, v)` on a JS `Map` keyed by string-concatenated
pairs. -/
def mapUpdate {α : Type} (f : ℕ → ℕ → α) (k₁ k₂ : ℕ) (v : α) : ℕ → ℕ → α :=
  fun a b => if a = k₁ ∧ b = k₂ then v else f a b

/-- The Held–Karp DP state: the `dp` and `parent` maps of the source,
`none` standing for an absent key. -/
structure HKState where
  dp : ℕ → ℕ → Option ℚ
  par : ℕ → ℕ → Option ℕ

/-- Embedding of `generateSubsets(start, current, count)` inside `heldKarp`:
enumerates (in recursion order) the bitmasks over bits `start..n-1` added to
`current` that bring the popcount from `count` up to `size`. -/
def genSubsets (n size : ℕ) (start current count : ℕ) : List ℕ :=
  if count = size then [current]
  else
    ((List.range' start (n - start)).attach.map
      (fun i => genSubsets n size (i.1 + 1) (current ||| (1 <<< i.1)) (count + 1))).flatten
termination_by n - start
decreasing_by
  · have := List.mem_range'_1.mp i.2
    omega

/-- Embedding of the inner `for (prev = 1; prev < n; prev++)` minimization in
`heldKarp`: returns the JS `(bestDist, bestPrev)` pair, `none` standing for
`Infinity` / `-1`. -/
def hkBestPrev (graph : Graph) (dp : ℕ → ℕ → Option ℚ) (n prevMask last : ℕ) :
    Option ℚ × Option ℕ :=
  (List.range' 1 (n - 1)).foldl
    (fun acc prev =>
      if prevMask &&& (1 <<< prev) = 0 then acc
      else
        match dp prevMask prev with
        | none => acc
        | some d =>
            let dist := d + graph prev last
            match acc.1 with
            | none => (some dist, some prev)
            | some best => if dist < best then (some dist, some prev) else acc)
    (none, none)

/-- Embedding of the `for (last = 1; last < n; last++)` body of `heldKarp`
for one subset `mask`. -/
def hkProcessMask (graph : Graph) (n : ℕ) (st : HKState) (mask : ℕ) : HKState :=
  (List.range' 1 (n - 1)).foldl
    (fun st last =>
      if mask &&& (1 <<< last) = 0 then st
      else
        let prevMask := mask ^^^ (1 <<< last)
        if prevMask = 0 then st
        else
          match hkBestPrev graph st.dp n prevMask last with
          | (some bestDist, bestPrev) =>
              { dp := mapUpdate st.dp mask last (some bestDist)
                par := mapUpdate st.par mask last bestPrev }
          | (none, _) => st)
    st

/-- Embedding of the base case plus the size-ordered DP fill of `heldKarp`. -/
def hkFill (graph : Graph) (n : ℕ) : HKState :=
  let base : HKState :=
    (List.range' 1 (n - 1)).foldl
      (fun st i =>
        { dp := mapUpdate st.dp (1 <<< i) i (some (graph 0 i))
          par := mapUpdate st.par (1 <<< i) i (some 0) })
      ⟨fun _ _ => none, fun _ _ => none⟩
  (List.range' 2 (n - 2)).foldl
    (fun st size => (genSubsets n size 1 0 0).foldl (hkProcessMask graph n) st)
    base

/-- Embedding of the final `for (i = 1; i < n; i++)` minimization of
`heldKarp`: the JS `(minLength, lastCity)` pair, `none` standing for
`Infinity` / `-1`. -/
def hkFinal (graph : Graph) (dp : ℕ → ℕ → Option ℚ) (n fullMask : ℕ) :
    Option ℚ × Option ℕ :=
  (List.range' 1 (n - 1)).foldl
    (fun acc i =>
      match dp fullMask i with
      | none => acc
      | some d =>
          let dist := d + graph i 0
          match acc.1 with
          | none => (some dist, some i)
          | some m => if dist < m then (some dist, some i) else acc)
    (none, none)

/-- Embedding of the `while (current !== 0 && current !== undefined)` tour
reconstruction loop of `heldKarp`; `fuel` bounds the walk (at most `n - 1`
steps in the source). -/
def hkRecon (par : ℕ → ℕ → Option ℕ) : ℕ → ℕ → Option ℕ → List ℕ → List ℕ
  | 0, _, _, tour => tour
  | _ + 1, _, none, tour => tour
  | fuel + 1, mask, some c, tour =>
      if c = 0 then tour
      else hkRecon par fuel (mask ^^^ (1 <<< c)) (par mask c) (tour ++ [c])

/-- Embedding of `heldKarp(graph, n)` (src/algorithms/brute-force.js).
The returned length is `none` when the JS value would be `Infinity`. -/
def heldKarp (graph : Graph) (n : ℕ) : List ℕ × Option ℚ :=
  let st := hkFill graph n
  let fullMask := ((1 <<< n) - 1) ^^^ 1
  let fin := hkFinal graph st.dp n fullMask
  let tour := hkRecon st.par n fullMask fin.2 [0]
  (tour, fin.1)

/-- Embedding of `findOptimal(graph, n)` (src/algorithms/brute-force.js):
`null` for `n > 20`, brute force for `n <= 10`, Held–Karp otherwise. -/
def findOptimal (graph : Graph) (n : ℕ) : Option (List ℕ × Option ℚ) :=
  if n > 20 then none
  else if n ≤ 10 then
    let r := bruteForceExact graph n
    some (r.1, some r.2)
  else some (heldKarp graph n)

/-- Embedding of `getMaxFeasibleN()` (src/algorithms/brute-force.js). -/
def getMaxFeasibleN : ℕ := 20

/-- The all-zero distance matrix, used as a concrete test input. -/
def zeroGraph : Graph := fun _ _ => 0

namespace NearestNeighbor

/-- Embedding of the inner `for (i = 0; i < n; i++)` scan of
`NearestNeighbor.generateTour` (src/algorithms/nearest-neighbor.js): the JS
`(nearest, nearestDist)` pair, `none` standing for `-1` / `Infinity`. -/
def scan (graph : Graph) (visited : ℕ → Bool) (current n : ℕ) :
    Option ℕ × Option ℚ :=
  (List.range n).foldl
    (fun acc i =>
      if !(visited i) && (match acc.2 with
          | none => true
          | some d => decide (graph current i < d)) then
        (some i, some (graph current i))
      else acc)
    (none, none)

/-- Embedding of the `while (tour.length < n)` loop of
`NearestNeighbor.generateTour`.  The JS loop body makes progress exactly when
the scan finds an unvisited city; with a total rational matrix the scan always
succeeds while `tour.length < n`, so fuel `n` suffices.  (When the scan finds
nothing the JS loop would spin forever; that state is unreachable and modelled
by returning the tour.) -/
def loop (graph : Graph) (n : ℕ) : ℕ → (ℕ → Bool) → List ℕ → ℕ → List ℕ
  | 0, _, tour, _ => tour
  | fuel + 1, visited, tour, current =>
      if tour.length < n then
        match (scan graph visited current n).1 with
        | some nearest =>
            loop graph n fuel (fun j => j = nearest || visited j)
              (tour ++ [nearest]) nearest
        | none => tour
      else tour

/-- Embedding of `NearestNeighbor.generateTour(points, graph, startCity = 0)`
(src/algorithms/nearest-neighbor.js); `n` is `points.length`, the only use the
source makes of `points`. -/
def generateTour (n : ℕ) (graph : Graph) (startCity : ℕ := 0) : List ℕ :=
  loop graph n n (fun j => j = startCity) [startCity] startCity

end NearestNeighbor

namespace TwoOpt

/-- Embedding of the segment-reversal loop inside `TwoOpt.improve`
(src/algorithms/two-opt.js):
`for (k = 0; k <= j - i - 1; k++) newTour[i + 1 + k] = currentTour[j - k]`,
starting from a copy of the tour. -/
def reverseSegment (t : List ℕ) (i j : ℕ) : List ℕ :=
  (List.range (j - i)).foldl (fun nt k => nt.set (i + 1 + k) (t.getD (j - k) 0)) t

/-- Embedding of the inner-loop body of `TwoOpt.improve` for one index pair
`(i, j)`; the state is the JS `(currentTour, improved)` pair.  `n` is the
`tour.length` captured at entry. -/
def improveStep (graph : Graph) (n : ℕ) (st : List ℕ × Bool) (i j : ℕ) :
    List ℕ × Bool :=
  if j = n - 1 ∧ i = 0 then st
  else
    let t := st.1
    let currentDistance := graph (t.getD i 0) (t.getD (i + 1) 0) +
      graph (t.getD j 0) (t.getD ((j + 1) % n) 0)
    let newDistance := graph (t.getD i 0) (t.getD j 0) +
      graph (t.getD (i + 1) 0) (t.getD ((j + 1) % n) 0)
    if newDistance < currentDistance then (reverseSegment t i j, true) else st

/-- Embedding of one full `(i, j)` double scan of `TwoOpt.improve`
(one iteration of the outer `while`). -/
def improvePass (graph : Graph) (n : ℕ) (st : List ℕ × Bool) : List ℕ × Bool :=
  (List.range (n - 1)).foldl
    (fun st i =>
      (List.range' (i + 2) (n - (i + 2))).foldl
        (fun st j => improveStep graph n st i j) st)
    st

/-- Embedding of the `while (improved && iterations < maxIterations)` loop of
`TwoOpt.improve`; the fuel is the remaining iteration budget. -/
def improveLoop (graph : Graph) (n : ℕ) : ℕ → List ℕ → List ℕ
  | 0, cur => cur
  | fuel + 1, cur =>
      let r := improvePass graph n (cur, false)
      if r.2 then improveLoop graph n fuel r.1 else r.1

/-- Embedding of `TwoOpt.improve(tour, graph, maxIterations = 100)`
(src/algorithms/two-opt.js). -/
def improve (tour : List ℕ) (graph : Graph) (maxIterations : ℕ := 100) : List ℕ :=
  improveLoop graph tour.length maxIterations tour

/-- The improving-reversal test of `TwoOpt.improve`'s inner loop for pair
`(i, j)` (including the `(0, n-1)` skip), as a Boolean. -/
def improving (graph : Graph) (n : ℕ) (t : List ℕ) (i j : ℕ) : Bool :=
  if j = n - 1 ∧ i = 0 then false
  else
    decide (graph (t.getD i 0) (t.getD j 0) +
        graph (t.getD (i + 1) 0) (t.getD ((j + 1) % n) 0) <
      graph (t.getD i 0) (t.getD (i + 1) 0) +
        graph (t.getD j 0) (t.getD ((j + 1) % n) 0))

/-- All index pairs `(i, j)`, `0 ≤ i < n-1`, `i+2 ≤ j < n`, in the
lexicographic order in which the nested loops of `improve` visit them. -/
def pairList (n : ℕ) : List (ℕ × ℕ) :=
  (List.range (n - 1)).flatMap
    (fun i => (List.range' (i + 2) (n - (i + 2))).map (fun j => (i, j)))

/-- Reference formulation of one pass written from the spec's words: walk the
pairs in lexicographic order, applying each improving reversal to the current
tour as it is encountered (continuing, not restarting, the scan). -/
def continuePass (graph : Graph) (n : ℕ) (st : List ℕ × Bool) : List ℕ × Bool :=
  (pairList n).foldl (fun st p => improveStep graph n st p.1 p.2) st

/-- Reference continue-scan loop built on `continuePass`. -/
def continueLoop (graph : Graph) (n : ℕ) : ℕ → List ℕ → List ℕ
  | 0, cur => cur
  | fuel + 1, cur =>
      let r := continuePass graph n (cur, false)
      if r.2 then continueLoop graph n fuel r.1 else r.1

/-- Reference first-improvement algorithm that continues the current scan
after an applied reversal and rescans from the top only after a pass that
improved. -/
def improveContinue (tour : List ℕ) (graph : Graph) (maxIterations : ℕ) : List ℕ :=
  continueLoop graph tour.length maxIterations tour

/-- Modelled from the spec (claim C5's reference algorithm): a
first-improvement 2-opt that applies the first improving reversal found in
lexicographic `(i, j)` order and then restarts the scan from the top of the
now-mutated tour; the iteration cap bounds the number of applied reversals. -/
def restartLoop (graph : Graph) (n : ℕ) : ℕ → List ℕ → List ℕ
  | 0, t => t
  | fuel + 1, t =>
      match (pairList n).find? (fun p => improving graph n t p.1 p.2) with
      | none => t
      | some p => restartLoop graph n fuel (reverseSegment t p.1 p.2)

/-- Modelled from the spec (claim C5's reference algorithm), entry point. -/
def improveRestart (tour : List ℕ) (graph : Graph) (maxIterations : ℕ) : List ℕ :=
  restartLoop graph tour.length maxIterations tour

end TwoOpt

/-- A concrete symmetric non-negative test matrix. -/
def addGraph : Graph := fun a b => (a : ℚ) + (b : ℚ)

/-- Concrete symmetric 6-city matrix on which the embedded 2-opt and the
restart-scan reference diverge. -/
def g6 : Graph := fun a b =>
  ((([[0, 5, 4, 2, 6, 1], [5, 0, 1, 1, 9, 1], [4, 1, 0, 7, 4, 7],
      [2, 1, 7, 0, 1, 9], [6, 9, 4, 1, 0, 4], [1, 1, 7, 9, 4, 0]] :
      List (List ℚ)).getD a []).getD b 0)

namespace Genetic

/-- Embedding of the segment-copy loop of `crossover` (src/algorithms/genetic.js):
`for (i = start; i <= end; i++) { child[i] = parent1[i]; used.add(parent1[i]); }`,
starting from `child = new Array(n).fill(-1)` and an empty `used` set. -/
def segmentCopy (parent1 : List ℕ) (n start endIdx : ℕ) : List ℤ × Finset ℕ :=
  (List.range' start (endIdx + 1 - start)).foldl
    (fun acc i =>
      (acc.1.set i ((parent1.getD i 0 : ℕ) : ℤ), insert (parent1.getD i 0) acc.2))
    (List.replicate n (-1 : ℤ), (∅ : Finset ℕ))

/-- Embedding of the fill loop of `crossover`:
`idx = (end + 1) % n; for (i = 0; i < n; i++) { city = parent2[(end+1+i) % n];
if (!used.has(city)) { child[idx] = city; idx = (idx + 1) % n; } }`. -/
def fillLoop (parent2 : List ℕ) (used : Finset ℕ) (n endIdx : ℕ)
    (child : List ℤ) : List ℤ :=
  ((List.range n).foldl
    (fun (acc : List ℤ × ℕ) i =>
      let city := parent2.getD ((endIdx + 1 + i) % n) 0
      if city ∈ used then acc
      else (acc.1.set acc.2 ((city : ℕ) : ℤ), (acc.2 + 1) % n))
    (child, (endIdx + 1) % n)).1

/-- Embedding of `crossover(parent1, parent2)` (src/algorithms/genetic.js)
with the two random draws exposed as the segment bounds `start ≤ endIdx < n`
(`start = ⌊rand·n⌋`, `endIdx = start + ⌊rand·(n - start)⌋`). -/
def crossover (parent1 parent2 : List ℕ) (start endIdx : ℕ) : List ℤ :=
  let n := parent1.length
  let seg := segmentCopy parent1 n start endIdx
  fillLoop parent2 seg.2 n endIdx seg.1

/-- The list a fill pass places, in placement order: the rotation of
`parent2` starting after the segment, with already-used cities dropped. -/
def fillList (parent2 : List ℕ) (used : Finset ℕ) (n endIdx : ℕ) : List ℕ :=
  ((List.range n).map (fun i => parent2.getD ((endIdx + 1 + i) % n) 0)).filter
    (fun c => !(c ∈ used))

/-- Place the cities of `L` at successive positions modulo `n` starting at
`idx`. -/
def place (n : ℕ) : List ℤ → ℕ → List ℕ → List ℤ
  | child, _, [] => child
  | child, idx, c :: cs => place n (child.set idx ((c : ℕ) : ℤ)) ((idx + 1) % n) cs

end Genetic

/-- A planar point as produced by the point generator: position, angle from
the center, and a stable id. -/
structure Point where
  x : ℚ
  y : ℚ
  angle : ℚ
  id : ℕ

instance : Inhabited Point := ⟨⟨0, 0, 0, 0⟩⟩

namespace Zigzag

/-- Embedding of `shouldZigzag(i, pts)` (the zigzag module): compares the two
straight edges `(p1,p2)+(p3,p4)` against the crossed edges `(p1,p3)+(p2,p4)`
for the window `{i-1, i, i+1, i+2}` (indices modulo the list length).  The
JS `distance` (`Math.hypot`, a float) is abstracted as the parameter `dist`. -/
def shouldZigzag (dist : Point → Point → ℚ) (i : ℕ) (pts : List Point) : Bool :=
  let p1 := pts.getD ((i - 1 + pts.length) % pts.length) default
  let p2 := pts.getD (i % pts.length) default
  let p3 := pts.getD ((i + 1) % pts.length) default
  let p4 := pts.getD ((i + 2) % pts.length) default
  decide (dist p1 p3 + dist p2 p4 < dist p1 p2 + dist p3 p4)

/-- Embedding of the `while (i < tourPoints.length)` walk of
`Zigzag.optimize`: emission of `originalId`s (which are exactly the entries
of `tourIndices`), with the window-advance by 3 on an improving swap.
`fuel` bounds the iteration count (`i` grows by at least 1 per step). -/
def walk (dist : Point → Point → ℚ) (pts : List Point) (tourIndices : List ℕ) :
    ℕ → ℕ → List ℕ → List ℕ
  | 0, _, acc => acc
  | fuel + 1, i, acc =>
      if i < tourIndices.length then
        if tourIndices.length - i > 2 ∧ shouldZigzag dist i pts then
          walk dist pts tourIndices fuel (i + 3)
            (acc ++ [tourIndices.getD (i - 1) 0,
              tourIndices.getD ((i + 1) % tourIndices.length) 0,
              tourIndices.getD (i % tourIndices.length) 0,
              tourIndices.getD ((i + 2) % tourIndices.length) 0])
        else
          walk dist pts tourIndices fuel (i + 1)
            (acc ++ [tourIndices.getD (i - 1) 0,
              tourIndices.getD (i % tourIndices.length) 0])
      else acc

/-- First-occurrence deduplication, the JS `[...new Set(newTour)]`. -/
def dedupFirst : List ℕ → List ℕ
  | [] => []
  | x :: xs => x :: dedupFirst (xs.filter (fun y => y ≠ x))
termination_by l => l.length
decreasing_by
  · have := List.length_filter_le (fun y => decide (y ≠ x)) xs
    simp only [List.length_cons]
    omega

/-- Embedding of `Zigzag.optimize(tourIndices, points, graph)`
(the zigzag module; `graph` is unused by the source). -/
def optimize (dist : Point → Point → ℚ) (tourIndices : List ℕ)
    (points : List Point) : List ℕ :=
  let tourPoints := tourIndices.map (fun idx => points.getD idx default)
  dedupFirst (walk dist tourPoints tourIndices (tourIndices.length + 1) 1 [])

end Zigzag

/-! Masks as city sets. -/
/-- The set of cities encoded by a Held-Karp bitmask `m` (bits `1..n-1`). -/
def MaskBits (n m : ℕ) : Finset ℕ := (Finset.Ico 1 n).filter (fun j => m.testBit j)

/-- The number of cities encoded by a bitmask. -/
def maskSize (n m : ℕ) : ℕ := (MaskBits n m).card

/-- A mask is valid when bit 0 is clear and every set bit indexes a city. -/
def ValidMask (n m : ℕ) : Prop := m.testBit 0 = false ∧ ∀ j, m.testBit j = true → j < n

/-- A dp/parent key `(m, last)` is well formed when `m` is a valid mask
containing `last`. -/
def KeyOK (n m last : ℕ) : Prop := ValidMask n m ∧ m.testBit last = true

/-! Hamiltonian paths over a mask. -/
/-- `σ` lists, without repetition, exactly the cities set in mask `m`. -/
def IsPathOver (m : ℕ) (σ : List ℕ) : Prop :=
  σ.Nodup ∧ ∀ x, x ∈ σ ↔ m.testBit x = true

/-! A generic first-minimum fold, the common shape of the `bestPrev` and
final minimizations in `heldKarp`. -/
/-- One step of the JS `if (dist < best)` minimum scan. -/
def minFoldStep (cand : ℕ → Option ℚ) (acc : Option ℚ × Option ℕ) (i : ℕ) :
    Option ℚ × Option ℕ :=
  match cand i with
  | none => acc
  | some c =>
      match acc.1 with
      | none => (some c, some i)
      | some b => if c < b then (some c, some i) else acc

/-- The `(best, argbest)` pair computed by scanning `l` left to right. -/
def minFold (cand : ℕ → Option ℚ) (l : List ℕ) : Option ℚ × Option ℕ :=
  l.foldl (minFoldStep cand) (none, none)

/-! The Held-Karp dp invariants. -/
/-- Every stored dp value is the exact minimum cost of a Hamiltonian path
from city 0 through the cities of its mask, ending at its `last` key. -/
def DPSound (graph : Graph) (n : ℕ) (dp : ℕ → ℕ → Option ℚ) : Prop :=
  ∀ m last v, dp m last = some v →
    KeyOK n m last ∧
    (∃ σ, IsPathOver m σ ∧ σ.getLast? = some last ∧ v = pathLen graph (0 :: σ)) ∧
    (∀ σ, IsPathOver m σ → σ.getLast? = some last → v ≤ pathLen graph (0 :: σ))

/-- All well-formed keys of mask size at most `s` are present in the dp map. -/
def DPComplete (n : ℕ) (dp : ℕ → ℕ → Option ℚ) (s : ℕ) : Prop :=
  ∀ m last, KeyOK n m last → maskSize n m ≤ s → (dp m last).isSome = true

/-- The body of the `for (last = 1; last < n; last++)` loop of `heldKarp`,
named so that the fold in `hkProcessMask` can be split and analysed. -/
def hkMaskStep (graph : Graph) (n mask : ℕ) (st : HKState) (last : ℕ) : HKState :=
  if mask &&& (1 <<< last) = 0 then st
  else if mask ^^^ (1 <<< last) = 0 then st
  else
    match hkBestPrev graph st.dp n (mask ^^^ (1 <<< last)) last with
    | (some bestDist, bestPrev) =>
        { dp := mapUpdate st.dp mask last (some bestDist)
          par := mapUpdate st.par mask last bestPrev }
    | (none, _) => st

/-- The body of the base-case loop `for (i = 1; i < n; i++)` of `heldKarp`. -/
def hkBaseStep (graph : Graph) (st : HKState) (i : ℕ) : HKState :=
  { dp := mapUpdate st.dp (1 <<< i) i (some (graph 0 i))
    par := mapUpdate st.par (1 <<< i) i (some 0) }

/-- The empty dp/parent maps. -/
def hkInit : HKState := ⟨fun _ _ => none, fun _ _ => none⟩

namespace AngularSort

/-! ### Angular sort (src/algorithms/angular-sort.js) -/
/-- Embedding of `AngularSort.generateTour(points)`
(src/algorithms/angular-sort.js): copy the point list, sort it by the
`a.angle - b.angle` comparator (a stable ascending sort on `angle`), and map
each point to its id. -/
def generateTour (points : List Point) : List ℕ :=
  (points.mergeSort (fun a b => a.angle ≤ b.angle)).map (fun p => p.id)

end AngularSort

namespace SonarVisit

/-! ### Sonar visit (src/algorithms/sonar-visit.js) -/
/-- Embedding of `SonarVisit.generateTour(points, gridSize = 40)`
(src/algorithms/sonar-visit.js).  The JS groups points into a `Map` from
angle-bucket index to array (insertion order), sorts each bucket by distance
from the centre `(0.5, 0.5)`, and concatenates the buckets in index order,
skipping absent buckets (here: empty buckets).  The float constant `Math.PI`
enters as the abstract rational parameter `pi`, and the `Math.hypot` distance
from the centre used by the in-bucket comparator enters as the abstract
`centerDist`, floats being read as exact rationals throughout. -/
def generateTour (pi : ℚ) (centerDist : Point → ℚ) (points : List Point)
    (gridSize : ℕ := 40) : List ℕ :=
  let angleSteps := 4 * gridSize
  let angleStep := (2 * pi) / (angleSteps : ℚ)
  let angleBuckets : ℤ → List Point :=
    points.foldl (fun m p =>
      let angle := if p.angle < 0 then p.angle + 2 * pi else p.angle
      let bucketIndex := ⌊angle / angleStep⌋
      fun k => if k = bucketIndex then m k ++ [p] else m k)
      (fun _ => [])
  (List.range angleSteps).flatMap (fun i =>
    ((angleBuckets (i : ℤ)).mergeSort (fun a b => centerDist a ≤ centerDist b)).map
      (fun p => p.id))

/-- The bucket map as a fold, with the bucket-index function abstracted. -/
def bucketFold (f : Point → ℤ) (pts : List Point) : ℤ → List Point :=
  pts.foldl (fun m p => fun k => if k = f p then m k ++ [p] else m k) (fun _ => [])

end SonarVisit

namespace NearestNeighbor

/-- The body of the `for (i = 0; i < n; i++)` scan, named for analysis. -/
def scanStep (graph : Graph) (visited : ℕ → Bool) (current : ℕ)
    (acc : Option ℕ × Option ℚ) (i : ℕ) : Option ℕ × Option ℚ :=
  if !(visited i) && (match acc.2 with
      | none => true
      | some d => decide (graph current i < d)) then
    (some i, some (graph current i))
  else acc

end NearestNeighbor

namespace GreedyEdge

/-! ### Greedy edge (src/algorithms/genetic.js, `GreedyEdge.generateTour`) -/
/-- A JS edge object `{ from, to, dist }`; the reserved Lean names `from`/`to`
are rendered `src`/`dst`. -/
structure GEdge where
  src : ℕ
  dst : ℕ
  dist : ℚ

/-- Embedding of the edge enumeration
`for (i = 0; i < n; i++) for (j = i + 1; j < n; j++) edges.push({...})`. -/
def edgeList (graph : Graph) (n : ℕ) : List GEdge :=
  (List.range n).flatMap (fun i =>
    (List.range' (i + 1) (n - (i + 1))).map (fun j => ⟨i, j, graph i j⟩))

/-- Embedding of the union-find `find(x)` as a pure root lookup with fuel.
The source's path compression only re-points traversed nodes at their root,
changing no root and no root-equality; the embedding keeps the uncompressed
parent map, on which `ufFind` with fuel `n` reaches the same root. -/
def ufFind (parent : ℕ → ℕ) : ℕ → ℕ → ℕ
  | 0, x => x
  | fuel + 1, x => if parent x = x then x else ufFind parent fuel (parent x)

/-- The mutable arrays of the edge-selection loop: `degree`, `parent`,
`adj`, and the accepted-edge counter. -/
structure GEState where
  degree : ℕ → ℕ
  parent : ℕ → ℕ
  adj : ℕ → List ℕ
  edgeCount : ℕ

/-- Embedding of one iteration of `for (const edge of edges)`.  The JS
`break` once `edgeCount >= n` is modelled by the first guard: after it fires
the state never changes again, so skipping the remaining edges equals
breaking. -/
def acceptEdge (n : ℕ) (st : GEState) (e : GEdge) : GEState :=
  if n ≤ st.edgeCount then st
  else if 2 ≤ st.degree e.src ∨ 2 ≤ st.degree e.dst then st
  else if st.edgeCount < n - 1 ∧
      ufFind st.parent n e.src = ufFind st.parent n e.dst then st
  else
    let deg1 : ℕ → ℕ := fun x => if x = e.src then st.degree x + 1 else st.degree x
    let adj1 : ℕ → List ℕ := fun x => if x = e.src then st.adj x ++ [e.dst] else st.adj x
    { degree := fun x => if x = e.dst then deg1 x + 1 else deg1 x
      parent := fun x => if x = ufFind st.parent n e.src
        then ufFind st.parent n e.dst else st.parent x
      adj := fun x => if x = e.dst then adj1 x ++ [e.src] else adj1 x
      edgeCount := st.edgeCount + 1 }

/-- The initial arrays: degrees `0`, identity parents, empty adjacency. -/
def initState : GEState :=
  { degree := fun _ => 0, parent := fun x => x, adj := fun _ => [], edgeCount := 0 }

/-- The selection phase: sort all edges by distance and fold the acceptance
loop over them. -/
def buildState (graph : Graph) (n : ℕ) : GEState :=
  ((edgeList graph n).mergeSort (fun a b => a.dist ≤ b.dist)).foldl
    (acceptEdge n) initState

/-- Embedding of the `while (tour.length < n)` adjacency walk. -/
def walkLoop (adj : ℕ → List ℕ) (n : ℕ) : ℕ → (ℕ → Bool) → List ℕ → ℕ → List ℕ
  | 0, _, tour, _ => tour
  | fuel + 1, visited, tour, current =>
      if tour.length < n then
        let visited' := fun j => j = current || visited j
        match (adj current).find? (fun nb => !(visited' nb)) with
        | some next => walkLoop adj n fuel visited' (tour ++ [current]) next
        | none => tour ++ [current]
      else tour

/-- Embedding of `GreedyEdge.generateTour(points, graph)`
(src/algorithms/genetic.js); `n` is `points.length`, the only use the source
makes of `points`. -/
def generateTour (n : ℕ) (graph : Graph) : List ℕ :=
  walkLoop (buildState graph n).adj n n (fun _ => false) [] 0

/-- `y` directly follows `x` somewhere in the vertex list `c`. -/
def AdjPair (L : List ℕ) (x y : ℕ) : Prop :=
  ∃ i, L[i]? = some x ∧ L[i + 1]? = some y

/-- `x` and `y` are neighbours on some path component. -/
def AdjIn (comps : List (List ℕ)) (x y : ℕ) : Prop :=
  ∃ c ∈ comps, AdjPair c x y ∨ AdjPair c y x

/-- The linear-forest invariant of the edge-selection loop: the accepted
edges partition the cities into simple paths, `adj`/`degree` record exactly
the path neighbourhoods, and the union-find map roots every component at a
single in-component fixpoint. -/
structure ForestInv (n : ℕ) (st : GEState) (comps : List (List ℕ)) : Prop where
  flat_perm : comps.flatten.Perm (List.range n)
  nonempty : ∀ c ∈ comps, c ≠ []
  adj_spec : ∀ x y, y ∈ st.adj x ↔ AdjIn comps x y
  deg_len : ∀ x, st.degree x = (st.adj x).length
  adj_nodup : ∀ x, (st.adj x).Nodup
  uf_reach : ∀ c ∈ comps, ∀ x ∈ c, ∃ k, k < c.length ∧
      (∀ j, j ≤ k → st.parent^[j] x ∈ c) ∧
      st.parent (st.parent^[k] x) = st.parent^[k] x
  uf_same : ∀ c ∈ comps, ∀ x ∈ c, ∀ y ∈ c,
      ufFind st.parent n x = ufFind st.parent n y
  count : st.edgeCount + comps.length = n

/-- The closed-cycle invariant holding after the final edge: the accepted
edges form one Hamiltonian cycle, recorded as the path `C` plus the closing
edge between its two ends. -/
structure CycleInv (n : ℕ) (st : GEState) (C : List ℕ) : Prop where
  perm : C.Perm (List.range n)
  adj_spec : ∀ x y, y ∈ st.adj x ↔ (AdjPair C x y ∨ AdjPair C y x ∨
      (C.getLast? = some x ∧ C.head? = some y) ∨
      (C.getLast? = some y ∧ C.head? = some x))
  count : st.edgeCount = n

/-- The selection-loop invariant. -/
def GEInv (n : ℕ) (st : GEState) : Prop :=
  (∃ comps, ForestInv n st comps) ∨ (∃ C, CycleInv n st C)

/-- The state produced by the accepting branch of `acceptEdge`, with its
`let`-bindings expanded. -/
def addState (n : ℕ) (st : GEState) (u v : ℕ) : GEState :=
  { degree := fun x => if x = v then (if x = u then st.degree x + 1 else st.degree x) + 1
      else (if x = u then st.degree x + 1 else st.degree x)
    parent := fun x => if x = ufFind st.parent n u then ufFind st.parent n v else st.parent x
    adj := fun x => if x = v then (if x = u then st.adj x ++ [v] else st.adj x) ++ [u]
      else (if x = u then st.adj x ++ [v] else st.adj x)
    edgeCount := st.edgeCount + 1 }

/-! The tour-reconstruction walk.  Positions on the final cycle are read
through `cyc`, the cyclic indexing of the cycle list. -/
def cyc (C : List ℕ) (n i : ℕ) : ℕ := C.getD (i % n) 0

end GreedyEdge

theorem pathLen_nil (graph : Graph) : pathLen graph [] = 0 := rfl

theorem pathLen_single (graph : Graph) (a : ℕ) : pathLen graph [a] = 0 := rfl

theorem pathLen_cons_cons (graph : Graph) (a b : ℕ) (tl : List ℕ) :
    pathLen graph (a :: b :: tl) = graph a b + pathLen graph (b :: tl) := rfl

/-- The chain sum `Σ f (zip (a::l) (l ++ [c]))` is the open path length of
`a::l` plus the closing edge from its last element to `c`. -/
theorem zip_chain_sum (graph : Graph) (l : List ℕ) (a c : ℕ) :
    (((a :: l).zip (l ++ [c])).map (fun p => graph p.1 p.2)).sum =
      pathLen graph (a :: l) + graph ((a :: l).getLast (by simp)) c := by
  induction l generalizing a with
  | nil => simp [pathLen]
  | cons b tl ih =>
      have h := ih b
      simp only [List.zip_cons_cons, List.map_cons, List.sum_cons, List.cons_append] at *
      rw [h]
      rw [pathLen_cons_cons]
      have hlast : (a :: b :: tl).getLast (by simp) = (b :: tl).getLast (by simp) := by
        simp [List.getLast_cons]
      rw [hlast]
      ring

/-- `calculateTourLength` written as a sum over the zip of the tour with its
rotation by one. -/
theorem calculateTourLength_eq_zip (graph : Graph) (t : List ℕ) :
    calculateTourLength graph t =
      ((t.zip (t.rotate 1)).map (fun p => graph p.1 p.2)).sum := by
  unfold calculateTourLength
  congr 1
  apply List.ext_getElem
  · simp [Nat.min_self]
  · intro i h1 h2
    simp only [List.getElem_map, List.getElem_range, List.getElem_zip]
    simp only [List.length_map, List.length_range] at h1
    have hn : 0 < t.length := Nat.lt_of_lt_of_le (Nat.zero_lt_succ i) h1
    rw [List.getElem_rotate]
    rw [List.getD_eq_getElem t 0 h1, List.getD_eq_getElem t 0 (Nat.mod_lt _ hn)]

theorem pathLen_cons (graph : Graph) (a : ℕ) (l : List ℕ) (h : l ≠ []) :
    pathLen graph (a :: l) = graph a (l.head h) + pathLen graph l := by
  rcases l with _ | ⟨b, tl⟩
  · exact absurd rfl h
  · rfl

theorem pathLen_append (graph : Graph) (l₁ l₂ : List ℕ) (h₁ : l₁ ≠ []) (h₂ : l₂ ≠ []) :
    pathLen graph (l₁ ++ l₂) =
      pathLen graph l₁ + graph (l₁.getLast h₁) (l₂.head h₂) + pathLen graph l₂ := by
  induction l₁ with
  | nil => exact absurd rfl h₁
  | cons a tl ih =>
      rcases tl with _ | ⟨b, tl'⟩
      · rw [List.singleton_append, pathLen_cons graph a l₂ h₂, pathLen_single,
            List.getLast_singleton]
        ring
      · have h' : (b :: tl') ≠ [] := by simp
        have hstep : (a :: b :: tl') ++ l₂ = a :: ((b :: tl') ++ l₂) := rfl
        have hstep2 : (b :: tl') ++ l₂ = b :: (tl' ++ l₂) := rfl
        rw [hstep, hstep2, pathLen_cons_cons, ← hstep2, ih h', pathLen_cons_cons]
        have hlast : (a :: b :: tl').getLast h₁ = (b :: tl').getLast h' := by
          simp [List.getLast_cons]
        rw [hlast]
        ring

/-- The cyclic tour length decomposes into the open path length plus the
wrap-around edge. -/
theorem calculateTourLength_eq_pathLen (graph : Graph) (t : List ℕ) (h : t ≠ []) :
    calculateTourLength graph t =
      pathLen graph t + graph (t.getLast h) (t.head h) := by
  rcases t with _ | ⟨a, rest⟩
  · exact absurd rfl h
  · rw [calculateTourLength_eq_zip]
    rw [List.rotate_cons_succ, List.rotate_zero]
    rw [zip_chain_sum]
    simp

/-- Tour length is invariant under rotation by one. -/
theorem calculateTourLength_rotate_one (graph : Graph) (t : List ℕ) :
    calculateTourLength graph (t.rotate 1) = calculateTourLength graph t := by
  rcases t with _ | ⟨a, rest⟩
  · simp [calculateTourLength]
  · rcases rest with _ | ⟨b, tl⟩
    · simp [List.rotate_singleton]
    · rw [List.rotate_cons_succ, List.rotate_zero]
      have hne : (b :: tl : List ℕ) ≠ [] := by simp
      have hne2 : (b :: tl) ++ [a] ≠ [] := by simp
      rw [calculateTourLength_eq_pathLen graph _ hne2,
          calculateTourLength_eq_pathLen graph _ (by simp)]
      rw [pathLen_append graph _ _ hne (by simp)]
      rw [pathLen_cons graph a _ hne]
      have h1 : ((b :: tl) ++ [a]).getLast hne2 = a := by
        simp [List.getLast_append]
      have h2 : ((b :: tl) ++ [a]).head hne2 = b := rfl
      have h3 : (a :: b :: tl).getLast (by simp) = (b :: tl).getLast hne := by
        simp [List.getLast_cons]
      rw [h1, h2, h3]
      simp [pathLen_single, List.head_cons]
      ring

/-- Tour length is invariant under arbitrary rotation (cyclic invariance). -/
theorem calculateTourLength_rotate (graph : Graph) (t : List ℕ) (k : ℕ) :
    calculateTourLength graph (t.rotate k) = calculateTourLength graph t := by
  induction k with
  | zero => simp
  | succ k ih =>
      have : t.rotate (k + 1) = (t.rotate k).rotate 1 := by
        rw [List.rotate_rotate]
      rw [this, calculateTourLength_rotate_one, ih]

theorem listSwap_length (l : List ℕ) (a b : ℕ) :
    (listSwap l a b).length = l.length := by
  simp [listSwap]

theorem count_set (l : List ℕ) (i x y : ℕ) (h : i < l.length) :
    (l.set i x).count y + (if l[i] = y then 1 else 0) =
      l.count y + (if x = y then 1 else 0) := by
  induction l generalizing i with
  | nil => simp at h
  | cons a tl ih =>
      cases i with
      | zero => simp [List.count_cons]; omega
      | succ j =>
          simp only [List.set_cons_succ, List.count_cons, List.getElem_cons_succ]
          have := ih j (by simpa using h)
          omega

theorem listSwap_perm (l : List ℕ) (a b : ℕ) (ha : a < l.length) (hb : b < l.length) :
    (listSwap l a b).Perm l := by
  have hgb : l.getD b 0 = l[b] := List.getD_eq_getElem l 0 hb
  have hga : l.getD a 0 = l[a] := List.getD_eq_getElem l 0 ha
  show ((l.set a (l.getD b 0)).set b (l.getD a 0)).Perm l
  rw [hga, hgb]
  rw [List.perm_iff_count]
  intro y
  have hb' : b < (l.set a l[b]).length := by simpa using hb
  have h1 := count_set (l.set a l[b]) b (l[a]) y hb'
  have h2 := count_set l a (l[b]) y ha
  rcases eq_or_ne a b with h | h
  · subst h
    have hget : (l.set a l[a])[a] = l[a] := by simp
    rw [hget] at h1
    omega
  · have hget : (l.set a l[b])[b] = l[b] := by
      rw [List.getElem_set_ne h]
    rw [hget] at h1
    omega

theorem calculateTourLength_zeroGraph (t : List ℕ) :
    calculateTourLength zeroGraph t = 0 := by
  unfold calculateTourLength zeroGraph
  simp

theorem permuteAux_zeroGraph (fuel : ℕ) (arr : List ℕ) (start : ℕ) (t : List ℕ) :
    permuteAux zeroGraph fuel arr start (t, 0) = (t, 0) := by
  induction fuel generalizing arr start t with
  | zero => rfl
  | succ fuel ih =>
      rw [permuteAux]
      split
      · simp [calculateTourLength_zeroGraph]
      · generalize List.range' start (arr.length - start) = l
        induction l with
        | nil => rfl
        | cons x xs ihl =>
            rw [List.foldl_cons, ih (listSwap arr start x) (start + 1) t]
            exact ihl

/-- C3 (counterexample): called directly with `n = 21 > 20`, `bruteForceExact`
does not return the infeasibility signal — it runs its permutation search and
returns a `(tour, length)` pair (here, on the all-zero matrix, the identity
ordering with length 0).  Only `findOptimal` checks the feasibility ceiling. -/
theorem claim_C3_counterexample :
    bruteForceExact zeroGraph 21 = (List.range 21, 0) := by
  show permuteAux zeroGraph 21 (List.range 21) 1
      (List.range 21, calculateTourLength zeroGraph (List.range 21)) = (List.range 21, 0)
  rw [calculateTourLength_zeroGraph]
  exact permuteAux_zeroGraph 21 (List.range 21) 1 (List.range 21)

/-- C3 (amended): `findOptimal(graph, n)` returns `null` for every matrix and
every `n > 20`, without attempting any computation; in particular
`findOptimal(graph, 25) = null`.  The individual solvers `bruteForceExact` and
`heldKarp` do not themselves check the ceiling. -/
theorem claim_C3 (graph : Graph) (n : ℕ) (h : 20 < n) :
    findOptimal graph n = none := by
  unfold findOptimal
  rw [if_pos h]

/-- Concrete instantiation of `claim_C3` at `n = 25`. -/
theorem claim_C3_witness : findOptimal zeroGraph 25 = none :=
  claim_C3 zeroGraph 25 (by norm_num)

theorem take_set_of_le (l : List ℕ) (j v k : ℕ) (h : k ≤ j) :
    (l.set j v).take k = l.take k := by
  apply List.ext_getElem
  · simp
  · intro i h1 h2
    have hik : i < k := by simp at h1; omega
    simp only [List.getElem_take]
    rw [List.getElem_set_ne (by omega)]

theorem drop_perm_of_take_eq {σ arr : List ℕ} (h : σ.Perm arr) (k : ℕ)
    (htake : σ.take k = arr.take k) : (σ.drop k).Perm (arr.drop k) := by
  have h1 : σ.take k ++ σ.drop k = σ := List.take_append_drop k σ
  have h2 : arr.take k ++ arr.drop k = arr := List.take_append_drop k arr
  rw [← h1, ← h2, htake] at h
  exact (List.perm_append_left_iff _).mp h

theorem foldl_invariant {α β : Type _} (P : α → Prop) (f : α → β → α) (l : List β)
    (st : α) (hstep : ∀ st x, x ∈ l → P st → P (f st x)) (h0 : P st) :
    P (l.foldl f st) := by
  induction l generalizing st with
  | nil => exact h0
  | cons x xs ih =>
      exact ih _ (fun st y hy => hstep st y (List.mem_cons_of_mem _ hy))
        (hstep st x (List.mem_cons_self _ _) h0)

theorem foldl_snd_le {f : List ℕ × ℚ → ℕ → List ℕ × ℚ}
    (hf : ∀ st i, (f st i).2 ≤ st.2) (l : List ℕ) :
    ∀ st, (l.foldl f st).2 ≤ st.2 := by
  induction l with
  | nil => intro st; exact le_refl _
  | cons x xs ih =>
      intro st
      exact le_trans (ih (f st x)) (hf st x)

/-- The best length tracked by `permute` never increases. -/
theorem permuteAux_snd_le (graph : Graph) (fuel : ℕ) :
    ∀ (arr : List ℕ) (start : ℕ) (st : List ℕ × ℚ),
      (permuteAux graph fuel arr start st).2 ≤ st.2 := by
  induction fuel with
  | zero => intro arr start st; exact le_refl _
  | succ fuel ih =>
      intro arr start st
      rw [permuteAux]
      split
      · dsimp only
        split
        · next h => exact le_of_lt h
        · exact le_refl _
      · exact foldl_snd_le (fun st i => ih _ _ st) _ st

/-- The tracked state always holds a permutation of the base city list
together with its exact tour length. -/
theorem permuteAux_good (graph : Graph) (base : List ℕ) (fuel : ℕ) :
    ∀ (arr : List ℕ) (start : ℕ) (st : List ℕ × ℚ),
      arr.Perm base →
      st.1.Perm base → st.2 = calculateTourLength graph st.1 →
      (permuteAux graph fuel arr start st).1.Perm base ∧
        (permuteAux graph fuel arr start st).2 =
          calculateTourLength graph (permuteAux graph fuel arr start st).1 := by
  induction fuel with
  | zero => intro arr start st _ h1 h2; exact ⟨h1, h2⟩
  | succ fuel ih =>
      intro arr start st harr h1 h2
      rw [permuteAux]
      split
      · dsimp only
        split
        · exact ⟨harr, rfl⟩
        · exact ⟨h1, h2⟩
      · refine foldl_invariant
          (fun st => st.1.Perm base ∧ st.2 = calculateTourLength graph st.1)
          _ _ st (fun st x hx hP => ?_) ⟨h1, h2⟩
        have hmem := List.mem_range'_1.mp hx
        have hsx : start < arr.length ∧ x < arr.length := by omega
        exact ih (listSwap arr start x) (start + 1) st
          ((listSwap_perm arr start x hsx.1 hsx.2).trans harr) hP.1 hP.2

theorem listSwap_getElem_fst (l : List ℕ) (a b : ℕ) (ha : a < l.length)
    (hb : b < l.length) :
    (listSwap l a b).getD a 0 = l[b] := by
  have hga : l.getD a 0 = l[a] := List.getD_eq_getElem l 0 ha
  have hgb : l.getD b 0 = l[b] := List.getD_eq_getElem l 0 hb
  show ((l.set a (l.getD b 0)).set b (l.getD a 0)).getD a 0 = l[b]
  rw [hga, hgb, List.getD_eq_getElem _ 0 (by simpa using ha)]
  rcases eq_or_ne a b with h | h
  · subst h
    simp [List.getElem_set]
  · simp [List.getElem_set, h, Ne.symm h]

theorem listSwap_take (l : List ℕ) (a b k : ℕ) (hk : k ≤ a) (hab : a ≤ b) :
    (listSwap l a b).take k = l.take k := by
  unfold listSwap
  rw [take_set_of_le _ _ _ _ (le_trans hk hab), take_set_of_le _ _ _ _ hk]

theorem take_one_of_ne_nil (l : List ℕ) (h : 0 < l.length) :
    l.take 1 = [l[0]] := by
  rcases l with _ | ⟨a, tl⟩
  · simp at h
  · simp

theorem take_succ_swap (σ arr : List ℕ) (start i : ℕ)
    (hlen : σ.length = arr.length) (hstart : start < arr.length)
    (hi : i < arr.length) (hsi : start ≤ i)
    (htake : σ.take start = arr.take start)
    (hval : σ.getD start 0 = arr.getD i 0) :
    σ.take (start + 1) = (listSwap arr start i).take (start + 1) := by
  have hswlen : (listSwap arr start i).length = arr.length := listSwap_length arr start i
  apply List.ext_getElem
  · simp only [List.length_take, hswlen, hlen]
  · intro k h1 h2
    have hk1 : k < start + 1 := by
      simp only [List.length_take] at h1
      omega
    have hkσ : k < σ.length := by omega
    have hkar : k < arr.length := by omega
    simp only [List.getElem_take]
    rcases Nat.lt_or_ge k start with hks | hks
    · have hb1 : k < (σ.take start).length := by simp [hlen]; omega
      have hb2 : k < (arr.take start).length := by simp; omega
      have e1 : (σ.take start)[k] = (arr.take start)[k] :=
        List.getElem_of_eq htake _
      simp only [List.getElem_take] at e1
      have hbsw : k < (listSwap arr start i).length := by omega
      have e3 : (listSwap arr start i)[k] = arr[k] := by
        have g1 : (listSwap arr start i).getD k 0 = arr.getD k 0 := by
          show ((arr.set start (arr.getD i 0)).set i (arr.getD start 0)).getD k 0 = _
          rw [List.getD_eq_getElem _ 0 (by simp; omega),
              List.getD_eq_getElem _ 0 hkar,
              List.getElem_set_ne (by omega), List.getElem_set_ne (by omega)]
        rw [List.getD_eq_getElem _ 0 (by omega),
            List.getD_eq_getElem _ 0 hkar] at g1
        exact g1
      rw [e3, e1]
    · have hks' : k = start := by omega
      subst hks'
      have e4 : (listSwap arr k i).getD k 0 = arr[i] :=
        listSwap_getElem_fst arr k i hstart hi
      rw [List.getD_eq_getElem _ 0 (by rw [listSwap_length]; omega)] at e4
      rw [List.getD_eq_getElem _ 0 (by omega), List.getD_eq_getElem _ 0 hi] at hval
      rw [e4, hval]

/-- Completeness of the permutation search: the final best length is at most
the tour length of every permutation of `arr` that agrees with `arr` on the
first `start` positions. -/
theorem permuteAux_min (graph : Graph) (fuel : ℕ) :
    ∀ (arr : List ℕ) (start : ℕ) (st : List ℕ × ℚ) (σ : List ℕ),
      arr.length ≤ fuel + start →
      start < arr.length →
      σ.Perm arr →
      σ.take start = arr.take start →
      (permuteAux graph fuel arr start st).2 ≤ calculateTourLength graph σ := by
  induction fuel with
  | zero => intro arr start st σ hfuel hstart _ _; omega
  | succ fuel ih =>
      intro arr start st σ hfuel hstart hperm htake
      have hlen : σ.length = arr.length := hperm.length_eq
      rw [permuteAux]
      by_cases hleaf : start + 1 = arr.length
      · rw [if_pos hleaf]
        have hσarr : σ = arr := by
          have hdrop : (σ.drop start).Perm (arr.drop start) :=
            drop_perm_of_take_eq hperm start htake
          have hlen1 : (σ.drop start).length = 1 := by
            rw [List.length_drop, hlen]; omega
          have hlen2 : (arr.drop start).length = 1 := by
            rw [List.length_drop]; omega
          obtain ⟨a, ha⟩ := List.length_eq_one.mp hlen1
          obtain ⟨b, hb⟩ := List.length_eq_one.mp hlen2
          rw [ha, hb] at hdrop
          have hab : a = b := by simpa using hdrop
          rw [← List.take_append_drop start σ, ← List.take_append_drop start arr,
              htake, ha, hb, hab]
        subst hσarr
        dsimp only
        split
        · exact le_refl _
        · next h => exact le_of_not_lt h
      · rw [if_neg hleaf]
        have hstart1 : start + 1 < arr.length := by omega
        have hdrop : (σ.drop start).Perm (arr.drop start) :=
          drop_perm_of_take_eq hperm start htake
        have hs0 : start < σ.length := by omega
        have hmem0 : σ[start] ∈ σ.drop start := by
          have hd0 : 0 < (σ.drop start).length := by rw [List.length_drop]; omega
          have h00 : (σ.drop start)[0] = σ[start] := by
            rw [List.getElem_drop]
            simp
          rw [← h00]
          exact List.getElem_mem _
        have hmem1 : σ[start] ∈ arr.drop start := hdrop.mem_iff.mp hmem0
        obtain ⟨j, hj, hjv⟩ := List.getElem_of_mem hmem1
        have hj' : j < arr.length - start := by
          have := hj
          rw [List.length_drop] at this
          exact this
        have hiarr : start + j < arr.length := by omega
        have hjv' : arr[start + j] = σ[start] := by
          rw [← hjv, List.getElem_drop]
        have himem : start + j ∈ List.range' start (arr.length - start) :=
          List.mem_range'_1.mpr ⟨by omega, by omega⟩
        obtain ⟨l₁, l₂, hsplit⟩ := List.mem_iff_append.mp himem
        have hswperm : (listSwap arr start (start + j)).Perm arr :=
          listSwap_perm arr start (start + j) (by omega) hiarr
        have hσsw : σ.Perm (listSwap arr start (start + j)) :=
          hperm.trans hswperm.symm
        have hswtake : σ.take (start + 1) =
            (listSwap arr start (start + j)).take (start + 1) := by
          apply take_succ_swap σ arr start (start + j) hlen (by omega) hiarr
            (by omega) htake
          rw [List.getD_eq_getElem _ 0 hs0, List.getD_eq_getElem _ 0 hiarr]
          exact hjv'.symm
        have hIH : ∀ st', (permuteAux graph fuel (listSwap arr start (start + j))
            (start + 1) st').2 ≤ calculateTourLength graph σ := by
          intro st'
          apply ih (listSwap arr start (start + j)) (start + 1) st' σ
          · rw [listSwap_length]; omega
          · rw [listSwap_length]; omega
          · exact hσsw
          · exact hswtake
        rw [hsplit, List.foldl_append, List.foldl_cons]
        exact le_trans
          (foldl_snd_le (fun st k => permuteAux_snd_le graph fuel _ _ st) l₂ _)
          (hIH _)

/-- C1: for every `n ≥ 1` and every distance matrix, `bruteForceExact`
returns a pair whose tour is a permutation of `{0..n-1}`, whose length is the
cyclic tour length of that tour, and whose length is at most the tour length
of every permutation of `{0..n-1}` (global optimality). -/
theorem claim_C1 (graph : Graph) (n : ℕ) (hn : 1 ≤ n) :
    (bruteForceExact graph n).1.Perm (List.range n) ∧
    (bruteForceExact graph n).2 =
      calculateTourLength graph (bruteForceExact graph n).1 ∧
    ∀ τ : List ℕ, τ.Perm (List.range n) →
      (bruteForceExact graph n).2 ≤ calculateTourLength graph τ := by
  have hgood := permuteAux_good graph (List.range n) n (List.range n) 1
    (List.range n, calculateTourLength graph (List.range n))
    (List.Perm.refl _) (List.Perm.refl _) rfl
  refine ⟨hgood.1, hgood.2, fun τ hτ => ?_⟩
  rcases Nat.lt_or_ge n 2 with h2 | h2
  · -- n = 1: the only permutation of [0] is [0] itself
    have hn1 : n = 1 := by omega
    subst hn1
    have hr1 : List.range 1 = [0] := rfl
    have hτ0 : τ = [0] := by
      rw [hr1] at hτ
      exact List.perm_singleton.mp hτ
    subst hτ0
    show (permuteAux graph 1 (List.range 1) 1
        (List.range 1, calculateTourLength graph (List.range 1))).2 ≤ _
    rw [hr1]
    simp [permuteAux, List.range']
  · -- n ≥ 2: rotate τ so that city 0 comes first, then apply completeness
    have h0τ : (0 : ℕ) ∈ τ := hτ.mem_iff.mpr (List.mem_range.mpr (by omega))
    obtain ⟨k, hk, hτk⟩ := List.getElem_of_mem h0τ
    have hστ : calculateTourLength graph (τ.rotate k) = calculateTourLength graph τ :=
      calculateTourLength_rotate graph τ k
    have hσperm : (τ.rotate k).Perm (List.range n) := (τ.rotate_perm k).trans hτ
    have hσlen : (τ.rotate k).length = n := by
      rw [List.length_rotate, hτ.length_eq, List.length_range]
    have hb0 : 0 < (τ.rotate k).length := by omega
    have hσ0 : (τ.rotate k)[0] = 0 := by
      rw [List.getElem_rotate]
      simpa [Nat.mod_eq_of_lt hk] using hτk
    have hσtake : (τ.rotate k).take 1 = (List.range n).take 1 := by
      rw [take_one_of_ne_nil _ (by omega), hσ0,
          take_one_of_ne_nil _ (by simp; omega)]
      simp only [List.getElem_range]
    have := permuteAux_min graph n (List.range n) 1
      (List.range n, calculateTourLength graph (List.range n)) (τ.rotate k)
      (by simp) (by simp; omega) hσperm hσtake
    calc (bruteForceExact graph n).2 ≤ calculateTourLength graph (τ.rotate k) := this
      _ = calculateTourLength graph τ := hστ

/-- Concrete instantiation of `claim_C1` at `n = 3`. -/
theorem claim_C1_witness :
    (bruteForceExact zeroGraph 3).2 ≤ calculateTourLength zeroGraph [2, 0, 1] :=
  (claim_C1 zeroGraph 3 (by norm_num)).2.2 [2, 0, 1] (by decide)

namespace NearestNeighbor

theorem loop_head (graph : Graph) (n : ℕ) (fuel : ℕ) :
    ∀ (visited : ℕ → Bool) (tour : List ℕ) (current : ℕ), tour ≠ [] →
      (loop graph n fuel visited tour current).head? = tour.head? := by
  induction fuel with
  | zero => intro _ tour _ _; rfl
  | succ fuel ih =>
      intro visited tour current htour
      rw [loop]
      split
      · cases hscan : (scan graph visited current n).1 with
        | none => rfl
        | some nearest =>
            rw [ih _ _ _ (by simp)]
            rcases tour with _ | ⟨a, tl⟩
            · exact absurd rfl htour
            · simp
      · rfl

end NearestNeighbor

/-- C10: with an empty point list (`n = 0`), `nearestNeighbor.generateTour`
returns the one-element tour `[startCity]` (`[0]` by default) rather than the
empty tour; and for every `n ≥ 1` with `startCity < n`, the returned tour
starts at `startCity`. -/
theorem claim_C10 (graph : Graph) :
    (∀ startCity : ℕ, NearestNeighbor.generateTour 0 graph startCity = [startCity]) ∧
    NearestNeighbor.generateTour 0 graph = [0] ∧
    (∀ n startCity : ℕ, 1 ≤ n → startCity < n →
      (NearestNeighbor.generateTour n graph startCity).head? = some startCity) := by
  refine ⟨fun startCity => rfl, rfl, fun n startCity _ _ => ?_⟩
  unfold NearestNeighbor.generateTour
  rw [NearestNeighbor.loop_head graph n n _ [startCity] startCity (by simp)]
  rfl

/-- Concrete instantiation of `claim_C10` at `n = 3`, `startCity = 1`. -/
theorem claim_C10_witness :
    (NearestNeighbor.generateTour 3 zeroGraph 1).head? = some 1 :=
  (claim_C10 zeroGraph).2.2 3 1 (by norm_num) (by norm_num)

theorem getD_set' (l : List ℕ) (a v p : ℕ) :
    (l.set a v).getD p 0 = if a = p ∧ a < l.length then v else l.getD p 0 := by
  rw [List.getD_eq_getElem?_getD, List.getD_eq_getElem?_getD, List.getElem?_set]
  by_cases h1 : a = p
  · subst h1
    by_cases h2 : a < l.length
    · rw [if_pos rfl, if_pos h2, if_pos ⟨rfl, h2⟩]
      rfl
    · rw [if_pos rfl, if_neg h2, if_neg (show ¬(a = a ∧ a < l.length) from
          fun hc => h2 hc.2)]
      rw [List.getElem?_eq_none (by omega)]
  · rw [if_neg h1, if_neg (show ¬(a = p ∧ a < l.length) from fun hc => h1 hc.1)]

theorem pathLen_reverse (graph : Graph) (hsym : ∀ a b, graph a b = graph b a) :
    ∀ l : List ℕ, pathLen graph l.reverse = pathLen graph l := by
  intro l
  induction l with
  | nil => rfl
  | cons a tl ih =>
      rcases tl with _ | ⟨b, tl'⟩
      · rfl
      · rw [List.reverse_cons]
        have hne : (b :: tl').reverse ≠ [] := by simp
        rw [pathLen_append graph _ _ hne (by simp), ih, pathLen_single,
            List.getLast_reverse]
        rw [pathLen_cons graph a _ (by simp)]
        rw [hsym]
        simp [List.head_cons]
        ring

namespace TwoOpt

theorem reverseSegment_foldD (t : List ℕ) (i j : ℕ) (hij : i < j)
    (hj : j < t.length) :
    ∀ m, m ≤ j - i →
      ((List.range m).foldl
          (fun nt k => nt.set (i + 1 + k) (t.getD (j - k) 0)) t).length = t.length ∧
      ∀ p, ((List.range m).foldl
          (fun nt k => nt.set (i + 1 + k) (t.getD (j - k) 0)) t).getD p 0 =
        if i + 1 ≤ p ∧ p < i + 1 + m then t.getD (j - (p - (i + 1))) 0
        else t.getD p 0 := by
  intro m
  induction m with
  | zero =>
      intro _
      refine ⟨rfl, fun p => ?_⟩
      rw [if_neg (by omega)]
      rfl
  | succ m ih =>
      intro hm
      obtain ⟨ihlen, ihD⟩ := ih (by omega)
      rw [List.range_succ, List.foldl_append, List.foldl_cons, List.foldl_nil]
      refine ⟨by rw [List.length_set, ihlen], fun p => ?_⟩
      rw [getD_set', ihlen, ihD p]
      by_cases hp : i + 1 + m = p
      · rw [if_pos (show i + 1 + m = p ∧ i + 1 + m < t.length from ⟨hp, by omega⟩),
            if_pos (show i + 1 ≤ p ∧ p < i + 1 + (m + 1) from ⟨by omega, by omega⟩)]
        congr 1
        omega
      · rw [if_neg (show ¬(i + 1 + m = p ∧ i + 1 + m < t.length) from
            fun hc => hp hc.1)]
        by_cases hin : i + 1 ≤ p ∧ p < i + 1 + m
        · rw [if_pos hin,
              if_pos (show i + 1 ≤ p ∧ p < i + 1 + (m + 1) from ⟨hin.1, by omega⟩)]
        · rw [if_neg hin, if_neg (show ¬(i + 1 ≤ p ∧ p < i + 1 + (m + 1)) from
              fun hc => hin ⟨hc.1, by omega⟩)]

/-- The JS reversal loop computes exactly the
`take / reversed-middle / drop` decomposition of the tour. -/
theorem reverseSegment_eq (t : List ℕ) (i j : ℕ) (hij : i < j) (hj : j < t.length) :
    reverseSegment t i j =
      t.take (i + 1) ++ ((t.drop (i + 1)).take (j - i)).reverse ++ t.drop (j + 1) := by
  obtain ⟨hlen, hD⟩ := reverseSegment_foldD t i j hij hj (j - i) (le_refl _)
  have hlenA : (t.take (i + 1)).length = i + 1 := by
    rw [List.length_take]; omega
  have hlenM : (((t.drop (i + 1)).take (j - i)).reverse).length = j - i := by
    rw [List.length_reverse, List.length_take, List.length_drop]; omega
  have hlenB : (t.drop (j + 1)).length = t.length - (j + 1) := List.length_drop _ _
  apply List.ext_getElem
  · show (reverseSegment t i j).length = _
    rw [show reverseSegment t i j = (List.range (j - i)).foldl
        (fun nt k => nt.set (i + 1 + k) (t.getD (j - k) 0)) t from rfl, hlen]
    simp only [List.length_append, hlenA, hlenM, hlenB]
    omega
  · intro p h1 h2
    have hpt : p < t.length := by
      rw [show (reverseSegment t i j).length = t.length from hlen] at h1
      exact h1
    have hL : (reverseSegment t i j)[p] = (reverseSegment t i j).getD p 0 :=
      (List.getD_eq_getElem _ 0 h1).symm
    rw [hL, show reverseSegment t i j = (List.range (j - i)).foldl
        (fun nt k => nt.set (i + 1 + k) (t.getD (j - k) 0)) t from rfl, hD p]
    have hlenAM : (t.take (i + 1) ++ ((t.drop (i + 1)).take (j - i)).reverse).length =
        j + 1 := by
      rw [List.length_append, hlenA, hlenM]
      omega
    rcases Nat.lt_or_ge p (i + 1) with hp1 | hp1
    · rw [if_neg (show ¬(i + 1 ≤ p ∧ p < i + 1 + (j - i)) from fun hc => by omega)]
      rw [List.getElem_append_left (show p <
          (t.take (i + 1) ++ ((t.drop (i + 1)).take (j - i)).reverse).length by
            rw [hlenAM]; omega)]
      rw [List.getElem_append_left (show p < (t.take (i + 1)).length by
            rw [hlenA]; omega)]
      rw [List.getElem_take, List.getD_eq_getElem t 0 hpt]
    · rcases Nat.lt_or_ge p (j + 1) with hp2 | hp2
      · rw [if_pos (show i + 1 ≤ p ∧ p < i + 1 + (j - i) from ⟨by omega, by omega⟩)]
        rw [List.getElem_append_left (show p <
            (t.take (i + 1) ++ ((t.drop (i + 1)).take (j - i)).reverse).length by
              rw [hlenAM]; omega)]
        rw [List.getElem_append_right (show (t.take (i + 1)).length ≤ p by
              rw [hlenA]; omega)]
        rw [List.getElem_reverse, List.getElem_take, List.getElem_drop,
            List.getD_eq_getElem t 0 (show j - (p - (i + 1)) < t.length by omega)]
        congr 1
        simp only [List.length_take, List.length_drop]
        omega
      · rw [if_neg (show ¬(i + 1 ≤ p ∧ p < i + 1 + (j - i)) from fun hc => by omega)]
        rw [List.getElem_append_right (show
            (t.take (i + 1) ++ ((t.drop (i + 1)).take (j - i)).reverse).length ≤ p by
              rw [hlenAM]; omega)]
        rw [List.getElem_drop, List.getD_eq_getElem t 0 hpt]
        congr 1
        rw [hlenAM]
        omega

/-- Reversing the middle block of a cyclic tour `A ++ M ++ B` changes the
length only through the two edges joining `M` to its neighbours (symmetric
matrix). -/
theorem tourLength_reverse_mid (graph : Graph) (hsym : ∀ a b, graph a b = graph b a)
    (A M B : List ℕ) (hA : A ≠ []) (hM : M ≠ []) :
    calculateTourLength graph (A ++ M.reverse ++ B) =
      calculateTourLength graph (A ++ M ++ B)
        - (graph (A.getLast hA) (M.head hM) +
           graph (M.getLast hM) ((B ++ A).head (by simp [hA])))
        + (graph (A.getLast hA) (M.getLast hM) +
           graph (M.head hM) ((B ++ A).head (by simp [hA]))) := by
  have hMrev : M.reverse ≠ [] := by simp [hM]
  rcases B with _ | ⟨b0, Bt⟩
  · simp only [List.append_nil, List.nil_append]
    rw [calculateTourLength_eq_pathLen graph (A ++ M.reverse) (by simp [hA]),
        calculateTourLength_eq_pathLen graph (A ++ M) (by simp [hA])]
    rw [pathLen_append graph A M.reverse hA hMrev,
        pathLen_append graph A M hA hM,
        pathLen_reverse graph hsym M]
    rw [List.getLast_append_of_ne_nil hMrev, List.getLast_append_of_ne_nil hM]
    rw [List.head_append_left hA, List.head_append_left hA]
    rw [List.head_reverse, List.getLast_reverse]
    ring
  · have hB : (b0 :: Bt : List ℕ) ≠ [] := by simp
    have hBA : (b0 :: Bt) ++ A ≠ [] := by simp
    rw [calculateTourLength_eq_pathLen graph (A ++ M.reverse ++ (b0 :: Bt))
          (by simp [hA]),
        calculateTourLength_eq_pathLen graph (A ++ M ++ (b0 :: Bt)) (by simp [hA])]
    rw [pathLen_append graph (A ++ M.reverse) (b0 :: Bt) (by simp [hA]) hB,
        pathLen_append graph (A ++ M) (b0 :: Bt) (by simp [hA]) hB]
    rw [pathLen_append graph A M.reverse hA hMrev,
        pathLen_append graph A M hA hM,
        pathLen_reverse graph hsym M]
    rw [List.getLast_append_of_ne_nil hB, List.getLast_append_of_ne_nil hB]
    rw [List.getLast_append_of_ne_nil hMrev, List.getLast_append_of_ne_nil hM]
    rw [List.head_append_left (by simp [hA] : A ++ M.reverse ≠ []),
        List.head_append_left (by simp [hA] : A ++ M ≠ [])]
    rw [List.head_append_left hA, List.head_append_left hA, List.head_append_left hB]
    rw [List.head_reverse, List.getLast_reverse]
    ring

/-- The 2-opt delta formula: reversing the segment `[i+1 .. j]` changes the
tour length by exactly `newDistance - currentDistance` when the matrix is
symmetric. -/
theorem reverseSegment_tourLength (graph : Graph) (hsym : ∀ a b, graph a b = graph b a)
    (t : List ℕ) (i j : ℕ) (hij : i < j) (hj : j < t.length) :
    calculateTourLength graph (reverseSegment t i j) =
      calculateTourLength graph t
        - (graph (t.getD i 0) (t.getD (i + 1) 0) +
           graph (t.getD j 0) (t.getD ((j + 1) % t.length) 0))
        + (graph (t.getD i 0) (t.getD j 0) +
           graph (t.getD (i + 1) 0) (t.getD ((j + 1) % t.length) 0)) := by
  have hlenA : (t.take (i + 1)).length = i + 1 := by
    rw [List.length_take]; omega
  have hlenM : ((t.drop (i + 1)).take (j - i)).length = j - i := by
    rw [List.length_take, List.length_drop]; omega
  have hA : t.take (i + 1) ≠ [] := by
    intro hc
    have := congrArg List.length hc
    rw [hlenA] at this
    simp at this
  have hM : (t.drop (i + 1)).take (j - i) ≠ [] := by
    intro hc
    have := congrArg List.length hc
    rw [hlenM] at this
    simp at this
    omega
  have hMB : (t.drop (i + 1)).take (j - i) ++ t.drop (j + 1) = t.drop (i + 1) := by
    have h1 := List.take_append_drop (j - i) (t.drop (i + 1))
    rw [List.drop_drop] at h1
    rw [show i + 1 + (j - i) = j + 1 by omega] at h1
    exact h1
  have hteq : t.take (i + 1) ++ (t.drop (i + 1)).take (j - i) ++ t.drop (j + 1) = t := by
    rw [List.append_assoc, hMB, List.take_append_drop]
  have eA : (t.take (i + 1)).getLast hA = t.getD i 0 := by
    rw [List.getLast_eq_getElem, List.getElem_take,
        List.getD_eq_getElem t 0 (by omega : i < t.length)]
    congr 1
    rw [hlenA]
    omega
  have eM1 : ((t.drop (i + 1)).take (j - i)).head hM = t.getD (i + 1) 0 := by
    rw [List.head_eq_getElem, List.getElem_take, List.getElem_drop,
        List.getD_eq_getElem t 0 (by omega : i + 1 < t.length)]
  have eM2 : ((t.drop (i + 1)).take (j - i)).getLast hM = t.getD j 0 := by
    rw [List.getLast_eq_getElem, List.getElem_take, List.getElem_drop,
        List.getD_eq_getElem t 0 (by omega : j < t.length)]
    congr 1
    rw [hlenM]
    omega
  have eBA : (t.drop (j + 1) ++ t.take (i + 1)).head
      (by simp [hA]) = t.getD ((j + 1) % t.length) 0 := by
    rcases Nat.lt_or_ge (j + 1) t.length with hlt | hge
    · have hB : t.drop (j + 1) ≠ [] := by
        intro hc
        have := congrArg List.length hc
        rw [List.length_drop] at this
        simp at this
        omega
      rw [List.head_append_left hB, List.head_eq_getElem, List.getElem_drop,
          List.getD_eq_getElem t 0 (Nat.mod_lt _ (by omega))]
      congr 1
      rw [Nat.mod_eq_of_lt hlt]
    · have hB : (t.drop (j + 1)).length = 0 := by
        rw [List.length_drop]
        omega
      rw [List.head_eq_getElem,
          List.getElem_append_right (show (t.drop (j + 1)).length ≤ 0 from le_of_eq hB),
          List.getElem_take,
          List.getD_eq_getElem t 0 (Nat.mod_lt _ (by omega))]
      congr 1
      rw [List.length_drop, show j + 1 = t.length from by omega, Nat.mod_self]
      omega
  calc calculateTourLength graph (reverseSegment t i j)
      = calculateTourLength graph
          (t.take (i + 1) ++ ((t.drop (i + 1)).take (j - i)).reverse ++
            t.drop (j + 1)) := by rw [reverseSegment_eq t i j hij hj]
    _ = _ := by
        rw [tourLength_reverse_mid graph hsym _ _ _ hA hM]
        rw [eA, eM1, eM2]
        rw [show ((t.drop (j + 1) ++ t.take (i + 1)).head (by simp [hA])) =
            t.getD ((j + 1) % t.length) 0 from eBA]
        rw [hteq]

theorem reverseSegment_length (t : List ℕ) (i j : ℕ) :
    (reverseSegment t i j).length = t.length := by
  unfold reverseSegment
  suffices h : ∀ (l : List ℕ) (nt : List ℕ),
      (l.foldl (fun nt k => nt.set (i + 1 + k) (t.getD (j - k) 0)) nt).length =
        nt.length by
    exact h _ t
  intro l
  induction l with
  | nil => intro nt; rfl
  | cons x xs ih =>
      intro nt
      rw [List.foldl_cons, ih, List.length_set]

theorem improveStep_le (graph : Graph) (hsym : ∀ a b, graph a b = graph b a)
    (n : ℕ) (st : List ℕ × Bool) (i j : ℕ)
    (hlen : st.1.length = n) (hij : i + 2 ≤ j) (hj : j < n) :
    calculateTourLength graph (improveStep graph n st i j).1 ≤
      calculateTourLength graph st.1 ∧
    (improveStep graph n st i j).1.length = n := by
  unfold improveStep
  split
  · exact ⟨le_refl _, hlen⟩
  · dsimp only
    split
    · next hlt =>
        constructor
        · rw [reverseSegment_tourLength graph hsym st.1 i j (by omega) (by omega)]
          rw [hlen]
          linarith [hlt]
        · rw [reverseSegment_length, hlen]
    · exact ⟨le_refl _, hlen⟩

theorem improvePass_le (graph : Graph) (hsym : ∀ a b, graph a b = graph b a)
    (n : ℕ) (st : List ℕ × Bool) (hlen : st.1.length = n) :
    calculateTourLength graph (improvePass graph n st).1 ≤
      calculateTourLength graph st.1 ∧
    (improvePass graph n st).1.length = n := by
  unfold improvePass
  have h := foldl_invariant
    (fun s : List ℕ × Bool => s.1.length = n ∧
      calculateTourLength graph s.1 ≤ calculateTourLength graph st.1)
    (fun st i =>
      (List.range' (i + 2) (n - (i + 2))).foldl
        (fun st j => improveStep graph n st i j) st)
    (List.range (n - 1)) st
    (fun s i hi hP => ?_) ⟨hlen, le_refl _⟩
  · exact ⟨h.2, h.1⟩
  · have hi' : i < n - 1 := List.mem_range.mp hi
    exact foldl_invariant
      (fun s : List ℕ × Bool => s.1.length = n ∧
        calculateTourLength graph s.1 ≤ calculateTourLength graph st.1)
      (fun st j => improveStep graph n st i j)
      (List.range' (i + 2) (n - (i + 2))) s
      (fun s j hj hP => by
        have hj' := List.mem_range'_1.mp hj
        have hstep := improveStep_le graph hsym n s i j hP.1 (by omega) (by omega)
        exact ⟨hstep.2, le_trans hstep.1 hP.2⟩)
      hP

theorem improveLoop_le (graph : Graph) (hsym : ∀ a b, graph a b = graph b a)
    (n : ℕ) : ∀ (fuel : ℕ) (cur : List ℕ), cur.length = n →
    calculateTourLength graph (improveLoop graph n fuel cur) ≤
      calculateTourLength graph cur := by
  intro fuel
  induction fuel with
  | zero => intro cur _; exact le_refl _
  | succ fuel ih =>
      intro cur hlen
      rw [improveLoop]
      have hp := improvePass_le graph hsym n (cur, false) hlen
      show calculateTourLength graph
        (if (improvePass graph n (cur, false)).2 then
          improveLoop graph n fuel (improvePass graph n (cur, false)).1
        else (improvePass graph n (cur, false)).1) ≤ _
      split
      · exact le_trans (ih _ hp.2) hp.1
      · exact hp.1

theorem foldl_flatMap {α β γ : Type _} (l : List α) (g : α → List β)
    (f : γ → β → γ) (init : γ) :
    (l.flatMap g).foldl f init = l.foldl (fun st x => (g x).foldl f st) init := by
  induction l generalizing init with
  | nil => rfl
  | cons a tl ih =>
      rw [List.flatMap_cons, List.foldl_append, List.foldl_cons, ih]

/-- One pass of the embedded `improve` is exactly the lexicographic pair walk
of the reference continue-scan pass. -/
theorem improvePass_eq_continuePass (graph : Graph) (n : ℕ) (st : List ℕ × Bool) :
    improvePass graph n st = continuePass graph n st := by
  unfold improvePass continuePass pairList
  rw [foldl_flatMap]
  congr 1
  funext st i
  rw [List.foldl_map]

end TwoOpt

/-- C4: for every symmetric non-negative distance matrix, every input tour
that is a permutation of `{0..n-1}`, and every iteration cap, the tour
returned by `twoOpt.improve` has total cyclic length at most that of the
input tour.  (Only symmetry is actually needed by the proof.) -/
theorem claim_C4 (graph : Graph) (tour : List ℕ) (maxIterations : ℕ)
    (hsym : ∀ a b, graph a b = graph b a)
    (hnonneg : ∀ a b, 0 ≤ graph a b)
    (hperm : tour.Perm (List.range tour.length)) :
    calculateTourLength graph (TwoOpt.improve tour graph maxIterations) ≤
      calculateTourLength graph tour := by
  unfold TwoOpt.improve
  exact TwoOpt.improveLoop_le graph hsym tour.length maxIterations tour rfl

/-- Concrete instantiation of `claim_C4`. -/
theorem claim_C4_witness :
    calculateTourLength addGraph (TwoOpt.improve [0, 2, 1, 3] addGraph 100) ≤
      calculateTourLength addGraph [0, 2, 1, 3] :=
  claim_C4 addGraph [0, 2, 1, 3] 100 (fun a b => add_comm _ _)
    (fun a b => by show (0 : ℚ) ≤ (a : ℚ) + (b : ℚ); positivity) (by decide)

set_option maxRecDepth 10000 in
attribute [local semireducible] Rat.add in
/-- C5 (counterexample): on this symmetric 6-city instance the embedded
`twoOpt.improve` (which continues the current scan after applying a reversal)
returns a different tour from the spec's reference algorithm that restarts the
`(i, j)` scan from the top after every applied reversal
(`[2, 4, 3, 0, 5, 1]` versus `[2, 1, 5, 0, 3, 4]`). -/
theorem claim_C5_counterexample :
    TwoOpt.improve [2, 0, 4, 1, 5, 3] g6 100 ≠
      TwoOpt.improveRestart [2, 0, 4, 1, 5, 3] g6 100 := by
  decide

/-- C5 (amended): when the scan finds the first improving reversal, `improve`
applies it, marks the pass as improving, and continues the current `(i, j)`
scan on the mutated tour; only after a pass that improved does it rescan from
the top.  Formally, the embedded function equals the reference
first-improvement algorithm `improveContinue` that walks the lexicographic
pair list, applying improving reversals as encountered. -/
theorem claim_C5 (tour : List ℕ) (graph : Graph) (maxIterations : ℕ) :
    TwoOpt.improve tour graph maxIterations =
      TwoOpt.improveContinue tour graph maxIterations := by
  unfold TwoOpt.improve TwoOpt.improveContinue
  suffices h : ∀ fuel cur, TwoOpt.improveLoop graph tour.length fuel cur =
      TwoOpt.continueLoop graph tour.length fuel cur from h _ _
  intro fuel
  induction fuel with
  | zero => intro cur; rfl
  | succ fuel ih =>
      intro cur
      rw [TwoOpt.improveLoop, TwoOpt.continueLoop,
          TwoOpt.improvePass_eq_continuePass]
      show (if (TwoOpt.continuePass graph tour.length (cur, false)).2 then
          TwoOpt.improveLoop graph tour.length fuel
            (TwoOpt.continuePass graph tour.length (cur, false)).1
        else (TwoOpt.continuePass graph tour.length (cur, false)).1) = _
      split
      · rw [ih]
      · rfl

theorem getD_set_any {α : Type _} (l : List α) (a p : ℕ) (v d : α) :
    (l.set a v).getD p d = if a = p ∧ a < l.length then v else l.getD p d := by
  rw [List.getD_eq_getElem?_getD, List.getD_eq_getElem?_getD, List.getElem?_set]
  by_cases h1 : a = p
  · subst h1
    by_cases h2 : a < l.length
    · rw [if_pos rfl, if_pos h2, if_pos ⟨rfl, h2⟩]
      rfl
    · rw [if_pos rfl, if_neg h2, if_neg (show ¬(a = a ∧ a < l.length) from
          fun hc => h2 hc.2)]
      rw [List.getElem?_eq_none (by omega)]
  · rw [if_neg h1, if_neg (show ¬(a = p ∧ a < l.length) from fun hc => h1 hc.1)]

theorem list_eq_map_getD {α : Type _} (l : List α) (d : α) (n : ℕ)
    (hlen : l.length = n) : l = (List.range n).map (fun p => l.getD p d) := by
  apply List.ext_getElem
  · simp [hlen]
  · intro p h1 h2
    simp only [List.getElem_map, List.getElem_range]
    rw [List.getD_eq_getElem l d h1]

namespace Genetic

theorem segmentCopy_spec (parent1 : List ℕ) (n start endIdx : ℕ)
    (hend : endIdx < n) :
    ((segmentCopy parent1 n start endIdx).1.length = n ∧
      ∀ p, (segmentCopy parent1 n start endIdx).1.getD p 0 =
        if start ≤ p ∧ p ≤ endIdx then ((parent1.getD p 0 : ℕ) : ℤ)
        else if p < n then -1 else 0) ∧
    (segmentCopy parent1 n start endIdx).2 =
      ((List.range' start (endIdx + 1 - start)).map
        (fun i => parent1.getD i 0)).toFinset := by
  suffices h : ∀ m, m ≤ endIdx + 1 - start →
      (((List.range' start m).foldl
          (fun acc i =>
            (acc.1.set i ((parent1.getD i 0 : ℕ) : ℤ),
              insert (parent1.getD i 0) acc.2))
          (List.replicate n (-1 : ℤ), (∅ : Finset ℕ))).1.length = n ∧
        ∀ p, ((List.range' start m).foldl
          (fun acc i =>
            (acc.1.set i ((parent1.getD i 0 : ℕ) : ℤ),
              insert (parent1.getD i 0) acc.2))
          (List.replicate n (-1 : ℤ), (∅ : Finset ℕ))).1.getD p 0 =
          if start ≤ p ∧ p < start + m then ((parent1.getD p 0 : ℕ) : ℤ)
          else if p < n then -1 else 0) ∧
      ((List.range' start m).foldl
          (fun acc i =>
            (acc.1.set i ((parent1.getD i 0 : ℕ) : ℤ),
              insert (parent1.getD i 0) acc.2))
          (List.replicate n (-1 : ℤ), (∅ : Finset ℕ))).2 =
        ((List.range' start m).map (fun i => parent1.getD i 0)).toFinset by
    unfold segmentCopy
    have h' := h (endIdx + 1 - start) (le_refl _)
    refine ⟨⟨h'.1.1, fun p => ?_⟩, h'.2⟩
    · rw [h'.1.2 p]
      by_cases hp : start ≤ p ∧ p ≤ endIdx
      · rw [if_pos hp, if_pos ⟨hp.1, by omega⟩]
      · rw [if_neg hp, if_neg (fun hc => hp ⟨hc.1, by omega⟩)]
  intro m
  induction m with
  | zero =>
      intro _
      refine ⟨⟨by simp, fun p => ?_⟩, by simp⟩
      rw [if_neg (by omega)]
      by_cases hp : p < n
      · rw [if_pos hp, List.getD_eq_getElem _ (0 : ℤ) (by simpa using hp)]
        simp
      · rw [if_neg hp, List.getD_eq_getElem?_getD, List.getElem?_eq_none (by simpa using hp)]
        rfl
  | succ m ih =>
      intro hm
      obtain ⟨⟨ihlen, ihD⟩, ihS⟩ := ih (by omega)
      rw [List.range'_1_concat, List.foldl_append, List.foldl_cons, List.foldl_nil,
          List.map_append, List.map_cons, List.map_nil]
      refine ⟨⟨by rw [List.length_set, ihlen], fun p => ?_⟩, ?_⟩
      · rw [getD_set_any]
        rw [ihlen]
        rw [ihD p]
        by_cases hp : start + m = p
        · rw [if_pos (show start + m = p ∧ start + m < n from ⟨hp, by omega⟩),
              if_pos (show start ≤ p ∧ p < start + (m + 1) from by omega), hp]
        · rw [if_neg (show ¬(start + m = p ∧ start + m < n) from fun hc => hp hc.1)]
          by_cases hin : start ≤ p ∧ p < start + m
          · rw [if_pos hin,
              if_pos (show start ≤ p ∧ p < start + (m + 1) from ⟨hin.1, by omega⟩)]
          · rw [if_neg hin, if_neg (show ¬(start ≤ p ∧ p < start + (m + 1)) from
              fun hc => hin ⟨hc.1, by omega⟩)]
      · rw [ihS]
        rw [List.toFinset_append]
        simp [Finset.insert_eq, Finset.union_comm]

theorem mod_succ_idx (n a : ℕ) : (a % n + 1) % n = (a + 1) % n := by
  conv_lhs => rw [Nat.add_mod (a % n) 1 n, Nat.mod_mod_of_dvd _ (dvd_refl n)]
  conv_rhs => rw [Nat.add_mod a 1 n]

theorem mod_add_ne (n : ℕ) (a d : ℕ) (hd1 : 0 < d) (hdn : d < n) :
    (a + d) % n ≠ a % n := by
  intro h
  have h1 : a + d ≡ a + 0 [MOD n] := by
    show (a + d) % n = (a + 0) % n
    simpa using h
  have h2 : d ≡ 0 [MOD n] := Nat.ModEq.add_left_cancel' a h1
  have h3 : d % n = 0 := by simpa [Nat.ModEq] using h2
  rw [Nat.mod_eq_of_lt hdn] at h3
  omega

theorem place_getD_untouched (n c₀ : ℕ) :
    ∀ (L : List ℕ) (child : List ℤ) (r₀ p : ℕ),
      (∀ s, s < L.length → p ≠ (c₀ + r₀ + s) % n) →
      (Genetic.place n child ((c₀ + r₀) % n) L).getD p 0 = child.getD p 0 := by
  intro L
  induction L with
  | nil => intro child r₀ p _; rfl
  | cons c cs ih =>
      intro child r₀ p hnp
      show (Genetic.place n (child.set ((c₀ + r₀) % n) ((c : ℕ) : ℤ))
          (((c₀ + r₀) % n + 1) % n) cs).getD p 0 = _
      rw [mod_succ_idx n (c₀ + r₀),
          show c₀ + r₀ + 1 = c₀ + (r₀ + 1) from by omega]
      rw [ih (child.set ((c₀ + r₀) % n) ((c : ℕ) : ℤ)) (r₀ + 1) p
          (fun s hs => by
            have h := hnp (s + 1) (by simpa using Nat.succ_lt_succ hs)
            rw [show c₀ + r₀ + (s + 1) = c₀ + (r₀ + 1) + s from by omega] at h
            exact h)]
      rw [getD_set_any]
      rw [if_neg (fun hc => hnp 0 (Nat.succ_pos _) hc.1.symm)]

theorem place_getD_touched (n c₀ : ℕ) (hn : 0 < n) :
    ∀ (L : List ℕ) (child : List ℤ) (r₀ s : ℕ), s < L.length →
      r₀ + L.length ≤ n → child.length = n →
      (Genetic.place n child ((c₀ + r₀) % n) L).getD ((c₀ + r₀ + s) % n) 0 =
        ((L.getD s 0 : ℕ) : ℤ) := by
  intro L
  induction L with
  | nil => intro child r₀ s hs; simp at hs
  | cons c cs ih =>
      intro child r₀ s hs hlen hchild
      show (Genetic.place n (child.set ((c₀ + r₀) % n) ((c : ℕ) : ℤ))
          (((c₀ + r₀) % n + 1) % n) cs).getD ((c₀ + r₀ + s) % n) 0 = _
      rw [mod_succ_idx n (c₀ + r₀),
          show c₀ + r₀ + 1 = c₀ + (r₀ + 1) from by omega]
      cases s with
      | zero =>
          rw [place_getD_untouched n c₀ cs _ (r₀ + 1) _
              (fun s' hs' heq => by
                rw [show c₀ + (r₀ + 1) + s' = (c₀ + r₀ + 0) + (1 + s') from by omega]
                  at heq
                exact mod_add_ne n (c₀ + r₀ + 0) (1 + s') (by omega)
                  (by simp only [List.length_cons] at hlen; omega) heq.symm)]
          rw [getD_set_any]
          rw [if_pos ⟨rfl, by rw [hchild]; exact Nat.mod_lt _ hn⟩]
          rfl
      | succ s' =>
          rw [show c₀ + r₀ + (s' + 1) = c₀ + (r₀ + 1) + s' from by omega]
          rw [ih (child.set ((c₀ + r₀) % n) ((c : ℕ) : ℤ)) (r₀ + 1) s'
              (by simpa using Nat.lt_of_succ_lt_succ hs)
              (by simp only [List.length_cons] at hlen; omega)
              (by rw [List.length_set, hchild])]
          rfl

theorem place_length (n : ℕ) :
    ∀ (L : List ℕ) (child : List ℤ) (idx : ℕ),
      (Genetic.place n child idx L).length = child.length := by
  intro L
  induction L with
  | nil => intro child idx; rfl
  | cons c cs ih =>
      intro child idx
      show (Genetic.place n (child.set idx ((c : ℕ) : ℤ)) ((idx + 1) % n) cs).length = _
      rw [ih, List.length_set]

theorem foldFill_eq_place (used : Finset ℕ) (n : ℕ) :
    ∀ (rot : List ℕ) (child : List ℤ) (idx : ℕ),
      (rot.foldl (fun (acc : List ℤ × ℕ) city =>
        if city ∈ used then acc
        else (acc.1.set acc.2 ((city : ℕ) : ℤ), (acc.2 + 1) % n)) (child, idx)).1 =
      Genetic.place n child idx (rot.filter (fun c => !(c ∈ used))) := by
  intro rot
  induction rot with
  | nil => intro child idx; rfl
  | cons c cs ih =>
      intro child idx
      rw [List.foldl_cons, List.filter_cons]
      by_cases hc : c ∈ used
      · rw [if_pos hc, if_neg (by simp [hc])]
        exact ih child idx
      · rw [if_neg hc, if_pos (by simp [hc])]
        show _ = Genetic.place n (child.set idx ((c : ℕ) : ℤ)) ((idx + 1) % n)
          (cs.filter (fun c => !(c ∈ used)))
        exact ih (child.set idx ((c : ℕ) : ℤ)) ((idx + 1) % n)

theorem fillLoop_eq_place (parent2 : List ℕ) (used : Finset ℕ) (n endIdx : ℕ)
    (child : List ℤ) :
    Genetic.fillLoop parent2 used n endIdx child =
      Genetic.place n child ((endIdx + 1) % n)
        (Genetic.fillList parent2 used n endIdx) := by
  unfold Genetic.fillLoop Genetic.fillList
  have hfuse := List.foldl_map
    (fun i => parent2.getD ((endIdx + 1 + i) % n) 0)
    (fun (acc : List ℤ × ℕ) city =>
      if city ∈ used then acc
      else (acc.1.set acc.2 ((city : ℕ) : ℤ), (acc.2 + 1) % n))
    (List.range n) (child, (endIdx + 1) % n)
  rw [show ((List.range n).foldl
      (fun (acc : List ℤ × ℕ) i =>
        let city := parent2.getD ((endIdx + 1 + i) % n) 0
        if city ∈ used then acc
        else (acc.1.set acc.2 ((city : ℕ) : ℤ), (acc.2 + 1) % n))
      (child, (endIdx + 1) % n)) =
    (((List.range n).map (fun i => parent2.getD ((endIdx + 1 + i) % n) 0)).foldl
      (fun (acc : List ℤ × ℕ) city =>
        if city ∈ used then acc
        else (acc.1.set acc.2 ((city : ℕ) : ℤ), (acc.2 + 1) % n))
      (child, (endIdx + 1) % n)) from hfuse.symm]
  exact foldFill_eq_place used n _ child ((endIdx + 1) % n)

theorem nodup_lt_perm_range (l : List ℕ) (n : ℕ) (hnd : l.Nodup)
    (hlen : l.length = n) (hlt : ∀ x ∈ l, x < n) : l.Perm (List.range n) := by
  rw [List.perm_ext_iff_of_nodup hnd (List.nodup_range n)]
  intro a
  constructor
  · intro ha; exact List.mem_range.mpr (hlt a ha)
  · intro ha
    have h1 : l.toFinset ⊆ Finset.range n := by
      intro x hx
      exact Finset.mem_range.mpr (hlt x (List.mem_toFinset.mp hx))
    have h2 : l.toFinset.card = n := by
      rw [List.toFinset_card_of_nodup hnd, hlen]
    have h3 : l.toFinset = Finset.range n :=
      Finset.eq_of_subset_of_card_le h1 (by rw [h2, Finset.card_range])
    have h4 : a ∈ Finset.range n := Finset.mem_range.mpr (List.mem_range.mp ha)
    rw [← h3] at h4
    exact List.mem_toFinset.mp h4

/-- The rotated read order of `parent2` used by the fill loop is a
permutation of `parent2`. -/
theorem rot_perm (parent2 : List ℕ) (n endIdx : ℕ) (hn : 0 < n)
    (hlen : parent2.length = n) :
    ((List.range n).map (fun i => parent2.getD ((endIdx + 1 + i) % n) 0)).Perm
      parent2 := by
  have hidx : ((List.range n).map (fun i => (endIdx + 1 + i) % n)).Perm
      (List.range n) := by
    apply nodup_lt_perm_range
    · apply List.Nodup.map_on ?_ (List.nodup_range n)
      intro x hx y hy hxy
      rcases lt_trichotomy x y with h | h | h
      · exfalso
        rw [show endIdx + 1 + y = (endIdx + 1 + x) + (y - x) from by omega] at hxy
        exact Genetic.mod_add_ne n (endIdx + 1 + x) (y - x) (by omega)
          (by have := List.mem_range.mp hy; omega) hxy.symm
      · exact h
      · exfalso
        rw [show endIdx + 1 + x = (endIdx + 1 + y) + (x - y) from by omega] at hxy
        exact Genetic.mod_add_ne n (endIdx + 1 + y) (x - y) (by omega)
          (by have := List.mem_range.mp hx; omega) hxy
    · rw [List.length_map, List.length_range]
    · intro x hx
      obtain ⟨i, _, hi⟩ := List.mem_map.mp hx
      rw [← hi]
      exact Nat.mod_lt _ hn
  have hcomp : (List.range n).map (fun i => parent2.getD ((endIdx + 1 + i) % n) 0) =
      ((List.range n).map (fun i => (endIdx + 1 + i) % n)).map
        (fun p => parent2.getD p 0) := by
    rw [List.map_map]
    rfl
  rw [hcomp]
  have h2 := hidx.map (fun p => parent2.getD p 0)
  have h3 : (List.range n).map (fun p => parent2.getD p 0) = parent2 :=
    (list_eq_map_getD parent2 0 n hlen).symm
  rw [h3] at h2
  exact h2

theorem mod_small (a n : ℕ) (hn : 0 < n) (h : a < 2 * n) :
    a % n = if a < n then a else a - n := by
  split
  · next h2 => exact Nat.mod_eq_of_lt h2
  · next h2 =>
      rw [Nat.mod_eq_sub_mod (by omega), Nat.mod_eq_of_lt (by omega)]

/-- The cities copied from `parent1`'s segment: distinct, below `n`, and
`endIdx + 1 - start` many. -/
theorem segVals_spec (parent1 : List ℕ) (n start endIdx : ℕ)
    (hp1 : parent1.Perm (List.range n)) (hse : start ≤ endIdx) (hend : endIdx < n) :
    ((List.range' start (endIdx + 1 - start)).map (fun i => parent1.getD i 0)).Nodup ∧
    (∀ x ∈ (List.range' start (endIdx + 1 - start)).map (fun i => parent1.getD i 0),
      x < n) ∧
    ((List.range' start (endIdx + 1 - start)).map
      (fun i => parent1.getD i 0)).length = endIdx + 1 - start := by
  have hp1len : parent1.length = n := by
    rw [hp1.length_eq, List.length_range]
  have hp1nd : parent1.Nodup := hp1.symm.nodup (List.nodup_range n)
  refine ⟨?_, ?_, by rw [List.length_map, List.length_range']⟩
  · apply List.Nodup.map_on ?_ (List.nodup_range' ..)
    intro x hx y hy hxy
    have hx' := List.mem_range'_1.mp hx
    have hy' := List.mem_range'_1.mp hy
    have hxn : x < parent1.length := by omega
    have hyn : y < parent1.length := by omega
    rw [List.getD_eq_getElem parent1 0 hxn, List.getD_eq_getElem parent1 0 hyn] at hxy
    exact (List.Nodup.getElem_inj_iff hp1nd).mp hxy
  · intro x hx
    obtain ⟨i, hi, hval⟩ := List.mem_map.mp hx
    have hi' := List.mem_range'_1.mp hi
    have hin : i < parent1.length := by omega
    rw [← hval, List.getD_eq_getElem parent1 0 hin]
    have hmem : parent1[i] ∈ parent1 := List.getElem_mem _
    exact List.mem_range.mp (hp1.mem_iff.mp hmem)

end Genetic

theorem range'_split (s a b : ℕ) :
    List.range' s (a + b) = List.range' s a ++ List.range' (s + a) b := by
  have h := List.range'_append s a b 1
  simp only [one_mul] at h
  rw [Nat.add_comm a b, ← h]

/-- C6: for permutations `parent1`, `parent2` of `{0..n-1}` and any segment
bounds `start ≤ endIdx < n`, the order-crossover child is a valid permutation
of `{0..n-1}`: every city appears exactly once and no `-1` slot is left. -/
theorem claim_C6 (n : ℕ) (hn : 1 ≤ n) (parent1 parent2 : List ℕ)
    (start endIdx : ℕ)
    (hp1 : parent1.Perm (List.range n)) (hp2 : parent2.Perm (List.range n))
    (hse : start ≤ endIdx) (hend : endIdx < n) :
    (Genetic.crossover parent1 parent2 start endIdx).Perm
      ((List.range n).map (fun c => ((c : ℕ) : ℤ))) := by
  have hn0 : 0 < n := hn
  have hp1len : parent1.length = n := by rw [hp1.length_eq, List.length_range]
  have hp2len : parent2.length = n := by rw [hp2.length_eq, List.length_range]
  have hcx : Genetic.crossover parent1 parent2 start endIdx =
      Genetic.fillLoop parent2 (Genetic.segmentCopy parent1 n start endIdx).2 n
        endIdx (Genetic.segmentCopy parent1 n start endIdx).1 := by
    unfold Genetic.crossover
    rw [hp1len]
  rw [hcx, Genetic.fillLoop_eq_place]
  obtain ⟨⟨hc1len, hc1D⟩, husd⟩ := Genetic.segmentCopy_spec parent1 n start endIdx hend
  obtain ⟨hsegnd, hseglt, hseglen⟩ :=
    Genetic.segVals_spec parent1 n start endIdx hp1 hse hend
  have hrot : ((List.range n).map
      (fun i => parent2.getD ((endIdx + 1 + i) % n) 0)).Perm parent2 :=
    Genetic.rot_perm parent2 n endIdx hn0 hp2len
  have hrotrange : ((List.range n).map
      (fun i => parent2.getD ((endIdx + 1 + i) % n) 0)).Perm (List.range n) :=
    hrot.trans hp2
  have hrotnd : ((List.range n).map
      (fun i => parent2.getD ((endIdx + 1 + i) % n) 0)).Nodup :=
    hrotrange.symm.nodup (List.nodup_range n)
  have hpart : (((List.range n).map
        (fun i => parent2.getD ((endIdx + 1 + i) % n) 0)).filter
          (fun c => decide (c ∈ (Genetic.segmentCopy parent1 n start endIdx).2)) ++
      ((List.range n).map
        (fun i => parent2.getD ((endIdx + 1 + i) % n) 0)).filter
          (fun c => !decide (c ∈ (Genetic.segmentCopy parent1 n start endIdx).2))).Perm
      ((List.range n).map (fun i => parent2.getD ((endIdx + 1 + i) % n) 0)) :=
    List.filter_append_perm _ _
  have hfilperm : (((List.range n).map
      (fun i => parent2.getD ((endIdx + 1 + i) % n) 0)).filter
        (fun c => decide (c ∈ (Genetic.segmentCopy parent1 n start endIdx).2))).Perm
      ((List.range' start (endIdx + 1 - start)).map (fun i => parent1.getD i 0)) := by
    apply (List.perm_ext_iff_of_nodup (hrotnd.filter _) hsegnd).mpr
    intro a
    rw [List.mem_filter]
    constructor
    · rintro ⟨_, ha2⟩
      have h3 : a ∈ (Genetic.segmentCopy parent1 n start endIdx).2 :=
        of_decide_eq_true ha2
      rw [husd] at h3
      exact List.mem_toFinset.mp h3
    · intro ha
      refine ⟨?_, ?_⟩
      · exact hrotrange.mem_iff.mpr (List.mem_range.mpr (hseglt a ha))
      · rw [husd]
        exact decide_eq_true (List.mem_toFinset.mpr ha)
  have hLlen : (Genetic.fillList parent2
      (Genetic.segmentCopy parent1 n start endIdx).2 n endIdx).length =
      n - (endIdx + 1 - start) := by
    have h1 := hpart.length_eq
    rw [List.length_append, hrotrange.length_eq, List.length_range] at h1
    have h2 := hfilperm.length_eq
    rw [hseglen] at h2
    show (((List.range n).map
        (fun i => parent2.getD ((endIdx + 1 + i) % n) 0)).filter
          (fun c => !decide (c ∈ (Genetic.segmentCopy parent1 n start endIdx).2))).length =
      n - (endIdx + 1 - start)
    omega
  -- positional characterization of the final child
  have hFlen : (Genetic.place n (Genetic.segmentCopy parent1 n start endIdx).1
      ((endIdx + 1) % n)
      (Genetic.fillList parent2 (Genetic.segmentCopy parent1 n start endIdx).2 n
        endIdx)).length = n := by
    rw [Genetic.place_length, hc1len]
  have hFseg : ∀ p, start ≤ p → p ≤ endIdx →
      (Genetic.place n (Genetic.segmentCopy parent1 n start endIdx).1
        ((endIdx + 1) % n)
        (Genetic.fillList parent2 (Genetic.segmentCopy parent1 n start endIdx).2 n
          endIdx)).getD p 0 = ((parent1.getD p 0 : ℕ) : ℤ) := by
    intro p h1 h2
    have hunt : (Genetic.place n (Genetic.segmentCopy parent1 n start endIdx).1
        ((endIdx + 1 + 0) % n)
        (Genetic.fillList parent2 (Genetic.segmentCopy parent1 n start endIdx).2 n
          endIdx)).getD p 0 =
        (Genetic.segmentCopy parent1 n start endIdx).1.getD p 0 := by
      apply Genetic.place_getD_untouched
      intro s hs heq
      rw [hLlen] at hs
      rw [Genetic.mod_small (endIdx + 1 + 0 + s) n hn0 (by omega)] at heq
      split at heq <;> omega
    rw [show (endIdx + 1) % n = (endIdx + 1 + 0) % n from rfl, hunt, hc1D p,
        if_pos ⟨h1, h2⟩]
  have hFfill : ∀ p, p < n → (p < start ∨ endIdx < p) →
      (Genetic.place n (Genetic.segmentCopy parent1 n start endIdx).1
        ((endIdx + 1) % n)
        (Genetic.fillList parent2 (Genetic.segmentCopy parent1 n start endIdx).2 n
          endIdx)).getD p 0 =
      (((Genetic.fillList parent2 (Genetic.segmentCopy parent1 n start endIdx).2 n
          endIdx).getD
        (if endIdx < p then p - (endIdx + 1) else p + (n - 1 - endIdx)) 0 : ℕ) : ℤ) := by
    intro p hp hps
    have htch := Genetic.place_getD_touched n (endIdx + 1) hn0
      (Genetic.fillList parent2 (Genetic.segmentCopy parent1 n start endIdx).2 n
        endIdx)
      (Genetic.segmentCopy parent1 n start endIdx).1 0
      (if endIdx < p then p - (endIdx + 1) else p + (n - 1 - endIdx))
      (by rw [hLlen]; split <;> omega)
      (by rw [hLlen]; omega) hc1len
    have hpos : (endIdx + 1 + 0 +
        (if endIdx < p then p - (endIdx + 1) else p + (n - 1 - endIdx))) % n = p := by
      rw [Genetic.mod_small _ n hn0 (by split <;> omega)]
      split <;> split <;> omega
    rw [hpos] at htch
    rw [show (endIdx + 1) % n = (endIdx + 1 + 0) % n from rfl]
    exact htch
  -- rebuild the child as a map over positions and split into three blocks
  have hFeq := list_eq_map_getD
    (Genetic.place n (Genetic.segmentCopy parent1 n start endIdx).1
      ((endIdx + 1) % n)
      (Genetic.fillList parent2 (Genetic.segmentCopy parent1 n start endIdx).2 n
        endIdx)) 0 n hFlen
  have hsplit : List.range n =
      List.range' 0 start ++ List.range' start (endIdx + 1 - start) ++
        List.range' (endIdx + 1) (n - (endIdx + 1)) := by
    conv_lhs => rw [List.range_eq_range',
      show n = start + ((endIdx + 1 - start) + (n - (endIdx + 1))) from by omega]
    rw [range'_split, range'_split, Nat.zero_add,
        show start + (endIdx + 1 - start) = endIdx + 1 from by omega,
        ← List.append_assoc]
  rw [hFeq, hsplit, List.map_append, List.map_append]
  have hR2 : (List.range' start (endIdx + 1 - start)).map
      (fun p => (Genetic.place n (Genetic.segmentCopy parent1 n start endIdx).1
        ((endIdx + 1) % n)
        (Genetic.fillList parent2 (Genetic.segmentCopy parent1 n start endIdx).2 n
          endIdx)).getD p 0) =
      ((List.range' start (endIdx + 1 - start)).map (fun i => parent1.getD i 0)).map
        (fun c => ((c : ℕ) : ℤ)) := by
    rw [List.map_map]
    apply List.map_congr_left
    intro p hp
    have hp' := List.mem_range'_1.mp hp
    exact hFseg p (by omega) (by omega)
  have hR3 : (List.range' (endIdx + 1) (n - (endIdx + 1))).map
      (fun p => (Genetic.place n (Genetic.segmentCopy parent1 n start endIdx).1
        ((endIdx + 1) % n)
        (Genetic.fillList parent2 (Genetic.segmentCopy parent1 n start endIdx).2 n
          endIdx)).getD p 0) =
      ((Genetic.fillList parent2 (Genetic.segmentCopy parent1 n start endIdx).2 n
        endIdx).take (n - (endIdx + 1))).map (fun c => ((c : ℕ) : ℤ)) := by
    apply List.ext_getElem
    · rw [List.length_map, List.length_range', List.length_map, List.length_take,
          hLlen]
      omega
    · intro q h1 h2
      have hq : q < n - (endIdx + 1) := by
        rw [List.length_map, List.length_range'] at h1
        exact h1
      simp only [List.getElem_map, List.getElem_range'_1, List.getElem_take]
      rw [hFfill (endIdx + 1 + q) (by omega) (by omega)]
      rw [if_pos (by omega : endIdx < endIdx + 1 + q)]
      congr 2
      rw [show endIdx + 1 + q - (endIdx + 1) = q from by omega]
      rw [List.getD_eq_getElem _ 0 (by rw [hLlen]; omega)]
  have hR1 : (List.range' 0 start).map
      (fun p => (Genetic.place n (Genetic.segmentCopy parent1 n start endIdx).1
        ((endIdx + 1) % n)
        (Genetic.fillList parent2 (Genetic.segmentCopy parent1 n start endIdx).2 n
          endIdx)).getD p 0) =
      ((Genetic.fillList parent2 (Genetic.segmentCopy parent1 n start endIdx).2 n
        endIdx).drop (n - (endIdx + 1))).map (fun c => ((c : ℕ) : ℤ)) := by
    apply List.ext_getElem
    · rw [List.length_map, List.length_range', List.length_map, List.length_drop,
          hLlen]
      omega
    · intro q h1 h2
      have hq : q < start := by
        rw [List.length_map, List.length_range'] at h1
        exact h1
      simp only [List.getElem_map, List.getElem_range'_1, List.getElem_drop]
      rw [hFfill (0 + q) (by omega) (by omega)]
      rw [if_neg (by omega : ¬ endIdx < 0 + q)]
      congr 2
      rw [List.getD_eq_getElem _ 0 (by rw [hLlen]; omega)]
      congr 1
      omega
  rw [hR1, hR2, hR3, ← hsplit]
  -- collect the three blocks into segment cities plus fill cities
  have hblocks : (((Genetic.fillList parent2
        (Genetic.segmentCopy parent1 n start endIdx).2 n endIdx).drop
          (n - (endIdx + 1))).map (fun c => ((c : ℕ) : ℤ)) ++
      ((List.range' start (endIdx + 1 - start)).map (fun i => parent1.getD i 0)).map
        (fun c => ((c : ℕ) : ℤ)) ++
      ((Genetic.fillList parent2
        (Genetic.segmentCopy parent1 n start endIdx).2 n endIdx).take
          (n - (endIdx + 1))).map (fun c => ((c : ℕ) : ℤ))).Perm
      ((((List.range' start (endIdx + 1 - start)).map (fun i => parent1.getD i 0)) ++
        (Genetic.fillList parent2
          (Genetic.segmentCopy parent1 n start endIdx).2 n endIdx)).map
        (fun c => ((c : ℕ) : ℤ))) := by
    rw [List.perm_iff_count]
    intro z
    conv_rhs => rw [← List.take_append_drop (n - (endIdx + 1))
      (Genetic.fillList parent2
        (Genetic.segmentCopy parent1 n start endIdx).2 n endIdx)]
    simp only [List.map_append, List.count_append]
    omega
  apply hblocks.trans
  have hperm2 : ((((List.range' start (endIdx + 1 - start)).map
        (fun i => parent1.getD i 0)) ++
      (Genetic.fillList parent2
        (Genetic.segmentCopy parent1 n start endIdx).2 n endIdx))).Perm
      (List.range n) := by
    have ha : ((((List.range' start (endIdx + 1 - start)).map
          (fun i => parent1.getD i 0)) ++
        (Genetic.fillList parent2
          (Genetic.segmentCopy parent1 n start endIdx).2 n endIdx))).Perm
        ((((List.range n).map
          (fun i => parent2.getD ((endIdx + 1 + i) % n) 0)).filter
            (fun c => decide (c ∈ (Genetic.segmentCopy parent1 n start endIdx).2))) ++
          (Genetic.fillList parent2
            (Genetic.segmentCopy parent1 n start endIdx).2 n endIdx)) :=
      (List.perm_append_right_iff _).mpr hfilperm.symm
    exact ha.trans (hpart.trans hrotrange)
  exact hperm2.map (fun c => ((c : ℕ) : ℤ))

/-- Concrete instantiation of `claim_C6`. -/
theorem claim_C6_witness :
    (Genetic.crossover [3, 1, 0, 2, 4] [4, 0, 2, 1, 3] 1 2).Perm
      ((List.range 5).map (fun c => ((c : ℕ) : ℤ))) :=
  claim_C6 5 (by norm_num) [3, 1, 0, 2, 4] [4, 0, 2, 1, 3] 1 2
    (by decide) (by decide) (by norm_num) (by norm_num)

namespace Zigzag

theorem dedupFirst_mem_aux :
    ∀ (N : ℕ) (l : List ℕ), l.length ≤ N → ∀ c, (c ∈ dedupFirst l ↔ c ∈ l) := by
  intro N
  induction N with
  | zero =>
      intro l hl c
      have hnil : l = [] := List.length_eq_zero.mp (by omega)
      subst hnil
      rw [dedupFirst]
  | succ N ih =>
      intro l hl c
      rcases l with _ | ⟨x, xs⟩
      · rw [dedupFirst]
      · rw [dedupFirst, List.mem_cons, List.mem_cons]
        rw [ih (xs.filter (fun y => y ≠ x))
            (le_trans (List.length_filter_le _ _) (by simpa using hl)) c]
        rw [List.mem_filter]
        constructor
        · rintro (h | ⟨h1, _⟩)
          · exact Or.inl h
          · exact Or.inr h1
        · rintro (h | h1)
          · exact Or.inl h
          · by_cases hcx : c = x
            · exact Or.inl hcx
            · exact Or.inr ⟨h1, by simpa using hcx⟩

theorem dedupFirst_mem (l : List ℕ) (c : ℕ) : c ∈ dedupFirst l ↔ c ∈ l :=
  dedupFirst_mem_aux l.length l (le_refl _) c

theorem dedupFirst_nodup_aux :
    ∀ (N : ℕ) (l : List ℕ), l.length ≤ N → (dedupFirst l).Nodup := by
  intro N
  induction N with
  | zero =>
      intro l hl
      have hnil : l = [] := List.length_eq_zero.mp (by omega)
      subst hnil
      rw [dedupFirst]
      exact List.nodup_nil
  | succ N ih =>
      intro l hl
      rcases l with _ | ⟨x, xs⟩
      · rw [dedupFirst]
        exact List.nodup_nil
      · rw [dedupFirst]
        refine List.nodup_cons.mpr ⟨?_, ih _
          (le_trans (List.length_filter_le _ _) (by simpa using hl))⟩
        intro hmem
        have h := (dedupFirst_mem _ _).mp hmem
        have h2 := (List.mem_filter.mp h).2
        simp at h2

theorem dedupFirst_nodup (l : List ℕ) : (dedupFirst l).Nodup :=
  dedupFirst_nodup_aux l.length l (le_refl _)

theorem getD_mem (l : List ℕ) (k : ℕ) (hk : k < l.length) : l.getD k 0 ∈ l := by
  rw [List.getD_eq_getElem _ 0 hk]
  exact List.getElem_mem _

/-- Every id the walk emits comes from the input tour. -/
theorem walk_sub (dist : Point → Point → ℚ) (pts : List Point)
    (tourIndices : List ℕ) :
    ∀ (fuel i : ℕ) (acc : List ℕ), 1 ≤ i →
      (∀ c ∈ acc, c ∈ tourIndices) →
      ∀ c ∈ walk dist pts tourIndices fuel i acc, c ∈ tourIndices := by
  intro fuel
  induction fuel with
  | zero =>
      intro i acc _ hacc c hc
      rw [walk] at hc
      exact hacc c hc
  | succ fuel ih =>
      intro i acc h1 hacc c hc
      rw [walk] at hc
      by_cases hlt : i < tourIndices.length
      · rw [if_pos hlt] at hc
        have hlen0 : 0 < tourIndices.length := by omega
        split at hc
        · refine ih (i + 3) _ (by omega) (fun c' hc' => ?_) c hc
          rcases List.mem_append.mp hc' with h | h
          · exact hacc c' h
          · simp only [List.mem_cons, List.mem_singleton] at h
            rcases h with h | h | h | h | h
            · rw [h]; exact getD_mem _ _ (by omega)
            · rw [h]; exact getD_mem _ _ (Nat.mod_lt _ hlen0)
            · rw [h]; exact getD_mem _ _ (Nat.mod_lt _ hlen0)
            · rw [h]; exact getD_mem _ _ (Nat.mod_lt _ hlen0)
            · exact absurd h (List.not_mem_nil c')
        · refine ih (i + 1) _ (by omega) (fun c' hc' => ?_) c hc
          rcases List.mem_append.mp hc' with h | h
          · exact hacc c' h
          · simp only [List.mem_cons, List.mem_singleton] at h
            rcases h with h | h | h
            · rw [h]; exact getD_mem _ _ (by omega)
            · rw [h]; exact getD_mem _ _ (Nat.mod_lt _ hlen0)
            · exact absurd h (List.not_mem_nil c')
      · rw [if_neg hlt] at hc
        exact hacc c hc

/-- Once every index below `i` has been emitted, the rest of the walk emits
every remaining index: the final emission list covers all tour positions. -/
theorem walk_cov (dist : Point → Point → ℚ) (pts : List Point)
    (tourIndices : List ℕ) :
    ∀ (fuel i : ℕ) (acc : List ℕ),
      1 ≤ i → i ≤ tourIndices.length → tourIndices.length ≤ fuel + i →
      (∀ j, j < i → tourIndices.getD j 0 ∈ acc) →
      ∀ j, j < tourIndices.length →
        tourIndices.getD j 0 ∈ walk dist pts tourIndices fuel i acc := by
  intro fuel
  induction fuel with
  | zero =>
      intro i acc h1 h2 h3 hinv j hj
      rw [walk]
      exact hinv j (by omega)
  | succ fuel ih =>
      intro i acc h1 h2 h3 hinv j hj
      rw [walk]
      by_cases hlt : i < tourIndices.length
      · rw [if_pos hlt]
        by_cases hz : tourIndices.length - i > 2 ∧ shouldZigzag dist i pts = true
        · rw [if_pos hz]
          have hi2 : i + 2 < tourIndices.length := by
            have := hz.1
            omega
          refine ih (i + 3) _ (by omega) (by omega) (by omega)
            (fun j' hj' => ?_) j hj
          rcases Nat.lt_or_ge j' i with hj2 | hj2
          · exact List.mem_append_left _ (hinv j' hj2)
          · apply List.mem_append_right
            rw [show (i + 1) % tourIndices.length = i + 1 from
                  Nat.mod_eq_of_lt (by omega),
                show i % tourIndices.length = i from Nat.mod_eq_of_lt hlt,
                show (i + 2) % tourIndices.length = i + 2 from
                  Nat.mod_eq_of_lt (by omega)]
            have hco : j' = i ∨ j' = i + 1 ∨ j' = i + 2 := by omega
            rcases hco with h | h | h <;> rw [h] <;> simp
        · rw [if_neg hz]
          refine ih (i + 1) _ (by omega) (by omega) (by omega)
            (fun j' hj' => ?_) j hj
          rcases Nat.lt_or_ge j' i with hj2 | hj2
          · exact List.mem_append_left _ (hinv j' hj2)
          · apply List.mem_append_right
            rw [show i % tourIndices.length = i from Nat.mod_eq_of_lt hlt]
            have hco : j' = i := by omega
            rw [hco]
            simp
      · rw [if_neg hlt]
        exact hinv j (by omega)

end Zigzag

/-- C8: for every input tour that is a permutation of `{0..n-1}` with
`n ≥ 3`, `zigzag.optimize` returns the first-occurrence deduplication of its
emission walk: a list with no duplicate ids that omits no id of the input and
contains nothing but ids of the input. -/
theorem claim_C8 (dist : Point → Point → ℚ) (points : List Point)
    (tourIndices : List ℕ) (n : ℕ) (hn : 3 ≤ n)
    (hperm : tourIndices.Perm (List.range n)) :
    (Zigzag.optimize dist tourIndices points).Nodup ∧
    ∀ c, (c ∈ Zigzag.optimize dist tourIndices points ↔ c ∈ tourIndices) := by
  have hlen : tourIndices.length = n := by rw [hperm.length_eq, List.length_range]
  constructor
  · exact Zigzag.dedupFirst_nodup _
  · intro c
    show c ∈ Zigzag.dedupFirst (Zigzag.walk dist
      (tourIndices.map (fun idx => points.getD idx default)) tourIndices
      (tourIndices.length + 1) 1 []) ↔ c ∈ tourIndices
    rw [Zigzag.dedupFirst_mem]
    constructor
    · intro hc
      exact Zigzag.walk_sub dist _ tourIndices (tourIndices.length + 1) 1 []
        (le_refl _) (fun c' hc' => absurd hc' (List.not_mem_nil c')) c hc
    · intro hc
      obtain ⟨j, hj, hjv⟩ := List.getElem_of_mem hc
      have hlen1 : 1 < tourIndices.length := by omega
      have hcov : tourIndices.getD j 0 ∈ Zigzag.walk dist
          (tourIndices.map (fun idx => points.getD idx default)) tourIndices
          (tourIndices.length + 1) 1 [] := by
        rw [Zigzag.walk, if_pos hlen1]
        by_cases hz : tourIndices.length - 1 > 2 ∧ Zigzag.shouldZigzag dist 1
            (tourIndices.map (fun idx => points.getD idx default)) = true
        · rw [if_pos hz]
          have h4 : 4 ≤ tourIndices.length := by
            have := hz.1
            omega
          refine Zigzag.walk_cov dist _ tourIndices tourIndices.length 4 _
            (by omega) (by omega) (by omega) (fun j' hj' => ?_) j hj
          apply List.mem_append_right
          rw [show (1 + 1) % tourIndices.length = 2 from Nat.mod_eq_of_lt (by omega),
              show 1 % tourIndices.length = 1 from Nat.mod_eq_of_lt (by omega),
              show (1 + 2) % tourIndices.length = 3 from Nat.mod_eq_of_lt (by omega)]
          have hco : j' = 0 ∨ j' = 1 ∨ j' = 2 ∨ j' = 3 := by omega
          rcases hco with h | h | h | h <;> rw [h] <;> simp
        · rw [if_neg hz]
          refine Zigzag.walk_cov dist _ tourIndices tourIndices.length 2 _
            (by omega) (by omega) (by omega) (fun j' hj' => ?_) j hj
          apply List.mem_append_right
          rw [show 1 % tourIndices.length = 1 from Nat.mod_eq_of_lt (by omega)]
          have hco : j' = 0 ∨ j' = 1 := by omega
          rcases hco with h | h <;> rw [h] <;> simp
      rw [List.getD_eq_getElem _ 0 hj, hjv] at hcov
      exact hcov

/-- Concrete instantiation of `claim_C8`. -/
theorem claim_C8_witness :
    (Zigzag.optimize (fun _ _ => 0) [2, 0, 1] []).Nodup :=
  (claim_C8 (fun _ _ => 0) [] [2, 0, 1] 3 (by norm_num) (by decide)).1

/-- C9: `calculateEfficiency(solutionLength, referenceLength)` equals
`referenceLength / solutionLength * 100` for every positive solution length,
equals `0` for every non-positive solution length, and concretely
`efficiency(4,4) = 100`, `efficiency(5,4) = 80`, `efficiency(0,x) = 0`. -/
theorem claim_C9 :
    (∀ s r : ℚ, 0 < s → calculateEfficiency s r = r / s * 100) ∧
    (∀ s r : ℚ, s ≤ 0 → calculateEfficiency s r = 0) ∧
    calculateEfficiency 4 4 = 100 ∧
    calculateEfficiency 5 4 = 80 ∧
    (∀ x : ℚ, calculateEfficiency 0 x = 0) := by
  refine ⟨?_, ?_, ?_, ?_, ?_⟩
  · intro s r hs
    rw [calculateEfficiency, if_neg (not_le.mpr hs)]
  · intro s r hs
    rw [calculateEfficiency, if_pos hs]
  · norm_num [calculateEfficiency]
  · norm_num [calculateEfficiency]
  · intro x
    norm_num [calculateEfficiency]

/-- Concrete instantiation of `claim_C9`. -/
theorem claim_C9_witness : calculateEfficiency 5 4 = 80 :=
  claim_C9.2.2.2.1

/-! Bit-level toolkit for the Held-Karp masks. -/
theorem shiftLeft_one_eq_pow (i : ℕ) : (1 <<< i) = 2 ^ i := by
  rw [Nat.shiftLeft_eq, one_mul]

theorem and_shift_eq_zero (m i : ℕ) : (m &&& (1 <<< i) = 0) ↔ m.testBit i = false := by
  rw [shiftLeft_one_eq_pow, Nat.and_two_pow]
  have hpos : 2 ^ i ≠ 0 := (Nat.two_pow_pos i).ne'
  cases h : m.testBit i
  · simp
  · simp [hpos]

theorem testBit_xor_pow_self (m i : ℕ) (hm : m.testBit i = true) :
    (m ^^^ 2 ^ i).testBit i = false := by
  rw [Nat.testBit_xor, hm, Nat.testBit_two_pow_self]
  rfl

theorem testBit_xor_pow_ne (m i j : ℕ) (h : j ≠ i) :
    (m ^^^ 2 ^ i).testBit j = m.testBit j := by
  rw [Nat.testBit_xor, Nat.testBit_two_pow_of_ne (fun hij => h hij.symm)]
  cases m.testBit j <;> rfl

theorem eq_zero_of_no_testBit (m : ℕ) (h : ∀ i, m.testBit i = false) : m = 0 :=
  Nat.eq_of_testBit_eq (fun i => by rw [h i, Nat.zero_testBit])

theorem mem_MaskBits (n m x : ℕ) :
    x ∈ MaskBits n m ↔ (1 ≤ x ∧ x < n) ∧ m.testBit x = true := by
  simp [MaskBits, Finset.mem_filter, Finset.mem_Ico]

theorem mem_MaskBits_of_valid (n m x : ℕ) (hv : ValidMask n m) :
    x ∈ MaskBits n m ↔ m.testBit x = true := by
  rw [mem_MaskBits]
  constructor
  · exact fun h => h.2
  · intro h
    refine ⟨⟨?_, hv.2 x h⟩, h⟩
    rcases Nat.eq_zero_or_pos x with h0 | h1
    · subst h0; rw [hv.1] at h; cases h
    · exact h1

theorem validMask_xor_pow (n m last : ℕ) (hv : ValidMask n m)
    (hbit : m.testBit last = true) : ValidMask n (m ^^^ 2 ^ last) := by
  have hlast0 : last ≠ 0 := by
    intro h; subst h; rw [hv.1] at hbit; cases hbit
  constructor
  · rw [testBit_xor_pow_ne m last 0 (fun h => hlast0 h.symm)]
    exact hv.1
  · intro j hj
    by_cases hjl : j = last
    · subst hjl; exact hv.2 _ hbit
    · rw [testBit_xor_pow_ne m last j hjl] at hj
      exact hv.2 _ hj

theorem maskBits_xor_pow (n m last : ℕ) (hbit : m.testBit last = true) :
    MaskBits n (m ^^^ 2 ^ last) = (MaskBits n m).erase last := by
  ext x
  rw [Finset.mem_erase, mem_MaskBits, mem_MaskBits]
  constructor
  · intro ⟨hr, hb⟩
    have hxl : x ≠ last := by
      intro h; subst h
      rw [testBit_xor_pow_self m x hbit] at hb; cases hb
    rw [testBit_xor_pow_ne m last x hxl] at hb
    exact ⟨hxl, hr, hb⟩
  · intro ⟨hxl, hr, hb⟩
    rw [testBit_xor_pow_ne m last x hxl]
    exact ⟨hr, hb⟩

theorem maskSize_xor_pow (n m last : ℕ) (hv : ValidMask n m)
    (hbit : m.testBit last = true) :
    maskSize n (m ^^^ 2 ^ last) = maskSize n m - 1 := by
  unfold maskSize
  rw [maskBits_xor_pow n m last hbit]
  exact Finset.card_erase_of_mem ((mem_MaskBits_of_valid n m last hv).mpr hbit)

theorem maskSize_pos (n m last : ℕ) (hk : KeyOK n m last) : 1 ≤ maskSize n m := by
  have hmem := (mem_MaskBits_of_valid n m last hk.1).mpr hk.2
  exact Finset.card_pos.mpr ⟨last, hmem⟩

/-- A valid mask of size one containing `last` is the singleton bit. -/
theorem mask_eq_pow_of_size_one (n m last : ℕ) (hk : KeyOK n m last)
    (hs : maskSize n m = 1) : m = 2 ^ last := by
  have hmem := (mem_MaskBits_of_valid n m last hk.1).mpr hk.2
  have hsing : MaskBits n m = {last} := by
    obtain ⟨a, ha⟩ := Finset.card_eq_one.mp hs
    rw [ha] at hmem ⊢
    rw [Finset.mem_singleton] at hmem
    rw [hmem]
  apply Nat.eq_of_testBit_eq
  intro j
  by_cases hj : j = last
  · subst hj; rw [hk.2, Nat.testBit_two_pow_self]
  · rw [Nat.testBit_two_pow_of_ne (fun h => hj h.symm)]
    by_cases hb : m.testBit j = true
    · have := (mem_MaskBits_of_valid n m j hk.1).mpr hb
      rw [hsing, Finset.mem_singleton] at this
      exact absurd this hj
    · simp only [Bool.not_eq_true] at hb
      exact hb

theorem IsPathOver_length (n m : ℕ) (σ : List ℕ) (hv : ValidMask n m)
    (hp : IsPathOver m σ) : σ.length = maskSize n m := by
  have htf : σ.toFinset = MaskBits n m := by
    ext x
    rw [List.mem_toFinset, mem_MaskBits_of_valid n m x hv]
    exact hp.2 x
  rw [← List.toFinset_card_of_nodup hp.1, htf]
  rfl

/-- The unique path over a singleton mask. -/
theorem IsPathOver_pow (i : ℕ) (σ : List ℕ) :
    IsPathOver (2 ^ i) σ ↔ σ = [i] := by
  constructor
  · intro ⟨hnd, hcov⟩
    have hmem : i ∈ σ := (hcov i).mpr Nat.testBit_two_pow_self
    have hall : ∀ x ∈ σ, x = i := by
      intro x hx
      by_contra hne
      rw [hcov x, Nat.testBit_two_pow_of_ne (fun h => hne h.symm)] at hx
      cases hx
    rcases σ with _ | ⟨a, tl⟩
    · cases hmem
    · have ha : a = i := hall a (List.mem_cons_self _ _)
      rcases tl with _ | ⟨b, tl'⟩
      · rw [ha]
      · have hb : b = i := hall b (by simp)
        rw [List.nodup_cons] at hnd
        exact absurd (by rw [ha, ← hb]; simp : a ∈ b :: tl') hnd.1
  · intro h
    subst h
    refine ⟨List.nodup_singleton i, fun x => ?_⟩
    constructor
    · intro hx
      rw [List.mem_singleton] at hx
      subst hx
      exact Nat.testBit_two_pow_self
    · intro hx
      by_cases hxi : x = i
      · subst hxi; simp
      · rw [Nat.testBit_two_pow_of_ne (fun h => hxi h.symm)] at hx
        cases hx

/-- Stripping the final city of a path over `m` leaves a path over the
mask with that city cleared. -/
theorem path_decomp (m : ℕ) (σ : List ℕ) (last : ℕ)
    (hp : IsPathOver m σ) (hl : σ.getLast? = some last) (hlen : 2 ≤ σ.length) :
    ∃ σ' prev, σ = σ' ++ [last] ∧ σ'.getLast? = some prev ∧
      IsPathOver (m ^^^ 2 ^ last) σ' ∧ (m ^^^ 2 ^ last).testBit prev = true := by
  have hne : σ ≠ [] := by intro h; rw [h] at hlen; simp at hlen
  have hlast : σ.getLast hne = last := by
    have := List.getLast?_eq_getLast σ hne
    rw [this] at hl
    exact (Option.some_inj.mp hl)
  have hsplit : σ.dropLast ++ [last] = σ := by
    rw [← hlast]
    exact List.dropLast_append_getLast hne
  set σ' := σ.dropLast with hσ'
  have hne' : σ' ≠ [] := by
    intro h
    have h2 := hlen
    rw [← hsplit, h] at h2
    simp at h2
  have hbitlast : m.testBit last = true := (hp.2 last).mp (by rw [← hsplit]; simp)
  have hnd' : σ'.Nodup := hp.1.sublist (List.dropLast_sublist σ)
  have hlast_not : last ∉ σ' := by
    intro hmem
    have : ¬ σ.Nodup := by
      rw [← hsplit]
      intro hnd
      rw [List.nodup_append] at hnd
      exact (hnd.2.2 hmem) (by simp)
    exact this hp.1
  have hcov' : ∀ x, x ∈ σ' ↔ (m ^^^ 2 ^ last).testBit x = true := by
    intro x
    constructor
    · intro hx
      have hxσ : x ∈ σ := by rw [← hsplit]; exact List.mem_append_left _ hx
      have hxl : x ≠ last := fun h => hlast_not (h ▸ hx)
      rw [testBit_xor_pow_ne m last x hxl]
      exact (hp.2 x).mp hxσ
    · intro hx
      by_cases hxl : x = last
      · subst hxl
        rw [testBit_xor_pow_self m x hbitlast] at hx
        cases hx
      · rw [testBit_xor_pow_ne m last x hxl] at hx
        have hxσ : x ∈ σ := (hp.2 x).mpr hx
        rw [← hsplit] at hxσ
        rcases List.mem_append.mp hxσ with h | h
        · exact h
        · rw [List.mem_singleton] at h
          exact absurd h hxl
  obtain ⟨prev, hprev⟩ : ∃ prev, σ'.getLast? = some prev := by
    rcases σ' with _ | ⟨a, tl⟩
    · exact absurd rfl hne'
    · exact ⟨(a :: tl).getLast (by simp), List.getLast?_eq_getLast _ _⟩
  refine ⟨σ', prev, hsplit.symm, hprev, ⟨hnd', hcov'⟩, ?_⟩
  have hprevmem : prev ∈ σ' := by
    have := List.getLast?_eq_getLast σ' hne'
    rw [this] at hprev
    rw [← Option.some_inj.mp hprev]
    exact List.getLast_mem hne'
  exact (hcov' prev).mp hprevmem

/-- Appending a fresh city to a path over the cleared mask yields a path
over the full mask. -/
theorem path_compose (m last : ℕ) (σ' : List ℕ) (hbit : m.testBit last = true)
    (hp : IsPathOver (m ^^^ 2 ^ last) σ') :
    IsPathOver m (σ' ++ [last]) ∧ (σ' ++ [last]).getLast? = some last := by
  have hlast_not : last ∉ σ' := by
    intro hmem
    have := (hp.2 last).mp hmem
    rw [testBit_xor_pow_self m last hbit] at this
    cases this
  constructor
  · constructor
    · rw [List.nodup_append]
      refine ⟨hp.1, List.nodup_singleton last, ?_⟩
      intro a ha hb
      rw [List.mem_singleton] at hb
      exact hlast_not (hb ▸ ha)
    · intro x
      rw [List.mem_append, List.mem_singleton]
      constructor
      · intro hx
        rcases hx with hx | hx
        · have := (hp.2 x).mp hx
          have hxl : x ≠ last := fun h => hlast_not (h ▸ hx)
          rw [testBit_xor_pow_ne m last x hxl] at this
          exact this
        · subst hx; exact hbit
      · intro hx
        by_cases hxl : x = last
        · right; exact hxl
        · left
          rw [hp.2 x, testBit_xor_pow_ne m last x hxl]
          exact hx
  · rw [List.getLast?_concat]

/-- Path cost of a one-city extension. -/
theorem pathLen_snoc (graph : Graph) (σ' : List ℕ) (last prev : ℕ)
    (h : σ'.getLast? = some prev) :
    pathLen graph (0 :: (σ' ++ [last])) = pathLen graph (0 :: σ') + graph prev last := by
  have hne' : σ' ≠ [] := by
    intro hh; rw [hh] at h; cases h
  have hprev : σ'.getLast hne' = prev := by
    have := List.getLast?_eq_getLast σ' hne'
    rw [this] at h
    exact Option.some_inj.mp h
  have hstep : (0 :: (σ' ++ [last])) = (0 :: σ') ++ [last] := rfl
  rw [hstep, pathLen_append graph (0 :: σ') [last] (by simp) (by simp)]
  have hgl : (0 :: σ').getLast (by simp) = σ'.getLast hne' := List.getLast_cons hne'
  rw [pathLen_single, hgl, hprev]
  simp

theorem minFoldStep_of_none (cand : ℕ → Option ℚ) (acc : Option ℚ × Option ℕ)
    (i : ℕ) (hc : cand i = none) : minFoldStep cand acc i = acc := by
  unfold minFoldStep; rw [hc]

theorem minFoldStep_of_some_none (cand : ℕ → Option ℚ) (acc : Option ℚ × Option ℕ)
    (i : ℕ) (c : ℚ) (hc : cand i = some c) (ha : acc.1 = none) :
    minFoldStep cand acc i = (some c, some i) := by
  unfold minFoldStep; rw [hc, ha]

theorem minFoldStep_of_some_lt (cand : ℕ → Option ℚ) (acc : Option ℚ × Option ℕ)
    (i : ℕ) (c b : ℚ) (hc : cand i = some c) (ha : acc.1 = some b) (hlt : c < b) :
    minFoldStep cand acc i = (some c, some i) := by
  unfold minFoldStep
  rw [hc, ha]
  exact if_pos hlt

theorem minFoldStep_of_some_ge (cand : ℕ → Option ℚ) (acc : Option ℚ × Option ℕ)
    (i : ℕ) (c b : ℚ) (hc : cand i = some c) (ha : acc.1 = some b) (hlt : ¬ c < b) :
    minFoldStep cand acc i = acc := by
  unfold minFoldStep
  rw [hc, ha]
  exact if_neg hlt

/-- After a step whose candidate is `some c`, the tracked best is some value
at most `c`. -/
theorem minFoldStep_best_le (cand : ℕ → Option ℚ) (acc : Option ℚ × Option ℕ)
    (i : ℕ) (c : ℚ) (hc : cand i = some c) :
    ∃ v, (minFoldStep cand acc i).1 = some v ∧ v ≤ c := by
  cases ha : acc.1 with
  | none => rw [minFoldStep_of_some_none cand acc i c hc ha]; exact ⟨c, rfl, le_refl c⟩
  | some b =>
      by_cases hcb : c < b
      · rw [minFoldStep_of_some_lt cand acc i c b hc ha hcb]
        exact ⟨c, rfl, le_refl c⟩
      · rw [minFoldStep_of_some_ge cand acc i c b hc ha hcb]
        exact ⟨b, ha, le_of_not_lt hcb⟩

theorem minFold_aux_mono (cand : ℕ → Option ℚ) :
    ∀ (l : List ℕ) (acc : Option ℚ × Option ℕ) (v : ℚ), acc.1 = some v →
      ∃ bd, (l.foldl (minFoldStep cand) acc).1 = some bd ∧ bd ≤ v := by
  intro l
  induction l with
  | nil => intro acc v h; exact ⟨v, h, le_refl v⟩
  | cons i l' ih =>
      intro acc v h
      rw [List.foldl_cons]
      cases hc : cand i with
      | none =>
          rw [minFoldStep_of_none cand acc i hc]
          exact ih acc v h
      | some c =>
          by_cases hcv : c < v
          · rw [minFoldStep_of_some_lt cand acc i c v hc h hcv]
            obtain ⟨bd, hbd, hle⟩ := ih (some c, some i) c rfl
            exact ⟨bd, hbd, le_trans hle (le_of_lt hcv)⟩
          · rw [minFoldStep_of_some_ge cand acc i c v hc h hcv]
            exact ih acc v h

theorem minFold_aux_none (cand : ℕ → Option ℚ) :
    ∀ (l : List ℕ) (acc : Option ℚ × Option ℕ),
      (l.foldl (minFoldStep cand) acc).1 = none →
      acc.1 = none ∧ ∀ i ∈ l, cand i = none := by
  intro l
  induction l with
  | nil => intro acc h; exact ⟨h, fun i hi => absurd hi (List.not_mem_nil i)⟩
  | cons i l' ih =>
      intro acc h
      rw [List.foldl_cons] at h
      obtain ⟨hacc', hrest⟩ := ih _ h
      cases hc : cand i with
      | none =>
          rw [minFoldStep_of_none cand acc i hc] at hacc'
          refine ⟨hacc', fun j hj => ?_⟩
          rcases List.mem_cons.mp hj with hj | hj
          · subst hj; exact hc
          · exact hrest j hj
      | some c =>
          exfalso
          obtain ⟨v, hv, _⟩ := minFoldStep_best_le cand acc i c hc
          rw [hacc'] at hv
          cases hv

theorem minFold_aux_ex (cand : ℕ → Option ℚ) :
    ∀ (l : List ℕ) (acc : Option ℚ × Option ℕ) (bd : ℚ),
      (l.foldl (minFoldStep cand) acc).1 = some bd →
      acc.1 = some bd ∨ ∃ i ∈ l, cand i = some bd := by
  intro l
  induction l with
  | nil => intro acc bd h; left; exact h
  | cons i l' ih =>
      intro acc bd h
      rw [List.foldl_cons] at h
      rcases ih _ bd h with h1 | ⟨j, hj, hcj⟩
      · cases hc : cand i with
        | none =>
            rw [minFoldStep_of_none cand acc i hc] at h1
            left; exact h1
        | some c =>
            cases ha : acc.1 with
            | none =>
                rw [minFoldStep_of_some_none cand acc i c hc ha] at h1
                have h2 : some c = some bd := h1
                right
                exact ⟨i, List.mem_cons_self _ _, by rw [hc, Option.some_inj.mp h2]⟩
            | some b =>
                by_cases hcb : c < b
                · rw [minFoldStep_of_some_lt cand acc i c b hc ha hcb] at h1
                  have h2 : some c = some bd := h1
                  right
                  exact ⟨i, List.mem_cons_self _ _, by rw [hc, Option.some_inj.mp h2]⟩
                · rw [minFoldStep_of_some_ge cand acc i c b hc ha hcb] at h1
                  left
                  rw [← ha]
                  exact h1
      · right; exact ⟨j, List.mem_cons_of_mem _ hj, hcj⟩

theorem minFold_aux_le (cand : ℕ → Option ℚ) :
    ∀ (l : List ℕ) (acc : Option ℚ × Option ℕ) (bd : ℚ),
      (l.foldl (minFoldStep cand) acc).1 = some bd →
      ∀ i ∈ l, ∀ c, cand i = some c → bd ≤ c := by
  intro l
  induction l with
  | nil => intro acc bd _ i hi; exact absurd hi (List.not_mem_nil i)
  | cons i l' ih =>
      intro acc bd h j hj c hcj
      rw [List.foldl_cons] at h
      rcases List.mem_cons.mp hj with hj' | hj'
      · subst hj'
        obtain ⟨v, hv, hvc⟩ := minFoldStep_best_le cand acc j c hcj
        obtain ⟨bd', hbd', hle⟩ := minFold_aux_mono cand l' _ v hv
        rw [h] at hbd'
        rw [Option.some_inj.mp hbd']
        exact le_trans hle hvc
      · exact ih _ bd h j hj' c hcj

theorem pow_lor_xor_self (e i : ℕ) (h : e.testBit i = true) :
    2 ^ i ||| (e ^^^ 2 ^ i) = e := by
  apply Nat.eq_of_testBit_eq
  intro j
  rw [Nat.testBit_or, Nat.testBit_xor]
  by_cases hj : j = i
  · subst hj
    rw [Nat.testBit_two_pow_self, h]
    rfl
  · rw [Nat.testBit_two_pow_of_ne (fun hh => hj hh.symm)]
    cases e.testBit j <;> rfl

/-- Soundness of the `generateSubsets` recursion: every emitted mask adds to
`current` a set of fresh bits in `start..n-1` of cardinality `size - count`. -/
theorem genSubsets_sound (n size : ℕ) :
    ∀ (fuel start current count m : ℕ), n - start ≤ fuel → count ≤ size →
      m ∈ genSubsets n size start current count →
      ∃ e, m = current ||| e ∧ (∀ j, e.testBit j = true → start ≤ j ∧ j < n) ∧
        ((Finset.Ico start n).filter (fun j => e.testBit j)).card = size - count := by
  intro fuel
  induction fuel with
  | zero =>
      intro start current count m hfuel hcount hm
      rw [genSubsets] at hm
      by_cases hcs : count = size
      · rw [if_pos hcs, List.mem_singleton] at hm
        refine ⟨0, ?_, ?_, ?_⟩
        · rw [hm, Nat.or_zero]
        · intro j hj
          rw [Nat.zero_testBit] at hj
          cases hj
        · rw [Finset.filter_false_of_mem (fun j _ => by simp [Nat.zero_testBit])]
          simp [hcs]
      · rw [if_neg hcs] at hm
        have hr : n - start = 0 := by omega
        rw [hr] at hm
        simp at hm
  | succ fuel ih =>
      intro start current count m hfuel hcount hm
      rw [genSubsets] at hm
      by_cases hcs : count = size
      · rw [if_pos hcs, List.mem_singleton] at hm
        refine ⟨0, ?_, ?_, ?_⟩
        · rw [hm, Nat.or_zero]
        · intro j hj
          rw [Nat.zero_testBit] at hj
          cases hj
        · rw [Finset.filter_false_of_mem (fun j _ => by simp [Nat.zero_testBit])]
          simp [hcs]
      · rw [if_neg hcs] at hm
        obtain ⟨l, hl, hml⟩ := List.mem_flatten.mp hm
        obtain ⟨a, _, hfa⟩ := List.mem_map.mp hl
        have hart := List.mem_range'_1.mp a.2
        have hstartn : start < n := by omega
        have hi1 : start ≤ a.1 := hart.1
        have hi2 : a.1 < n := by omega
        rw [← hfa] at hml
        obtain ⟨e', hme', hbits', hcard'⟩ :=
          ih (a.1 + 1) (current ||| (1 <<< a.1)) (count + 1) m (by omega) (by omega) hml
        refine ⟨2 ^ a.1 ||| e', ?_, ?_, ?_⟩
        · rw [hme', shiftLeft_one_eq_pow, Nat.lor_assoc]
        · intro j hj
          rw [Nat.testBit_or] at hj
          rcases Bool.or_eq_true_iff.mp hj with hj | hj
          · have : j = a.1 := by
              by_contra hne
              rw [Nat.testBit_two_pow_of_ne (fun hh => hne hh.symm)] at hj
              cases hj
            omega
          · have := hbits' j hj
            omega
        · have hset : (Finset.Ico start n).filter (fun j => (2 ^ a.1 ||| e').testBit j) =
              insert a.1 ((Finset.Ico (a.1 + 1) n).filter (fun j => e'.testBit j)) := by
            ext j
            rw [Finset.mem_insert, Finset.mem_filter, Finset.mem_filter,
              Finset.mem_Ico, Finset.mem_Ico]
            constructor
            · intro ⟨hrange, hbit⟩
              rw [Nat.testBit_or] at hbit
              rcases Bool.or_eq_true_iff.mp hbit with hb | hb
              · left
                by_contra hne
                rw [Nat.testBit_two_pow_of_ne (fun hh => hne hh.symm)] at hb
                cases hb
              · right
                have := hbits' j hb
                exact ⟨⟨by omega, by omega⟩, hb⟩
            · intro h
              rcases h with h | ⟨hrange, hbit⟩
              · subst h
                refine ⟨⟨by omega, by omega⟩, ?_⟩
                rw [Nat.testBit_or, Nat.testBit_two_pow_self]
                rfl
              · refine ⟨⟨by omega, by omega⟩, ?_⟩
                rw [Nat.testBit_or, hbit]
                cases (2 ^ a.1).testBit j <;> rfl
          rw [hset, Finset.card_insert_of_not_mem, hcard']
          · omega
          · intro hmem
            rw [Finset.mem_filter, Finset.mem_Ico] at hmem
            omega

/-- Completeness of the `generateSubsets` recursion: every mask extending
`current` by `size - count` fresh bits in `start..n-1` is emitted. -/
theorem genSubsets_complete (n size : ℕ) :
    ∀ (fuel start current count e : ℕ), n - start ≤ fuel → count ≤ size →
      (∀ j, e.testBit j = true → start ≤ j ∧ j < n) →
      ((Finset.Ico start n).filter (fun j => e.testBit j)).card = size - count →
      (current ||| e) ∈ genSubsets n size start current count := by
  intro fuel
  induction fuel with
  | zero =>
      intro start current count e hfuel hcount hbits hcard
      by_cases hcs : count = size
      · have hzero : ∀ j, e.testBit j = false := by
          intro j
          by_contra hne
          rw [Bool.not_eq_false] at hne
          have hj := hbits j hne
          have : j ∈ (Finset.Ico start n).filter (fun j => e.testBit j) :=
            Finset.mem_filter.mpr ⟨Finset.mem_Ico.mpr ⟨hj.1, hj.2⟩, hne⟩
          have hc0 : ((Finset.Ico start n).filter (fun j => e.testBit j)).card = 0 := by
            omega
          rw [Finset.card_eq_zero.mp hc0] at this
          cases this
        rw [eq_zero_of_no_testBit e hzero, Nat.or_zero, genSubsets, if_pos hcs]
        exact List.mem_singleton.mpr rfl
      · exfalso
        have hpos : 0 < ((Finset.Ico start n).filter (fun j => e.testBit j)).card := by
          omega
        obtain ⟨j, hj⟩ := Finset.card_pos.mp hpos
        rw [Finset.mem_filter, Finset.mem_Ico] at hj
        omega
  | succ fuel ih =>
      intro start current count e hfuel hcount hbits hcard
      by_cases hcs : count = size
      · have hzero : ∀ j, e.testBit j = false := by
          intro j
          by_contra hne
          rw [Bool.not_eq_false] at hne
          have hj := hbits j hne
          have : j ∈ (Finset.Ico start n).filter (fun j => e.testBit j) :=
            Finset.mem_filter.mpr ⟨Finset.mem_Ico.mpr ⟨hj.1, hj.2⟩, hne⟩
          have hc0 : ((Finset.Ico start n).filter (fun j => e.testBit j)).card = 0 := by
            omega
          rw [Finset.card_eq_zero.mp hc0] at this
          cases this
        rw [eq_zero_of_no_testBit e hzero, Nat.or_zero, genSubsets, if_pos hcs]
        exact List.mem_singleton.mpr rfl
      · set S := (Finset.Ico start n).filter (fun j => e.testBit j) with hS
        have hpos : 0 < S.card := by omega
        have hne : S.Nonempty := Finset.card_pos.mp hpos
        set i := S.min' hne with hidef
        have himem : i ∈ S := S.min'_mem hne
        have hifacts : (start ≤ i ∧ i < n) ∧ e.testBit i = true := by
          have := Finset.mem_filter.mp himem
          exact ⟨Finset.mem_Ico.mp this.1, this.2⟩
        have himin : ∀ j ∈ S, i ≤ j := fun j hj => S.min'_le j hj
        rw [genSubsets, if_neg hcs]
        apply List.mem_flatten.mpr
        have hirange : i ∈ List.range' start (n - start) :=
          List.mem_range'_1.mpr ⟨hifacts.1.1, by omega⟩
        refine ⟨genSubsets n size (i + 1) (current ||| (1 <<< i)) (count + 1),
          List.mem_map.mpr ⟨⟨i, hirange⟩, List.mem_attach _ _, rfl⟩, ?_⟩
        have herase : (Finset.Ico (i + 1) n).filter (fun j => (e ^^^ 2 ^ i).testBit j) =
            S.erase i := by
          ext j
          rw [Finset.mem_filter, Finset.mem_Ico, Finset.mem_erase, hS,
            Finset.mem_filter, Finset.mem_Ico]
          constructor
          · intro ⟨hrange, hbit⟩
            have hji : j ≠ i := by omega
            rw [testBit_xor_pow_ne e i j hji] at hbit
            have := hbits j hbit
            exact ⟨hji, ⟨by omega, by omega⟩, hbit⟩
          · intro ⟨hji, hrange, hbit⟩
            have hjS : j ∈ S := by
              rw [hS, Finset.mem_filter, Finset.mem_Ico]
              exact ⟨hrange, hbit⟩
            have := himin j hjS
            refine ⟨⟨by omega, hrange.2⟩, ?_⟩
            rw [testBit_xor_pow_ne e i j hji]
            exact hbit
        have hrec := ih (i + 1) (current ||| (1 <<< i)) (count + 1) (e ^^^ 2 ^ i)
          (by omega) (by omega)
          (by
            intro j hj
            by_cases hji : j = i
            · subst hji
              rw [testBit_xor_pow_self e i hifacts.2] at hj
              cases hj
            · rw [testBit_xor_pow_ne e i j hji] at hj
              have hjb := hbits j hj
              have hjS : j ∈ S := by
                rw [hS, Finset.mem_filter, Finset.mem_Ico]
                exact ⟨⟨hjb.1, hjb.2⟩, hj⟩
              have := himin j hjS
              omega)
          (by
            rw [herase, Finset.card_erase_of_mem himem]
            omega)
        have hmask : (current ||| (1 <<< i)) ||| (e ^^^ 2 ^ i) = current ||| e := by
          rw [shiftLeft_one_eq_pow, Nat.lor_assoc, pow_lor_xor_self e i hifacts.2]
        rw [hmask] at hrec
        exact hrec

/-- The top-level subset enumeration emits only valid masks of the requested
size. -/
theorem genSubsets_mask_sound (n size m : ℕ) (hm : m ∈ genSubsets n size 1 0 0) :
    ValidMask n m ∧ maskSize n m = size := by
  obtain ⟨e, hme, hbits, hcard⟩ :=
    genSubsets_sound n size n 1 0 0 m (by omega) (Nat.zero_le _) hm
  rw [Nat.zero_or] at hme
  subst hme
  refine ⟨⟨?_, fun j hj => (hbits j hj).2⟩, ?_⟩
  · by_cases h0 : m.testBit 0 = true
    · have := (hbits 0 h0).1
      omega
    · rw [Bool.not_eq_true] at h0
      exact h0
  · unfold maskSize MaskBits
    rw [hcard]
    omega

/-- The top-level subset enumeration emits every valid mask of the requested
size. -/
theorem genSubsets_mask_complete (n size m : ℕ) (hv : ValidMask n m)
    (hs : maskSize n m = size) : m ∈ genSubsets n size 1 0 0 := by
  have := genSubsets_complete n size n 1 0 0 m (by omega) (Nat.zero_le _)
    (by
      intro j hj
      refine ⟨?_, hv.2 j hj⟩
      rcases Nat.eq_zero_or_pos j with h0 | h1
      · subst h0; rw [hv.1] at hj; cases hj
      · exact h1)
    (by
      unfold maskSize MaskBits at hs
      rw [hs]
      omega)
  rw [Nat.zero_or] at this
  exact this

theorem minFold_none (cand : ℕ → Option ℚ) (l : List ℕ)
    (h : (minFold cand l).1 = none) : ∀ i ∈ l, cand i = none :=
  (minFold_aux_none cand l (none, none) h).2

theorem minFold_ex (cand : ℕ → Option ℚ) (l : List ℕ) (bd : ℚ)
    (h : (minFold cand l).1 = some bd) : ∃ i ∈ l, cand i = some bd := by
  rcases minFold_aux_ex cand l (none, none) bd h with h1 | h1
  · cases h1
  · exact h1

theorem minFold_le (cand : ℕ → Option ℚ) (l : List ℕ) (bd : ℚ)
    (h : (minFold cand l).1 = some bd) : ∀ i ∈ l, ∀ c, cand i = some c → bd ≤ c :=
  minFold_aux_le cand l (none, none) bd h

theorem hkProcessMask_eq (graph : Graph) (n : ℕ) (st : HKState) (mask : ℕ) :
    hkProcessMask graph n st mask =
      (List.range' 1 (n - 1)).foldl (hkMaskStep graph n mask) st := rfl

theorem hkBestPrev_eq (graph : Graph) (dp : ℕ → ℕ → Option ℚ) (n prevMask last : ℕ) :
    hkBestPrev graph dp n prevMask last =
      minFold (fun prev => if prevMask &&& (1 <<< prev) = 0 then none
        else (dp prevMask prev).map (fun d => d + graph prev last))
        (List.range' 1 (n - 1)) := by
  unfold hkBestPrev minFold
  congr 1
  funext acc prev
  unfold minFoldStep
  dsimp only
  by_cases h : prevMask &&& (1 <<< prev) = 0
  · rw [if_pos h, if_pos h]
  · rw [if_neg h, if_neg h]
    cases dp prevMask prev <;> rfl

theorem hkFinal_eq (graph : Graph) (dp : ℕ → ℕ → Option ℚ) (n fullMask : ℕ) :
    hkFinal graph dp n fullMask =
      minFold (fun i => (dp fullMask i).map (fun d => d + graph i 0))
        (List.range' 1 (n - 1)) := by
  unfold hkFinal minFold
  congr 1
  funext acc i
  unfold minFoldStep
  dsimp only
  cases dp fullMask i <;> rfl

theorem testBit_true_of_and_ne (m i : ℕ) (h : ¬ (m &&& (1 <<< i) = 0)) :
    m.testBit i = true := by
  cases hb : m.testBit i
  · exact absurd ((and_shift_eq_zero m i).mpr hb) h
  · rfl

theorem and_ne_of_testBit (m i : ℕ) (h : m.testBit i = true) :
    ¬ (m &&& (1 <<< i) = 0) := by
  intro h0
  rw [(and_shift_eq_zero m i).mp h0] at h
  cases h

theorem maskSize_zero (n : ℕ) : maskSize n 0 = 0 := by
  unfold maskSize MaskBits
  rw [Finset.filter_false_of_mem (fun j _ => by simp [Nat.zero_testBit])]
  rfl

theorem mask_ne_zero (n m : ℕ) (h : 1 ≤ maskSize n m) : m ≠ 0 := by
  intro h0
  rw [h0, maskSize_zero] at h
  omega

theorem mapUpdate_self {α : Type} (f : ℕ → ℕ → α) (k₁ k₂ : ℕ) (v : α) :
    mapUpdate f k₁ k₂ v k₁ k₂ = v := by
  unfold mapUpdate
  rw [if_pos ⟨rfl, rfl⟩]

theorem mapUpdate_ne {α : Type} (f : ℕ → ℕ → α) (k₁ k₂ : ℕ) (v : α) (m l : ℕ)
    (h : ¬ (m = k₁ ∧ l = k₂)) : mapUpdate f k₁ k₂ v m l = f m l := by
  unfold mapUpdate
  rw [if_neg h]

theorem mapUpdate_isSome {α : Type} (f : ℕ → ℕ → Option α) (k₁ k₂ : ℕ) (v : α)
    (m l : ℕ) (h : (f m l).isSome = true) :
    (mapUpdate f k₁ k₂ (some v) m l).isSome = true := by
  by_cases hk : m = k₁ ∧ l = k₂
  · obtain ⟨h1, h2⟩ := hk
    subst h1; subst h2
    rw [mapUpdate_self]
    rfl
  · rw [mapUpdate_ne f k₁ k₂ _ m l hk]
    exact h

/-- Processing a mask never deletes a dp entry. -/
theorem hkMaskStep_isSome_mono (graph : Graph) (n mask : ℕ) (st : HKState)
    (last m l : ℕ) (h : (st.dp m l).isSome = true) :
    ((hkMaskStep graph n mask st last).dp m l).isSome = true := by
  unfold hkMaskStep
  by_cases h1 : mask &&& (1 <<< last) = 0
  · rw [if_pos h1]; exact h
  · rw [if_neg h1]
    by_cases h2 : mask ^^^ (1 <<< last) = 0
    · rw [if_pos h2]; exact h
    · rw [if_neg h2]
      rcases hbp : hkBestPrev graph st.dp n (mask ^^^ (1 <<< last)) last with ⟨o1, o2⟩
      cases o1 with
      | none => exact h
      | some bd => exact mapUpdate_isSome st.dp mask last bd m l h

/-- The key dp-soundness step: processing one `last` of a size-`t+1` mask
writes only correct minimum path costs, given a sound state whose entries
include all complete size-`t` keys. -/
theorem hkMaskStep_sound (graph : Graph) (n : ℕ) (st₀ : HKState) (mask t : ℕ)
    (hn : 2 ≤ n) (ht : 1 ≤ t) (hcomp : DPComplete n st₀.dp t)
    (hvalid : ValidMask n mask) (hsize : maskSize n mask = t + 1)
    (st : HKState) (last : ℕ)
    (hsound : DPSound graph n st.dp)
    (hmono : ∀ m l, (st₀.dp m l).isSome = true → (st.dp m l).isSome = true) :
    DPSound graph n (hkMaskStep graph n mask st last).dp := by
  unfold hkMaskStep
  by_cases hskip : mask &&& (1 <<< last) = 0
  · rw [if_pos hskip]; exact hsound
  · rw [if_neg hskip]
    by_cases hpm0 : mask ^^^ (1 <<< last) = 0
    · rw [if_pos hpm0]; exact hsound
    · rw [if_neg hpm0]
      have hbit : mask.testBit last = true := testBit_true_of_and_ne mask last hskip
      have hsl : (1 <<< last) = 2 ^ last := shiftLeft_one_eq_pow last
      rw [hsl]
      have hvpm : ValidMask n (mask ^^^ 2 ^ last) :=
        validMask_xor_pow n mask last hvalid hbit
      have hspm : maskSize n (mask ^^^ 2 ^ last) = t := by
        rw [maskSize_xor_pow n mask last hvalid hbit, hsize, Nat.add_sub_cancel]
      rcases hbp : hkBestPrev graph st.dp n (mask ^^^ 2 ^ last) last with ⟨o1, o2⟩
      cases o1 with
      | none => exact hsound
      | some bd =>
          rw [hkBestPrev_eq] at hbp
          have hbp1 : (minFold (fun prev =>
              if (mask ^^^ 2 ^ last) &&& (1 <<< prev) = 0 then none
              else (st.dp (mask ^^^ 2 ^ last) prev).map (fun d => d + graph prev last))
              (List.range' 1 (n - 1))).1 = some bd := by rw [hbp]
          intro m l v hv
          have hv' : mapUpdate st.dp mask last (some bd) m l = some v := hv
          by_cases hkey : m = mask ∧ l = last
          · obtain ⟨h1, h2⟩ := hkey
            subst h1; subst h2
            rw [mapUpdate_self] at hv'
            have hbd : bd = v := Option.some_inj.mp hv'
            subst hbd
            refine ⟨⟨hvalid, hbit⟩, ?_, ?_⟩
            · -- existence: extend the optimal path found by the scan
              obtain ⟨prev, hprevmem, hcand⟩ := minFold_ex _ _ bd hbp1
              by_cases hc : (m ^^^ 2 ^ l) &&& (1 <<< prev) = 0
              · rw [if_pos hc] at hcand; cases hcand
              · rw [if_neg hc, Option.map_eq_some'] at hcand
                obtain ⟨d, hd, hdbd⟩ := hcand
                obtain ⟨_, ⟨σ', hσ', hlast', hdval⟩, _⟩ := hsound _ _ _ hd
                obtain ⟨hpath, hgl⟩ := path_compose m l σ' hbit hσ'
                refine ⟨σ' ++ [l], hpath, hgl, ?_⟩
                rw [pathLen_snoc graph σ' l prev hlast', ← hdval]
                exact hdbd.symm
            · -- minimality: any path decomposes through a size-t key
              intro σ hσ hglσ
              have hlenσ : σ.length = t + 1 := by
                rw [IsPathOver_length n m σ hvalid hσ, hsize]
              obtain ⟨σ'', prev'', hsplitσ, hgl'', hpath'', hbit''⟩ :=
                path_decomp m σ l hσ hglσ (by omega)
              have hkey'' : KeyOK n (m ^^^ 2 ^ l) prev'' := ⟨hvpm, hbit''⟩
              have hsome'' := hmono _ _ (hcomp _ _ hkey'' (le_of_eq hspm))
              obtain ⟨d'', hd''⟩ := Option.isSome_iff_exists.mp hsome''
              obtain ⟨_, _, hmin''⟩ := hsound _ _ _ hd''
              have hprev1 : 1 ≤ prev'' := by
                rcases Nat.eq_zero_or_pos prev'' with h0 | h1
                · subst h0; rw [hvpm.1] at hbit''; cases hbit''
                · exact h1
              have hprevn : prev'' < n := hvpm.2 _ hbit''
              have hmem'' : prev'' ∈ List.range' 1 (n - 1) :=
                List.mem_range'_1.mpr ⟨hprev1, by omega⟩
              have hcand'' : (if (m ^^^ 2 ^ l) &&& (1 <<< prev'') = 0 then none
                  else (st.dp (m ^^^ 2 ^ l) prev'').map
                    (fun d => d + graph prev'' l)) =
                  some (d'' + graph prev'' l) := by
                rw [if_neg (and_ne_of_testBit _ _ hbit''), hd'']
                rfl
              have hle := minFold_le _ _ bd hbp1 prev'' hmem'' _ hcand''
              rw [hsplitσ, pathLen_snoc graph σ'' l prev'' hgl'']
              have hd2 := hmin'' σ'' hpath'' hgl''
              linarith
          · rw [mapUpdate_ne st.dp mask last _ m l hkey] at hv'
            exact hsound m l v hv'

/-- Processing a mask records an entry for every city it contains. -/
theorem hkMaskStep_writes (graph : Graph) (n : ℕ) (st₀ : HKState) (mask t : ℕ)
    (hn : 2 ≤ n) (ht : 1 ≤ t) (hcomp : DPComplete n st₀.dp t)
    (hvalid : ValidMask n mask) (hsize : maskSize n mask = t + 1)
    (st : HKState) (last : ℕ)
    (hmono : ∀ m l, (st₀.dp m l).isSome = true → (st.dp m l).isSome = true)
    (hbit : mask.testBit last = true) :
    ((hkMaskStep graph n mask st last).dp mask last).isSome = true := by
  unfold hkMaskStep
  rw [if_neg (and_ne_of_testBit mask last hbit)]
  have hsl : (1 <<< last) = 2 ^ last := shiftLeft_one_eq_pow last
  rw [hsl]
  have hvpm : ValidMask n (mask ^^^ 2 ^ last) :=
    validMask_xor_pow n mask last hvalid hbit
  have hspm : maskSize n (mask ^^^ 2 ^ last) = t := by
    rw [maskSize_xor_pow n mask last hvalid hbit, hsize, Nat.add_sub_cancel]
  rw [if_neg (fun h0 => mask_ne_zero n (mask ^^^ 2 ^ last) (by omega) h0)]
  rcases hbp : hkBestPrev graph st.dp n (mask ^^^ 2 ^ last) last with ⟨o1, o2⟩
  cases o1 with
  | some bd =>
      have : (mapUpdate st.dp mask last (some bd) mask last).isSome = true := by
        rw [mapUpdate_self]; rfl
      exact this
  | none =>
      exfalso
      rw [hkBestPrev_eq] at hbp
      have hbp1 : (minFold (fun prev =>
          if (mask ^^^ 2 ^ last) &&& (1 <<< prev) = 0 then none
          else (st.dp (mask ^^^ 2 ^ last) prev).map (fun d => d + graph prev last))
          (List.range' 1 (n - 1))).1 = none := by rw [hbp]
      have hnemask : (MaskBits n (mask ^^^ 2 ^ last)).Nonempty := by
        apply Finset.card_pos.mp
        have : (MaskBits n (mask ^^^ 2 ^ last)).card = t := hspm
        omega
      obtain ⟨prev₀, hprev₀⟩ := hnemask
      have hb₀ : (mask ^^^ 2 ^ last).testBit prev₀ = true :=
        (mem_MaskBits_of_valid n _ prev₀ hvpm).mp hprev₀
      have hr₀ := ((mem_MaskBits n _ prev₀).mp hprev₀).1
      have hkey₀ : KeyOK n (mask ^^^ 2 ^ last) prev₀ := ⟨hvpm, hb₀⟩
      have hsome₀ := hmono _ _ (hcomp _ _ hkey₀ (le_of_eq hspm))
      obtain ⟨d₀, hd₀⟩ := Option.isSome_iff_exists.mp hsome₀
      have hcn := minFold_none _ _ hbp1 prev₀
        (List.mem_range'_1.mpr ⟨hr₀.1, by omega⟩)
      rw [if_neg (and_ne_of_testBit _ _ hb₀), hd₀] at hcn
      simp at hcn

/-- Fold-level specification of `hkProcessMask`: soundness is preserved, old
entries survive, and every `(mask, last)` key of the processed mask is
recorded. -/
theorem hkProcessMask_spec (graph : Graph) (n : ℕ) (st₀ : HKState) (mask t : ℕ)
    (hn : 2 ≤ n) (ht : 1 ≤ t) (hcomp : DPComplete n st₀.dp t)
    (hvalid : ValidMask n mask) (hsize : maskSize n mask = t + 1)
    (st : HKState)
    (hsound' : DPSound graph n st.dp)
    (hmono' : ∀ m l, (st₀.dp m l).isSome = true → (st.dp m l).isSome = true) :
    (DPSound graph n (hkProcessMask graph n st mask).dp ∧
      (∀ m l, (st₀.dp m l).isSome = true →
        ((hkProcessMask graph n st mask).dp m l).isSome = true)) ∧
    (∀ last, mask.testBit last = true →
      ((hkProcessMask graph n st mask).dp mask last).isSome = true) := by
  have hstep : ∀ (st' : HKState) (x : ℕ),
      (DPSound graph n st'.dp ∧
        (∀ m l, (st₀.dp m l).isSome = true → (st'.dp m l).isSome = true)) →
      (DPSound graph n (hkMaskStep graph n mask st' x).dp ∧
        (∀ m l, (st₀.dp m l).isSome = true →
          ((hkMaskStep graph n mask st' x).dp m l).isSome = true)) := by
    intro st' x hP
    exact ⟨hkMaskStep_sound graph n st₀ mask t hn ht hcomp hvalid hsize st' x hP.1 hP.2,
      fun m l hs => hkMaskStep_isSome_mono graph n mask st' x m l (hP.2 m l hs)⟩
  constructor
  · rw [hkProcessMask_eq]
    exact foldl_invariant _ _ _ _ (fun st' x _ hP => hstep st' x hP) ⟨hsound', hmono'⟩
  · intro last hbitl
    have hl1 : 1 ≤ last := by
      rcases Nat.eq_zero_or_pos last with h0 | h1
      · subst h0; rw [hvalid.1] at hbitl; cases hbitl
      · exact h1
    have hln : last < n := hvalid.2 _ hbitl
    have hmem : last ∈ List.range' 1 (n - 1) :=
      List.mem_range'_1.mpr ⟨hl1, by omega⟩
    obtain ⟨l₁, l₂, hsplit⟩ := List.mem_iff_append.mp hmem
    rw [hkProcessMask_eq, hsplit, List.foldl_append, List.foldl_cons]
    have hP1 : DPSound graph n (l₁.foldl (hkMaskStep graph n mask) st).dp ∧
        (∀ m l, (st₀.dp m l).isSome = true →
          ((l₁.foldl (hkMaskStep graph n mask) st).dp m l).isSome = true) :=
      foldl_invariant _ _ _ _ (fun st' x _ hP => hstep st' x hP) ⟨hsound', hmono'⟩
    have hw := hkMaskStep_writes graph n st₀ mask t hn ht hcomp hvalid hsize
      (l₁.foldl (hkMaskStep graph n mask) st) last hP1.2 hbitl
    exact foldl_invariant (fun st' => (st'.dp mask last).isSome = true) _ l₂ _
      (fun st' x _ hP => hkMaskStep_isSome_mono graph n mask st' x mask last hP) hw

theorem hkFill_eq (graph : Graph) (n : ℕ) :
    hkFill graph n =
      (List.range' 2 (n - 2)).foldl
        (fun st size => (genSubsets n size 1 0 0).foldl (hkProcessMask graph n) st)
        ((List.range' 1 (n - 1)).foldl (hkBaseStep graph) hkInit) := rfl

/-- Closed form of the base-case dp map: exactly the singleton keys. -/
theorem hkBase_char (graph : Graph) :
    ∀ (k : ℕ) (m last : ℕ) (v : ℚ),
      ((List.range' 1 k).foldl (hkBaseStep graph) hkInit).dp m last = some v ↔
      (∃ i, 1 ≤ i ∧ i < 1 + k ∧ m = 2 ^ i ∧ last = i ∧ v = graph 0 i) := by
  intro k
  induction k with
  | zero =>
      intro m last v
      constructor
      · intro h
        exact Option.noConfusion h
      · rintro ⟨i, h1, h2, _⟩
        omega
  | succ k ih =>
      intro m last v
      rw [List.range'_1_concat, List.foldl_append, List.foldl_cons, List.foldl_nil]
      constructor
      · intro h
        have h' : mapUpdate ((List.range' 1 k).foldl (hkBaseStep graph) hkInit).dp
            (1 <<< (1 + k)) (1 + k) (some (graph 0 (1 + k))) m last = some v := h
        by_cases hkey : m = 1 <<< (1 + k) ∧ last = 1 + k
        · obtain ⟨h1, h2⟩ := hkey
          rw [h1, h2, mapUpdate_self] at h'
          refine ⟨1 + k, by omega, by omega, ?_, h2, (Option.some_inj.mp h').symm⟩
          rw [h1, shiftLeft_one_eq_pow]
        · rw [mapUpdate_ne _ _ _ _ _ _ hkey] at h'
          obtain ⟨i, hi1, hi2, him, hil, hiv⟩ := (ih m last v).mp h'
          exact ⟨i, hi1, by omega, him, hil, hiv⟩
      · rintro ⟨i, hi1, hi2, him, hil, hiv⟩
        show mapUpdate ((List.range' 1 k).foldl (hkBaseStep graph) hkInit).dp
            (1 <<< (1 + k)) (1 + k) (some (graph 0 (1 + k))) m last = some v
        by_cases hik : i = 1 + k
        · subst hik
          rw [him, hil, hiv, shiftLeft_one_eq_pow, mapUpdate_self]
        · rw [mapUpdate_ne]
          · exact (ih m last v).mpr ⟨i, hi1, by omega, him, hil, hiv⟩
          · intro ⟨_, hl⟩
            rw [hil] at hl
            exact hik hl

/-- The base state is sound. -/
theorem hkBase_sound (graph : Graph) (n : ℕ) :
    DPSound graph n ((List.range' 1 (n - 1)).foldl (hkBaseStep graph) hkInit).dp := by
  intro m last v h
  obtain ⟨i, hi1, hi2, him, hil, hiv⟩ := (hkBase_char graph (n - 1) m last v).mp h
  subst him; subst hil; subst hiv
  refine ⟨⟨⟨?_, ?_⟩, Nat.testBit_two_pow_self⟩, ?_, ?_⟩
  · exact Nat.testBit_two_pow_of_ne (by omega : last ≠ 0)
  · intro j hj
    by_cases hji : j = last
    · omega
    · rw [Nat.testBit_two_pow_of_ne (fun hh => hji hh.symm)] at hj
      cases hj
  · refine ⟨[last], (IsPathOver_pow last [last]).mpr rfl, rfl, ?_⟩
    rw [pathLen_cons_cons, pathLen_single]
    ring
  · intro σ hσ _
    rw [(IsPathOver_pow last σ).mp hσ]
    rw [pathLen_cons_cons, pathLen_single]
    exact le_of_eq (by ring)

/-- The base state is complete for singleton keys. -/
theorem hkBase_complete (graph : Graph) (n : ℕ) :
    DPComplete n ((List.range' 1 (n - 1)).foldl (hkBaseStep graph) hkInit).dp 1 := by
  intro m last hk hs
  have hs1 : maskSize n m = 1 := le_antisymm hs (maskSize_pos n m last hk)
  have hm : m = 2 ^ last := mask_eq_pow_of_size_one n m last hk hs1
  have hln : last < n := hk.1.2 _ hk.2
  have hl1 : 1 ≤ last := by
    rcases Nat.eq_zero_or_pos last with h0 | h1
    · subst h0
      have h2 := hk.2
      rw [hk.1.1] at h2
      cases h2
    · exact h1
  rw [hm]
  exact Option.isSome_iff_exists.mpr ⟨graph 0 last,
    (hkBase_char graph (n - 1) (2 ^ last) last (graph 0 last)).mpr
      ⟨last, hl1, by omega, rfl, rfl, rfl⟩⟩

/-- `hkProcessMask` never deletes dp entries. -/
theorem hkProcessMask_isSome_mono (graph : Graph) (n : ℕ) (st : HKState)
    (mask m l : ℕ) (h : (st.dp m l).isSome = true) :
    ((hkProcessMask graph n st mask).dp m l).isSome = true := by
  rw [hkProcessMask_eq]
  exact foldl_invariant (fun st' => (st'.dp m l).isSome = true) _ _ _
    (fun st' x _ hP => hkMaskStep_isSome_mono graph n mask st' x m l hP) h

/-- After the size-ordered fill, the dp table is sound and complete for all
mask sizes up to `n - 1`. -/
theorem hkFill_spec (graph : Graph) (n : ℕ) (hn : 3 ≤ n) :
    DPSound graph n (hkFill graph n).dp ∧ DPComplete n (hkFill graph n).dp (n - 1) := by
  have main : ∀ k, k ≤ n - 2 →
      DPSound graph n ((List.range' 2 k).foldl
        (fun st size => (genSubsets n size 1 0 0).foldl (hkProcessMask graph n) st)
        ((List.range' 1 (n - 1)).foldl (hkBaseStep graph) hkInit)).dp ∧
      DPComplete n ((List.range' 2 k).foldl
        (fun st size => (genSubsets n size 1 0 0).foldl (hkProcessMask graph n) st)
        ((List.range' 1 (n - 1)).foldl (hkBaseStep graph) hkInit)).dp (k + 1) := by
    intro k
    induction k with
    | zero =>
        intro _
        exact ⟨hkBase_sound graph n, hkBase_complete graph n⟩
    | succ k ih =>
        intro hk
        obtain ⟨hS, hC⟩ := ih (by omega)
        rw [List.range'_1_concat, List.foldl_append, List.foldl_cons, List.foldl_nil]
        set stk := (List.range' 2 k).foldl
          (fun st size => (genSubsets n size 1 0 0).foldl (hkProcessMask graph n) st)
          ((List.range' 1 (n - 1)).foldl (hkBaseStep graph) hkInit) with hstk
        -- the inner fold over the size-(k+2) masks
        have hstep : ∀ (st' : HKState) (mm : ℕ), mm ∈ genSubsets n (2 + k) 1 0 0 →
            (DPSound graph n st'.dp ∧
              (∀ m l, (stk.dp m l).isSome = true → (st'.dp m l).isSome = true)) →
            (DPSound graph n (hkProcessMask graph n st' mm).dp ∧
              (∀ m l, (stk.dp m l).isSome = true →
                ((hkProcessMask graph n st' mm).dp m l).isSome = true)) := by
          intro st' mm hmm hP
          obtain ⟨hvm, hsm⟩ := genSubsets_mask_sound n (2 + k) mm hmm
          exact (hkProcessMask_spec graph n stk mm (k + 1) (by omega) (by omega)
            hC hvm (by omega) st' hP.1 hP.2).1
        have hinv : DPSound graph n ((genSubsets n (2 + k) 1 0 0).foldl
              (hkProcessMask graph n) stk).dp ∧
            (∀ m l, (stk.dp m l).isSome = true →
              (((genSubsets n (2 + k) 1 0 0).foldl (hkProcessMask graph n) stk).dp
                m l).isSome = true) :=
          foldl_invariant _ _ _ _ hstep ⟨hS, fun _ _ h => h⟩
        refine ⟨hinv.1, ?_⟩
        intro m last hkey hsize
        rcases Nat.lt_or_ge (maskSize n m) (k + 2) with hlt | hge
        · exact hinv.2 m last (hC m last hkey (by omega))
        · have hsz : maskSize n m = k + 2 := by omega
          have hmem : m ∈ genSubsets n (2 + k) 1 0 0 :=
            genSubsets_mask_complete n (2 + k) m hkey.1 (by omega)
          obtain ⟨l₁, l₂, hsplit⟩ := List.mem_iff_append.mp hmem
          rw [hsplit, List.foldl_append, List.foldl_cons]
          have hP1 := foldl_invariant _ _ l₁ stk
            (fun st' mm hmm hP => hstep st' mm (by rw [hsplit]; simp [hmm]) hP)
            ⟨hS, fun _ _ h => h⟩
          have hw := (hkProcessMask_spec graph n stk m (k + 1) (by omega) (by omega)
            hC hkey.1 (by omega) (l₁.foldl (hkProcessMask graph n) stk)
            hP1.1 hP1.2).2 last hkey.2
          exact foldl_invariant (fun st' => (st'.dp m last).isSome = true) _ l₂ _
            (fun st' x _ hP => hkProcessMask_isSome_mono graph n st' x m last hP) hw
  have hfin := main (n - 2) (le_refl _)
  rw [hkFill_eq]
  have hn1 : n - 2 + 1 = n - 1 := by omega
  rw [hn1] at hfin
  exact hfin

theorem getLast?_mem' (l : List ℕ) (a : ℕ) (h : l.getLast? = some a) : a ∈ l := by
  rcases l with _ | ⟨x, xs⟩
  · cases h
  · have hne : (x :: xs : List ℕ) ≠ [] := by simp
    rw [List.getLast?_eq_getLast _ hne] at h
    rw [← Option.some_inj.mp h]
    exact List.getLast_mem hne

/-- The length of a cyclic tour starting at city 0 splits into the open path
plus the closing edge from its final city. -/
theorem tourLength_head_zero (graph : Graph) (σ : List ℕ) (lastc : ℕ)
    (hσl : σ.getLast? = some lastc) :
    calculateTourLength graph (0 :: σ) = pathLen graph (0 :: σ) + graph lastc 0 := by
  have hσne : σ ≠ [] := by intro h; rw [h] at hσl; cases hσl
  have h0 : (0 :: σ : List ℕ) ≠ [] := by simp
  rw [calculateTourLength_eq_pathLen graph (0 :: σ) h0]
  have hgl : (0 :: σ).getLast h0 = lastc := by
    rw [List.getLast_cons hσne]
    have := List.getLast?_eq_getLast σ hσne
    rw [this] at hσl
    exact Option.some_inj.mp hσl
  rw [hgl, List.head_cons]

/-- The full mask `((1 <<< n) - 1) ^^^ 1` encodes exactly cities `1..n-1`. -/
theorem fullMask_spec (n : ℕ) (hn : 1 ≤ n) :
    (∀ j, (((1 <<< n) - 1) ^^^ 1).testBit j = true ↔ 1 ≤ j ∧ j < n) ∧
    ValidMask n (((1 <<< n) - 1) ^^^ 1) ∧
    maskSize n (((1 <<< n) - 1) ^^^ 1) = n - 1 := by
  have hbit : ∀ j, (((1 <<< n) - 1) ^^^ 1).testBit j = true ↔ 1 ≤ j ∧ j < n := by
    intro j
    rw [shiftLeft_one_eq_pow, Nat.testBit_xor, Nat.testBit_two_pow_sub_one]
    rcases Nat.eq_zero_or_pos j with h0 | h1
    · subst h0
      have h1b : Nat.testBit 1 0 = true := rfl
      rw [h1b]
      have hd : decide (0 < n) = true := decide_eq_true (by omega)
      rw [hd]
      simp
    · have h1b : Nat.testBit 1 j = false :=
        Nat.testBit_two_pow_of_ne (by omega : 0 ≠ j)
      rw [h1b, Bool.xor_false]
      simp only [decide_eq_true_eq]
      omega
  refine ⟨hbit, ⟨?_, fun j hj => ((hbit j).mp hj).2⟩, ?_⟩
  · cases hb : (((1 <<< n) - 1) ^^^ 1).testBit 0
    · rfl
    · have := (hbit 0).mp hb
      omega
  · unfold maskSize
    have hset : MaskBits n (((1 <<< n) - 1) ^^^ 1) = Finset.Ico 1 n := by
      ext x
      rw [mem_MaskBits, Finset.mem_Ico]
      constructor
      · intro h; exact h.1
      · intro h; exact ⟨h, (hbit x).mpr h⟩
    rw [hset, Nat.card_Ico]

/-- A Hamiltonian path over the full mask, prefixed with city 0, is a
permutation of all cities. -/
theorem path_to_perm (n F : ℕ) (hn : 1 ≤ n)
    (hFbit : ∀ j, F.testBit j = true ↔ 1 ≤ j ∧ j < n) (σ : List ℕ)
    (hσ : IsPathOver F σ) : (0 :: σ).Perm (List.range n) := by
  have hperm : σ.Perm (List.range' 1 (n - 1)) := by
    rw [List.perm_ext_iff_of_nodup hσ.1 (List.nodup_range' 1 (n - 1) 1 (by omega))]
    intro x
    rw [hσ.2 x, hFbit x, List.mem_range'_1]
    omega
  have hr : List.range n = 0 :: List.range' 1 (n - 1) := by
    rw [List.range_eq_range']
    conv_lhs => rw [show n = (n - 1) + 1 from by omega]
    rfl
  rw [hr]
  exact hperm.cons 0

/-- Conversely, a permutation of all cities beginning with 0 yields a
Hamiltonian path over the full mask. -/
theorem perm_zero_head_path (n F : ℕ) (hn : 2 ≤ n)
    (hFbit : ∀ j, F.testBit j = true ↔ 1 ≤ j ∧ j < n) (τ : List ℕ)
    (hτ : τ.Perm (List.range n)) (h0 : τ.head? = some 0) :
    ∃ σ lastc, τ = 0 :: σ ∧ IsPathOver F σ ∧ σ.getLast? = some lastc := by
  rcases τ with _ | ⟨a, σ⟩
  · cases h0
  · have ha : a = 0 := by
      rw [List.head?_cons] at h0
      exact Option.some_inj.mp h0
    subst ha
    have hnd : (0 :: σ).Nodup := hτ.nodup_iff.mpr (List.nodup_range n)
    have h0notin : 0 ∉ σ := (List.nodup_cons.mp hnd).1
    have hmemτ : ∀ x, x ∈ (0 :: σ) ↔ x < n := by
      intro x
      rw [hτ.mem_iff, List.mem_range]
    have hcov : ∀ x, x ∈ σ ↔ F.testBit x = true := by
      intro x
      rw [hFbit x]
      constructor
      · intro hx
        have hxn := (hmemτ x).mp (List.mem_cons_of_mem _ hx)
        have hx0 : x ≠ 0 := fun h => h0notin (h ▸ hx)
        exact ⟨by omega, hxn⟩
      · intro ⟨hx1, hxn⟩
        rcases List.mem_cons.mp ((hmemτ x).mpr hxn) with h | h
        · omega
        · exact h
    have hσne : σ ≠ [] := by
      intro h
      subst h
      have := (hmemτ 1).mpr (by omega)
      simp at this
    obtain ⟨lastc, hlastc⟩ : ∃ lastc, σ.getLast? = some lastc := by
      rcases σ with _ | ⟨y, ys⟩
      · exact absurd rfl hσne
      · exact ⟨_, List.getLast?_eq_getLast _ (by simp)⟩
    exact ⟨σ, lastc, rfl, ⟨(List.nodup_cons.mp hnd).2, hcov⟩, hlastc⟩

/-- The brute-force search returns a permutation, its exact length, and a
globally minimal length (restatement of the C1 analysis, shared with the
Held-Karp comparison). -/
theorem bruteForce_opt (graph : Graph) (n : ℕ) (hn : 1 ≤ n) :
    (bruteForceExact graph n).1.Perm (List.range n) ∧
    (bruteForceExact graph n).2 =
      calculateTourLength graph (bruteForceExact graph n).1 ∧
    ∀ τ : List ℕ, τ.Perm (List.range n) →
      (bruteForceExact graph n).2 ≤ calculateTourLength graph τ := by
  have hgood := permuteAux_good graph (List.range n) n (List.range n) 1
    (List.range n, calculateTourLength graph (List.range n))
    (List.Perm.refl _) (List.Perm.refl _) rfl
  refine ⟨hgood.1, hgood.2, fun τ hτ => ?_⟩
  rcases Nat.lt_or_ge n 2 with h2 | h2
  · have hn1 : n = 1 := by omega
    subst hn1
    have hr1 : List.range 1 = [0] := rfl
    have hτ0 : τ = [0] := by
      rw [hr1] at hτ
      exact List.perm_singleton.mp hτ
    subst hτ0
    show (permuteAux graph 1 (List.range 1) 1
        (List.range 1, calculateTourLength graph (List.range 1))).2 ≤ _
    rw [hr1]
    simp [permuteAux, List.range']
  · have h0τ : (0 : ℕ) ∈ τ := hτ.mem_iff.mpr (List.mem_range.mpr (by omega))
    obtain ⟨k, hk, hτk⟩ := List.getElem_of_mem h0τ
    have hστ : calculateTourLength graph (τ.rotate k) = calculateTourLength graph τ :=
      calculateTourLength_rotate graph τ k
    have hσperm : (τ.rotate k).Perm (List.range n) := (τ.rotate_perm k).trans hτ
    have hσlen : (τ.rotate k).length = n := by
      rw [List.length_rotate, hτ.length_eq, List.length_range]
    have hb0 : 0 < (τ.rotate k).length := by omega
    have hσ0 : (τ.rotate k)[0] = 0 := by
      rw [List.getElem_rotate]
      simpa [Nat.mod_eq_of_lt hk] using hτk
    have hσtake : (τ.rotate k).take 1 = (List.range n).take 1 := by
      rw [take_one_of_ne_nil _ (by omega), hσ0,
          take_one_of_ne_nil _ (by simp; omega)]
      simp only [List.getElem_range]
    have := permuteAux_min graph n (List.range n) 1
      (List.range n, calculateTourLength graph (List.range n)) (τ.rotate k)
      (by simp) (by simp; omega) hσperm hσtake
    calc (bruteForceExact graph n).2 ≤ calculateTourLength graph (τ.rotate k) := this
      _ = calculateTourLength graph τ := hστ

/-- The Held-Karp length equals the brute-force optimum. -/
theorem heldKarp_eq_bruteForce (graph : Graph) (n : ℕ) (hn : 3 ≤ n) :
    (heldKarp graph n).2 = some ((bruteForceExact graph n).2) := by
  obtain ⟨hbfperm, hbflen, hbfmin⟩ := bruteForce_opt graph n (by omega)
  obtain ⟨hS, hC⟩ := hkFill_spec graph n hn
  obtain ⟨hFbit, hFv, hFs⟩ := fullMask_spec n (by omega)
  have hfin_eq : (heldKarp graph n).2 =
      (minFold (fun i => ((hkFill graph n).dp (((1 <<< n) - 1) ^^^ 1) i).map
        (fun d => d + graph i 0)) (List.range' 1 (n - 1))).1 := by
    have h1 : (heldKarp graph n).2 =
        (hkFinal graph (hkFill graph n).dp n (((1 <<< n) - 1) ^^^ 1)).1 := rfl
    rw [h1, hkFinal_eq]
  rw [hfin_eq]
  rcases hres : (minFold (fun i => ((hkFill graph n).dp (((1 <<< n) - 1) ^^^ 1) i).map
      (fun d => d + graph i 0)) (List.range' 1 (n - 1))).1 with _ | L
  · -- impossible: the dp entry for last city 1 exists
    exfalso
    have hkey1 : KeyOK n (((1 <<< n) - 1) ^^^ 1) 1 :=
      ⟨hFv, (hFbit 1).mpr ⟨le_refl 1, by omega⟩⟩
    obtain ⟨d1, hd1⟩ := Option.isSome_iff_exists.mp
      (hC _ 1 hkey1 (le_of_eq hFs))
    have hnone := minFold_none _ _ hres 1 (List.mem_range'_1.mpr ⟨le_refl 1, by omega⟩)
    have hnone' : ((hkFill graph n).dp (((1 <<< n) - 1) ^^^ 1) 1).map
        (fun d => d + graph 1 0) = none := hnone
    rw [hd1] at hnone'
    simp at hnone'
  · -- the two optima coincide
    obtain ⟨i, hi, hci⟩ := minFold_ex _ _ L hres
    have hci' : ((hkFill graph n).dp (((1 <<< n) - 1) ^^^ 1) i).map
        (fun d => d + graph i 0) = some L := hci
    rw [Option.map_eq_some'] at hci'
    obtain ⟨d, hd, hdL⟩ := hci'
    have hdL' : d + graph i 0 = L := hdL
    obtain ⟨_, ⟨σ, hσ, hσl, hdv⟩, _⟩ := hS _ i d hd
    have hperm0 : (0 :: σ).Perm (List.range n) :=
      path_to_perm n (((1 <<< n) - 1) ^^^ 1) (by omega) hFbit σ hσ
    have hbfL : (bruteForceExact graph n).2 ≤ L := by
      calc (bruteForceExact graph n).2
          ≤ calculateTourLength graph (0 :: σ) := hbfmin _ hperm0
        _ = pathLen graph (0 :: σ) + graph i 0 := tourLength_head_zero graph σ i hσl
        _ = d + graph i 0 := by rw [← hdv]
        _ = L := hdL'
    have hLbf : L ≤ (bruteForceExact graph n).2 := by
      have h0mem : (0 : ℕ) ∈ (bruteForceExact graph n).1 :=
        hbfperm.mem_iff.mpr (List.mem_range.mpr (by omega))
      obtain ⟨k, hk, hk0⟩ := List.getElem_of_mem h0mem
      have hCTrot : calculateTourLength graph ((bruteForceExact graph n).1.rotate k) =
          calculateTourLength graph (bruteForceExact graph n).1 :=
        calculateTourLength_rotate graph _ k
      have hpermτ : ((bruteForceExact graph n).1.rotate k).Perm (List.range n) :=
        ((bruteForceExact graph n).1.rotate_perm k).trans hbfperm
      have hlenτ : ((bruteForceExact graph n).1.rotate k).length = n := by
        rw [List.length_rotate, hbfperm.length_eq, List.length_range]
      have hneτ : (bruteForceExact graph n).1.rotate k ≠ [] := by
        intro h
        rw [h] at hlenτ
        simp at hlenτ
        omega
      have hheadτ : ((bruteForceExact graph n).1.rotate k).head? = some 0 := by
        rw [List.head?_eq_head hneτ]
        have hbτ0 : 0 < ((bruteForceExact graph n).1.rotate k).length := by omega
        have hh : ((bruteForceExact graph n).1.rotate k).head hneτ =
            ((bruteForceExact graph n).1.rotate k)[0] :=
          List.head_eq_getElem _ hneτ
        rw [hh]
        have : ((bruteForceExact graph n).1.rotate k)[0] = 0 := by
          rw [List.getElem_rotate]
          simpa [Nat.mod_eq_of_lt hk] using hk0
        rw [this]
      obtain ⟨σ₀, lastc, hτeq, hσ₀, hσ₀l⟩ := perm_zero_head_path n
        (((1 <<< n) - 1) ^^^ 1) (by omega) hFbit _ hpermτ hheadτ
      have hlastbit : (((1 <<< n) - 1) ^^^ 1).testBit lastc = true :=
        (hσ₀.2 lastc).mp (getLast?_mem' σ₀ lastc hσ₀l)
      have hkeyl : KeyOK n (((1 <<< n) - 1) ^^^ 1) lastc := ⟨hFv, hlastbit⟩
      obtain ⟨dl, hdl⟩ := Option.isSome_iff_exists.mp (hC _ lastc hkeyl (le_of_eq hFs))
      obtain ⟨_, _, hminl⟩ := hS _ lastc dl hdl
      have hlast1 := (hFbit lastc).mp hlastbit
      have hcandl : ((hkFill graph n).dp (((1 <<< n) - 1) ^^^ 1) lastc).map
          (fun d => d + graph lastc 0) = some (dl + graph lastc 0) := by
        rw [hdl]
        rfl
      have hLle := minFold_le _ _ L hres lastc
        (List.mem_range'_1.mpr ⟨hlast1.1, by omega⟩) _ hcandl
      have hminσ := hminl σ₀ hσ₀ hσ₀l
      calc L ≤ dl + graph lastc 0 := hLle
        _ ≤ pathLen graph (0 :: σ₀) + graph lastc 0 := by linarith
        _ = calculateTourLength graph (0 :: σ₀) :=
            (tourLength_head_zero graph σ₀ lastc hσ₀l).symm
        _ = calculateTourLength graph ((bruteForceExact graph n).1.rotate k) := by
            rw [hτeq]
        _ = calculateTourLength graph (bruteForceExact graph n).1 := hCTrot
        _ = (bruteForceExact graph n).2 := hbflen.symm
    rw [le_antisymm hLbf hbfL]

/-- C2: for every symmetric non-negative distance matrix over `n` cities with
`3 ≤ n ≤ 10`, `heldKarp` and `bruteForceExact` return tours of equal total
length, and that common length is globally optimal over all permutations of
`{0..n-1}`. -/
theorem claim_C2 (graph : Graph) (n : ℕ) (h3 : 3 ≤ n) (h10 : n ≤ 10)
    (hsym : ∀ a b, graph a b = graph b a) (hnonneg : ∀ a b, 0 ≤ graph a b) :
    (heldKarp graph n).2 = some (bruteForceExact graph n).2 ∧
    (∃ τ : List ℕ, τ.Perm (List.range n) ∧
      (bruteForceExact graph n).2 = calculateTourLength graph τ) ∧
    (∀ τ : List ℕ, τ.Perm (List.range n) →
      (bruteForceExact graph n).2 ≤ calculateTourLength graph τ) := by
  obtain ⟨hperm, hlen, hmin⟩ := bruteForce_opt graph n (by omega)
  exact ⟨heldKarp_eq_bruteForce graph n h3,
    ⟨(bruteForceExact graph n).1, hperm, hlen⟩, hmin⟩

/-- Concrete instantiation of `claim_C2` at `n = 3` on the zero matrix. -/
theorem claim_C2_witness :
    (heldKarp zeroGraph 3).2 = some (bruteForceExact zeroGraph 3).2 :=
  (claim_C2 zeroGraph 3 (by norm_num) (by norm_num)
    (fun _ _ => rfl) (fun _ _ => le_refl 0)).1

namespace AngularSort

theorem angularTour_perm (points : List Point) :
    (generateTour points).Perm (points.map (fun p => p.id)) :=
  (List.mergeSort_perm points _).map _

end AngularSort

namespace SonarVisit

theorem generateTour_eq (pi : ℚ) (centerDist : Point → ℚ) (points : List Point)
    (gridSize : ℕ) :
    generateTour pi centerDist points gridSize =
      (List.range (4 * gridSize)).flatMap (fun i =>
        ((bucketFold (fun p =>
            ⌊(if p.angle < 0 then p.angle + 2 * pi else p.angle) /
              ((2 * pi) / ((4 * gridSize : ℕ) : ℚ))⌋) points (i : ℤ)).mergeSort
          (fun a b => centerDist a ≤ centerDist b)).map (fun p => p.id)) := rfl

theorem bucketFold_eq_filter (f : Point → ℤ) :
    ∀ (pts : List Point) (m : ℤ → List Point) (k : ℤ),
      (pts.foldl (fun m p => fun k => if k = f p then m k ++ [p] else m k) m) k =
        m k ++ pts.filter (fun p => decide (k = f p)) := by
  intro pts
  induction pts with
  | nil => intro m k; simp
  | cons p pts ih =>
      intro m k
      rw [List.foldl_cons, ih]
      by_cases hk : k = f p
      · rw [if_pos hk]
        have hp : decide (k = f p) = true := decide_eq_true hk
        rw [List.filter_cons, hp]
        simp
      · rw [if_neg hk]
        have hp : decide (k = f p) = false := decide_eq_false hk
        rw [List.filter_cons, hp]
        simp

theorem bucketFold_filter (f : Point → ℤ) (pts : List Point) (k : ℤ) :
    bucketFold f pts k = pts.filter (fun p => decide (k = f p)) := by
  unfold bucketFold
  rw [bucketFold_eq_filter f pts _ k]
  rfl

/-- Pointwise permutation of the pieces gives permutation of the flatMap. -/
theorem flatMap_perm_congr {α β : Type _} (l : List α) (f g : α → List β)
    (h : ∀ a ∈ l, (f a).Perm (g a)) : (l.flatMap f).Perm (l.flatMap g) := by
  induction l with
  | nil => exact List.Perm.refl _
  | cons a l ih =>
      rw [List.flatMap_cons, List.flatMap_cons]
      exact (h a (List.mem_cons_self _ _)).append
        (ih (fun a ha => h a (List.mem_cons_of_mem _ ha)))

theorem nodup_flatMap_filter (pts : List Point) (f : Point → ℤ) (idx : List ℕ)
    (hnd : pts.Nodup) (hidx : idx.Nodup) :
    (idx.flatMap (fun k => pts.filter (fun p => decide ((k : ℤ) = f p)))).Nodup := by
  induction idx with
  | nil => exact List.nodup_nil
  | cons k idx ih =>
      rw [List.flatMap_cons, List.nodup_append]
      obtain ⟨hk, hidx'⟩ := List.nodup_cons.mp hidx
      refine ⟨hnd.filter _, ih hidx', ?_⟩
      intro p hp hp'
      obtain ⟨_, hpk⟩ := List.mem_filter.mp hp
      obtain ⟨k', hk', hpk'⟩ := List.mem_flatMap.mp hp'
      obtain ⟨_, hpk2⟩ := List.mem_filter.mp hpk'
      have h1 : (k : ℤ) = f p := of_decide_eq_true hpk
      have h2 : (k' : ℤ) = f p := of_decide_eq_true hpk2
      have hkk : k = k' := by
        rw [← h2] at h1
        exact_mod_cast h1
      exact hk (hkk ▸ hk')

theorem mem_flatMap_filter (pts : List Point) (f : Point → ℤ) (idx : List ℕ)
    (p : Point) :
    p ∈ idx.flatMap (fun k => pts.filter (fun q => decide ((k : ℤ) = f q))) ↔
      p ∈ pts ∧ ∃ k ∈ idx, (k : ℤ) = f p := by
  rw [List.mem_flatMap]
  constructor
  · intro ⟨k, hk, hp⟩
    obtain ⟨hpp, hpk⟩ := List.mem_filter.mp hp
    exact ⟨hpp, k, hk, of_decide_eq_true hpk⟩
  · intro ⟨hpp, k, hk, hfk⟩
    exact ⟨k, hk, List.mem_filter.mpr ⟨hpp, decide_eq_true hfk⟩⟩

/-- With all bucket indices in range, the bucket sweep is a permutation of
the points. -/
theorem flatMap_filter_perm (pts : List Point) (f : Point → ℤ) (A : ℕ)
    (hnd : pts.Nodup) (hrange : ∀ p ∈ pts, 0 ≤ f p ∧ f p < (A : ℤ)) :
    ((List.range A).flatMap (fun i =>
      pts.filter (fun q => decide ((i : ℤ) = f q)))).Perm pts := by
  apply List.perm_ext_iff_of_nodup
    (nodup_flatMap_filter pts f _ hnd (List.nodup_range A)) hnd |>.mpr
  intro p
  rw [mem_flatMap_filter]
  constructor
  · intro h; exact h.1
  · intro h
    refine ⟨h, ?_⟩
    obtain ⟨h0, hA⟩ := hrange p h
    refine ⟨(f p).toNat, ?_, Int.toNat_of_nonneg h0⟩
    rw [List.mem_range]
    omega

/-- The sonar-visit sweep returns a permutation of the point ids whenever all
angles lie in `[0, 2π)`. -/
theorem sonarTour_perm (pi : ℚ) (centerDist : Point → ℚ) (points : List Point)
    (gridSize : ℕ) (hpi : 0 < pi) (hg : 1 ≤ gridSize) (hnd : points.Nodup)
    (hangles : ∀ p ∈ points, 0 ≤ p.angle ∧ p.angle < 2 * pi) :
    (generateTour pi centerDist points gridSize).Perm
      (points.map (fun p => p.id)) := by
  rw [generateTour_eq]
  set f : Point → ℤ := fun p =>
    ⌊(if p.angle < 0 then p.angle + 2 * pi else p.angle) /
      ((2 * pi) / ((4 * gridSize : ℕ) : ℚ))⌋ with hf
  have h4g1 : (1 : ℚ) ≤ ((4 * gridSize : ℕ) : ℚ) := by
    have h4 : (1 : ℕ) ≤ 4 * gridSize := by omega
    exact_mod_cast h4
  have hstep_pos : (0 : ℚ) < (2 * pi) / ((4 * gridSize : ℕ) : ℚ) :=
    div_pos (by linarith) (by linarith)
  have hrange : ∀ p ∈ points, 0 ≤ f p ∧ f p < ((4 * gridSize : ℕ) : ℤ) := by
    intro p hp
    obtain ⟨h0, h2pi⟩ := hangles p hp
    have hb : (if p.angle < 0 then p.angle + 2 * pi else p.angle) = p.angle :=
      if_neg (not_lt.mpr h0)
    rw [hf]
    dsimp only
    rw [hb]
    constructor
    · exact Int.floor_nonneg.mpr (div_nonneg h0 (le_of_lt hstep_pos))
    · rw [Int.floor_lt]
      have hAq : (((4 * gridSize : ℕ) : ℤ) : ℚ) = ((4 * gridSize : ℕ) : ℚ) := by
        push_cast
        ring
      rw [hAq, div_lt_iff₀ hstep_pos]
      have hmul : ((4 * gridSize : ℕ) : ℚ) * ((2 * pi) / ((4 * gridSize : ℕ) : ℚ)) =
          2 * pi := by
        field_simp
      rw [hmul]
      exact h2pi
  have s1 := flatMap_perm_congr (List.range (4 * gridSize))
    (fun i => ((bucketFold f points (i : ℤ)).mergeSort
      (fun a b => centerDist a ≤ centerDist b)).map (fun p => p.id))
    (fun i => (bucketFold f points (i : ℤ)).map (fun p => p.id))
    (fun i _ => (List.mergeSort_perm _ _).map _)
  have s2 : (List.range (4 * gridSize)).flatMap
        (fun i => (bucketFold f points (i : ℤ)).map (fun p => p.id)) =
      ((List.range (4 * gridSize)).flatMap
        (fun i => bucketFold f points (i : ℤ))).map (fun p => p.id) := by
    rw [List.map_flatMap]
  have s3 : ((List.range (4 * gridSize)).flatMap
      (fun i => bucketFold f points (i : ℤ))).Perm points := by
    simp only [bucketFold_filter]
    exact flatMap_filter_perm points f (4 * gridSize) hnd hrange
  refine s1.trans ?_
  rw [s2]
  exact s3.map (fun p => p.id)

end SonarVisit

/-! ### Nearest neighbour: the returned tour is a permutation. -/
theorem nodup_bounded_length_le (l : List ℕ) (n : ℕ) (hnd : l.Nodup)
    (hb : ∀ x ∈ l, x < n) : l.length ≤ n := by
  have h1 : l.length = l.toFinset.card := (List.toFinset_card_of_nodup hnd).symm
  have h2 : l.toFinset ⊆ Finset.range n := by
    intro x hx
    rw [List.mem_toFinset] at hx
    rw [Finset.mem_range]
    exact hb x hx
  calc l.length = l.toFinset.card := h1
    _ ≤ (Finset.range n).card := Finset.card_le_card h2
    _ = n := Finset.card_range n

namespace NearestNeighbor

theorem scan_eq (graph : Graph) (visited : ℕ → Bool) (current n : ℕ) :
    scan graph visited current n =
      (List.range n).foldl (scanStep graph visited current) (none, none) := rfl

theorem scanStep_eq_or (graph : Graph) (visited : ℕ → Bool) (current : ℕ)
    (acc : Option ℕ × Option ℚ) (i : ℕ) :
    (scanStep graph visited current acc i = (some i, some (graph current i)) ∧
      visited i = false) ∨
    scanStep graph visited current acc i = acc := by
  unfold scanStep
  split
  · next hcond =>
      left
      refine ⟨rfl, ?_⟩
      have := ((Bool.and_eq_true _ _).mp hcond).1
      rcases hv : visited i
      · rfl
      · rw [hv] at this
        cases this
  · right; rfl

theorem scanStep_visited (graph : Graph) (visited : ℕ → Bool) (current : ℕ)
    (acc : Option ℕ × Option ℚ) (i : ℕ) (hv : visited i = true) :
    scanStep graph visited current acc i = acc := by
  rcases scanStep_eq_or graph visited current acc i with ⟨_, hv'⟩ | h
  · rw [hv] at hv'; cases hv'
  · exact h

theorem scanStep_unvisited_none (graph : Graph) (visited : ℕ → Bool) (current : ℕ)
    (acc : Option ℕ × Option ℚ) (i : ℕ) (hv : visited i = false)
    (ha : acc.2 = none) :
    scanStep graph visited current acc i = (some i, some (graph current i)) := by
  unfold scanStep
  rw [hv, ha]
  rfl

/-- A found nearest city is in range and unvisited. -/
theorem scan_some_spec (graph : Graph) (visited : ℕ → Bool) (current n : ℕ) :
    ∀ m, (scan graph visited current n).1 = some m →
      m < n ∧ visited m = false := by
  rw [scan_eq]
  apply foldl_invariant
    (fun acc : Option ℕ × Option ℚ =>
      ∀ m, acc.1 = some m → m < n ∧ visited m = false)
  · intro acc i hi hP
    rcases scanStep_eq_or graph visited current acc i with ⟨heq, hv⟩ | heq
    · rw [heq]
      intro m hm
      have hmi : i = m := Option.some_inj.mp hm
      subst hmi
      exact ⟨List.mem_range.mp hi, hv⟩
    · rw [heq]
      exact hP
  · intro m hm
    cases hm

/-- Once the scan has a candidate it keeps one. -/
theorem scan_stay_some (graph : Graph) (visited : ℕ → Bool) (current : ℕ) :
    ∀ (l : List ℕ) (acc : Option ℕ × Option ℚ), acc.1.isSome = true →
      ((l.foldl (scanStep graph visited current) acc).1).isSome = true := by
  intro l acc h
  apply foldl_invariant (fun acc : Option ℕ × Option ℚ => acc.1.isSome = true)
  · intro acc i _ hP
    rcases scanStep_eq_or graph visited current acc i with ⟨heq, _⟩ | heq
    · rw [heq]; rfl
    · rw [heq]; exact hP
  · exact h

/-- If the scan finds nothing, every city in range is visited. -/
theorem scan_none_spec (graph : Graph) (visited : ℕ → Bool) (current n : ℕ)
    (h : (scan graph visited current n).1 = none) :
    ∀ i, i < n → visited i = true := by
  rw [scan_eq] at h
  have aux : ∀ (l : List ℕ) (acc : Option ℕ × Option ℚ), acc.2 = none →
      ((l.foldl (scanStep graph visited current) acc).1) = none →
      ∀ i ∈ l, visited i = true := by
    intro l
    induction l with
    | nil => intro acc _ _ i hi; exact absurd hi (List.not_mem_nil i)
    | cons i l' ih =>
        intro acc hacc2 hres j hj
        rw [List.foldl_cons] at hres
        rcases hv : visited i with _ | _
        · -- unvisited head: the step records it and the result stays some
          exfalso
          rw [scanStep_unvisited_none graph visited current acc i hv hacc2] at hres
          have := scan_stay_some graph visited current l'
            (some i, some (graph current i)) rfl
          rw [hres] at this
          cases this
        · -- visited head: the step is the identity
          rw [scanStep_visited graph visited current acc i hv] at hres
          rcases List.mem_cons.mp hj with hj' | hj'
          · subst hj'; exact hv
          · exact ih acc hacc2 hres j hj'
  intro i hi
  exact aux (List.range n) (none, none) rfl h i (List.mem_range.mpr hi)

/-- The nearest-neighbour loop turns any partial valid tour into a
permutation of all cities, given enough fuel. -/
theorem loop_perm (graph : Graph) (n : ℕ) :
    ∀ (fuel : ℕ) (visited : ℕ → Bool) (tour : List ℕ) (current : ℕ),
      n ≤ fuel + tour.length →
      tour.Nodup → (∀ c, c ∈ tour ↔ visited c = true) → (∀ c ∈ tour, c < n) →
      (loop graph n fuel visited tour current).Perm (List.range n) := by
  intro fuel
  induction fuel with
  | zero =>
      intro visited tour current hfuel hnd hvis hb
      have hle := nodup_bounded_length_le tour n hnd hb
      exact Genetic.nodup_lt_perm_range tour n hnd (by omega) hb
  | succ fuel ih =>
      intro visited tour current hfuel hnd hvis hb
      rw [loop]
      by_cases hlt : tour.length < n
      · rw [if_pos hlt]
        cases hscan : (scan graph visited current n).1 with
        | none =>
            -- impossible: some city in range is unvisited
            exfalso
            have hall := scan_none_spec graph visited current n hscan
            have hsub : ∀ i ∈ List.range n, i ∈ tour := by
              intro i hi
              exact (hvis i).mpr (hall i (List.mem_range.mp hi))
            have : (List.range n).length ≤ tour.length := by
              have h1 : (List.range n).toFinset ⊆ tour.toFinset := by
                intro x hx
                rw [List.mem_toFinset] at hx ⊢
                exact hsub x hx
              calc (List.range n).length = (List.range n).toFinset.card :=
                    (List.toFinset_card_of_nodup (List.nodup_range n)).symm
                _ ≤ tour.toFinset.card := Finset.card_le_card h1
                _ ≤ tour.length := tour.toFinset_card_le
            rw [List.length_range] at this
            omega
        | some nearest =>
            obtain ⟨hnear_lt, hnear_unvis⟩ :=
              scan_some_spec graph visited current n nearest hscan
            have hnotin : nearest ∉ tour := by
              intro hmem
              rw [(hvis nearest).mp hmem] at hnear_unvis
              cases hnear_unvis
            apply ih (fun j => j = nearest || visited j) (tour ++ [nearest]) nearest
            · rw [List.length_append]
              simp only [List.length_singleton]
              omega
            · rw [List.nodup_append]
              refine ⟨hnd, List.nodup_singleton _, ?_⟩
              intro a ha hb'
              rw [List.mem_singleton] at hb'
              exact hnotin (hb' ▸ ha)
            · intro c
              rw [List.mem_append, List.mem_singleton]
              constructor
              · intro hc
                rcases hc with hc | hc
                · rw [(hvis c).mp hc, Bool.or_true]
                · rw [hc]
                  simp
              · intro hc
                rcases Bool.or_eq_true _ _ |>.mp hc with hc | hc
                · right; exact of_decide_eq_true hc
                · left; exact (hvis c).mpr hc
            · intro c hc
              rcases List.mem_append.mp hc with hc | hc
              · exact hb c hc
              · rw [List.mem_singleton] at hc
                exact hc ▸ hnear_lt
      · rw [if_neg hlt]
        have hle := nodup_bounded_length_le tour n hnd hb
        exact Genetic.nodup_lt_perm_range tour n hnd (by omega) hb

/-- The nearest-neighbour constructor returns a permutation of all cities. -/
theorem nnTour_perm (n : ℕ) (graph : Graph) (startCity : ℕ)
    (hstart : startCity < n) :
    (generateTour n graph startCity).Perm (List.range n) := by
  unfold generateTour
  apply loop_perm graph n n (fun j => j = startCity) [startCity] startCity
  · simp
  · exact List.nodup_singleton _
  · intro c
    rw [List.mem_singleton]
    constructor
    · intro h; exact decide_eq_true h
    · intro h; exact of_decide_eq_true h
  · intro c hc
    rw [List.mem_singleton] at hc
    exact hc ▸ hstart

end NearestNeighbor

namespace GreedyEdge

/-- Membership in the edge enumeration. -/
theorem mem_edgeList (graph : Graph) (n : ℕ) (e : GEdge) :
    e ∈ edgeList graph n ↔
      e.src < e.dst ∧ e.dst < n ∧ e.dist = graph e.src e.dst := by
  unfold edgeList
  rw [List.mem_flatMap]
  constructor
  · intro ⟨i, hi, he⟩
    rw [List.mem_map] at he
    obtain ⟨j, hj, hje⟩ := he
    have hjr := List.mem_range'_1.mp hj
    have hin := List.mem_range.mp hi
    rw [← hje]
    exact ⟨show i < j by omega, show j < n by omega, rfl⟩
  · intro ⟨h1, h2, h3⟩
    refine ⟨e.src, List.mem_range.mpr (by omega), ?_⟩
    rw [List.mem_map]
    refine ⟨e.dst, List.mem_range'_1.mpr ⟨by omega, by omega⟩, ?_⟩
    rw [← h3]

/-- Every unordered pair of cities appears in the enumeration. -/
theorem edgeList_complete (graph : Graph) (n : ℕ) (u v : ℕ)
    (huv : u < v) (hv : v < n) :
    (⟨u, v, graph u v⟩ : GEdge) ∈ edgeList graph n :=
  (mem_edgeList graph n _).mpr ⟨huv, hv, rfl⟩

theorem AdjPair_mem (c : List ℕ) (x y : ℕ) (h : AdjPair c x y) :
    x ∈ c ∧ y ∈ c := by
  obtain ⟨i, h1, h2⟩ := h
  exact ⟨List.getElem?_mem h1, List.getElem?_mem h2⟩

theorem AdjPair_single (a x y : ℕ) : ¬ AdjPair [a] x y := by
  intro ⟨i, _, h2⟩
  have := List.getElem?_eq_some_iff.mp h2
  obtain ⟨hlt, _⟩ := this
  simp at hlt

theorem AdjPair_reverse (c : List ℕ) (x y : ℕ) :
    AdjPair c.reverse x y ↔ AdjPair c y x := by
  constructor
  · intro ⟨i, h1, h2⟩
    obtain ⟨hi2, _⟩ := List.getElem?_eq_some_iff.mp h2
    rw [List.length_reverse] at hi2
    have hi1 : i < c.length := by omega
    rw [List.getElem?_reverse (by omega)] at h1
    rw [List.getElem?_reverse (by omega)] at h2
    refine ⟨c.length - 1 - (i + 1), h2, ?_⟩
    have : c.length - 1 - (i + 1) + 1 = c.length - 1 - i := by omega
    rw [this]
    exact h1
  · intro ⟨i, h1, h2⟩
    obtain ⟨hi2, _⟩ := List.getElem?_eq_some_iff.mp h2
    refine ⟨c.length - 1 - (i + 1), ?_, ?_⟩
    · rw [List.getElem?_reverse (by omega)]
      have : c.length - 1 - (c.length - 1 - (i + 1)) = i + 1 := by omega
      rw [this]
      exact h2
    · rw [List.getElem?_reverse (by omega)]
      have : c.length - 1 - (c.length - 1 - (i + 1) + 1) = i := by omega
      rw [this]
      exact h1

theorem AdjPair_append (P Q : List ℕ) (x y : ℕ) :
    AdjPair (P ++ Q) x y ↔ AdjPair P x y ∨ AdjPair Q x y ∨
      (P.getLast? = some x ∧ Q.head? = some y) := by
  constructor
  · intro ⟨i, h1, h2⟩
    rcases Nat.lt_or_ge (i + 1) P.length with hc | hc
    · left
      rw [List.getElem?_append_left (by omega)] at h1
      rw [List.getElem?_append_left hc] at h2
      exact ⟨i, h1, h2⟩
    · rcases Nat.lt_or_ge i P.length with hc2 | hc2
      · -- junction: i = P.length - 1
        right; right
        rw [List.getElem?_append_left hc2] at h1
        rw [List.getElem?_append_right hc] at h2
        have hi : i = P.length - 1 := by omega
        constructor
        · rw [List.getLast?_eq_getElem?, ← hi]
          exact h1
        · rw [List.head?_eq_getElem?]
          have : i + 1 - P.length = 0 := by omega
          rw [this] at h2
          exact h2
      · right; left
        rw [List.getElem?_append_right hc2] at h1
        rw [List.getElem?_append_right hc] at h2
        refine ⟨i - P.length, h1, ?_⟩
        have : i + 1 - P.length = i - P.length + 1 := by omega
        rw [this] at h2
        exact h2
  · intro h
    rcases h with ⟨i, h1, h2⟩ | ⟨i, h1, h2⟩ | ⟨h1, h2⟩
    · obtain ⟨hi2, _⟩ := List.getElem?_eq_some_iff.mp h2
      refine ⟨i, ?_, ?_⟩
      · rw [List.getElem?_append_left (by omega)]
        exact h1
      · rw [List.getElem?_append_left hi2]
        exact h2
    · refine ⟨P.length + i, ?_, ?_⟩
      · rw [List.getElem?_append_right (by omega)]
        have : P.length + i - P.length = i := by omega
        rw [this]
        exact h1
      · rw [List.getElem?_append_right (by omega)]
        have : P.length + i + 1 - P.length = i + 1 := by omega
        rw [this]
        exact h2
    · have hP : P ≠ [] := by
        intro hh
        rw [hh] at h1
        cases h1
      have hPlen : 0 < P.length := List.length_pos.mpr hP
      refine ⟨P.length - 1, ?_, ?_⟩
      · rw [List.getElem?_append_left (by omega)]
        rw [List.getLast?_eq_getElem?] at h1
        exact h1
      · have : P.length - 1 + 1 = P.length := by omega
        rw [this, List.getElem?_append_right (le_refl _)]
        rw [List.head?_eq_getElem?] at h2
        have h0 : P.length - P.length = 0 := by omega
        rw [h0]
        exact h2

/-- `ufFind` computes any iterate of `parent` that is a fixpoint, given
enough fuel. -/
theorem ufFind_eq_iterate (parent : ℕ → ℕ) :
    ∀ (fuel k x : ℕ), k ≤ fuel → parent (parent^[k] x) = parent^[k] x →
      ufFind parent fuel x = parent^[k] x := by
  intro fuel
  induction fuel with
  | zero =>
      intro k x hk hfix
      have hk0 : k = 0 := by omega
      subst hk0
      rfl
  | succ fuel ih =>
      intro k x hk hfix
      rw [ufFind]
      by_cases hx : parent x = x
      · rw [if_pos hx, Function.iterate_fixed hx k]
      · rw [if_neg hx]
        cases k with
        | zero =>
            rw [Function.iterate_zero_apply] at hfix
            exact absurd hfix hx
        | succ k =>
            rw [Function.iterate_succ_apply] at hfix ⊢
            exact ih k (parent x) (by omega) hfix

/-- A component is no longer than the whole forest. -/
theorem comp_length_le (comps : List (List ℕ)) (c : List ℕ) (hc : c ∈ comps) :
    c.length ≤ comps.flatten.length := by
  obtain ⟨A, B, hAB⟩ := List.mem_iff_append.mp hc
  rw [hAB, List.flatten_append, List.flatten_cons]
  rw [List.length_append, List.length_append]
  omega

theorem two_mem_le_length {l : List ℕ} {a b : ℕ} (ha : a ∈ l) (hb : b ∈ l)
    (hab : a ≠ b) : 2 ≤ l.length := by
  match l with
  | [] => cases ha
  | [x] =>
      rw [List.mem_singleton] at ha hb
      exact absurd (ha.trans hb.symm) hab
  | x :: y :: t => simp

theorem all_mem_le_two (a b : ℕ) {l : List ℕ} (hnd : l.Nodup)
    (h : ∀ y ∈ l, y = a ∨ y = b) : l.length ≤ 2 := by
  have hsub : l.toFinset ⊆ {a, b} := by
    intro y hy
    rw [List.mem_toFinset] at hy
    rcases h y hy with h' | h' <;> simp [h']
  have := Finset.card_le_card hsub
  have hab : ({a, b} : Finset ℕ).card ≤ 2 := Finset.card_insert_le a {b} |>.trans (by simp)
  rw [List.toFinset_card_of_nodup hnd] at this
  omega

theorem eq_singleton_of_mem_iff {l : List ℕ} {a : ℕ} (hnd : l.Nodup)
    (h : ∀ y, y ∈ l ↔ y = a) : l = [a] := by
  match l with
  | [] => exact absurd ((h a).mpr rfl) (List.not_mem_nil a)
  | x :: xs =>
      have hx : x = a := (h x).mp (List.mem_cons_self _ _)
      obtain ⟨hxn, hnd'⟩ := List.nodup_cons.mp hnd
      have hxs : xs = [] := by
        match xs with
        | [] => rfl
        | y :: ys =>
            have hy : y = a := (h y).mp (List.mem_cons_of_mem _ (List.mem_cons_self _ _))
            exact absurd (by rw [hy, ← hx]; exact List.mem_cons_self _ _) hxn
      rw [hx, hxs]

theorem mem_of_sub_length {l₁ l₂ : List ℕ} (h₁ : l₁.Nodup) (h₂ : l₂.Nodup)
    (hsub : ∀ y ∈ l₁, y ∈ l₂) (hlen : l₂.length ≤ l₁.length) :
    ∀ y ∈ l₂, y ∈ l₁ := by
  have hfs : l₁.toFinset ⊆ l₂.toFinset := by
    intro y hy
    rw [List.mem_toFinset] at hy ⊢
    exact hsub y hy
  have hcard : l₂.toFinset.card ≤ l₁.toFinset.card := by
    rw [List.toFinset_card_of_nodup h₁, List.toFinset_card_of_nodup h₂]
    exact hlen
  have heq := Finset.eq_of_subset_of_card_le hfs hcard
  intro y hy
  rw [← List.mem_toFinset, heq, List.mem_toFinset]
  exact hy

theorem nodup_getElem?_inj {l : List ℕ} (hnd : l.Nodup) {i j x : ℕ}
    (hi : l[i]? = some x) (hj : l[j]? = some x) : i = j := by
  obtain ⟨hi1, hi2⟩ := List.getElem?_eq_some_iff.mp hi
  obtain ⟨hj1, hj2⟩ := List.getElem?_eq_some_iff.mp hj
  exact (List.Nodup.getElem_inj_iff hnd).mp (hi2.trans hj2.symm)

/-- In a duplicate-free list, the successors of `x` are exactly the entry
after `x`'s unique position. -/
theorem AdjPair_char_left {L : List ℕ} (hnd : L.Nodup) {x : ℕ} {i : ℕ}
    (hx : L[i]? = some x) (y : ℕ) : AdjPair L x y ↔ L[i + 1]? = some y := by
  constructor
  · intro ⟨j, h1, h2⟩
    rw [nodup_getElem?_inj hnd hx h1]
    exact h2
  · intro h
    exact ⟨i, hx, h⟩

/-- In a duplicate-free list, the predecessors of `x` are exactly the entry
before `x`'s unique position. -/
theorem AdjPair_char_right {L : List ℕ} (hnd : L.Nodup) {x : ℕ} {i : ℕ}
    (hx : L[i]? = some x) (y : ℕ) :
    AdjPair L y x ↔ (1 ≤ i ∧ L[i - 1]? = some y) := by
  constructor
  · intro ⟨j, h1, h2⟩
    have hj := nodup_getElem?_inj hnd hx h2
    refine ⟨by omega, ?_⟩
    have : i - 1 = j := by omega
    rw [this]
    exact h1
  · intro ⟨h1, h2⟩
    refine ⟨i - 1, h2, ?_⟩
    have : i - 1 + 1 = i := by omega
    rw [this]
    exact hx

/-! Structural consequences of the forest invariant. -/
theorem flatten_nodup_of_perm {comps : List (List ℕ)} {n : ℕ}
    (h : comps.flatten.Perm (List.range n)) : comps.flatten.Nodup :=
  h.nodup_iff.mpr (List.nodup_range n)

theorem comp_nodup {comps : List (List ℕ)} (hnd : comps.flatten.Nodup)
    {c : List ℕ} (hc : c ∈ comps) : c.Nodup :=
  (List.sublist_flatten_of_mem hc).nodup hnd

/-- In a forest with duplicate-free flattening, a vertex lies in at most one
component. -/
theorem comp_eq_of_mem {comps : List (List ℕ)} (hnd : comps.flatten.Nodup)
    {c₁ c₂ : List ℕ} (hc₁ : c₁ ∈ comps) (hc₂ : c₂ ∈ comps) {x : ℕ}
    (hx₁ : x ∈ c₁) (hx₂ : x ∈ c₂) : c₁ = c₂ := by
  obtain ⟨s, t, hst⟩ := List.append_of_mem hc₁
  rw [hst] at hc₂ hnd
  rw [List.flatten_append, List.flatten_cons] at hnd
  obtain ⟨hnds, hndrest, hdisj⟩ := List.nodup_append.mp hnd
  rcases List.mem_append.mp hc₂ with hs | hct
  · exact absurd (List.mem_append.mpr (Or.inl hx₁))
      (hdisj (List.mem_flatten.mpr ⟨c₂, hs, hx₂⟩))
  · rcases List.mem_cons.mp hct with heq | ht
    · exact heq.symm
    · obtain ⟨_, hndt, hdisj₂⟩ := List.nodup_append.mp hndrest
      exact absurd (List.mem_flatten.mpr ⟨c₂, ht, hx₂⟩) (hdisj₂ hx₁)

/-- Within one component, `AdjIn` collapses to `AdjPair` on that component. -/
theorem adjIn_comp {comps : List (List ℕ)} (hnd : comps.flatten.Nodup)
    {c : List ℕ} (hc : c ∈ comps) {x : ℕ} (hx : x ∈ c) (y : ℕ) :
    AdjIn comps x y ↔ (AdjPair c x y ∨ AdjPair c y x) := by
  constructor
  · intro ⟨c', hc', hp⟩
    have hxc' : x ∈ c' := by
      rcases hp with hp | hp
      · exact (AdjPair_mem _ _ _ hp).1
      · exact (AdjPair_mem _ _ _ hp).2
    rw [comp_eq_of_mem hnd hc hc' hx hxc']
    exact hp
  · intro hp
    exact ⟨c, hc, hp⟩

theorem adj_subset_comp {n : ℕ} {st : GEState} {comps : List (List ℕ)}
    (F : ForestInv n st comps) {c : List ℕ} (hc : c ∈ comps) {x : ℕ}
    (hx : x ∈ c) {y : ℕ} (hy : y ∈ st.adj x) : y ∈ c := by
  have hnd := flatten_nodup_of_perm F.flat_perm
  have := (adjIn_comp hnd hc hx y).mp ((F.adj_spec x y).mp hy)
  rcases this with hp | hp
  · exact (AdjPair_mem _ _ _ hp).2
  · exact (AdjPair_mem _ _ _ hp).1

/-- Every vertex of a linear forest has degree at most `2`. -/
theorem forest_deg_le_two {n : ℕ} {st : GEState} {comps : List (List ℕ)}
    (F : ForestInv n st comps) (x : ℕ) : st.degree x ≤ 2 := by
  rw [F.deg_len]
  by_cases hx : ∃ L ∈ comps, x ∈ L
  · obtain ⟨L, hc, hxc⟩ := hx
    have hnd := flatten_nodup_of_perm F.flat_perm
    have hcnd := comp_nodup hnd hc
    obtain ⟨i, hi, hix⟩ := List.getElem_of_mem hxc
    have hix' : L[i]? = some x := by rw [List.getElem?_eq_getElem hi, hix]
    apply all_mem_le_two ((L[i + 1]?).getD 0) ((L[i - 1]?).getD 0) (F.adj_nodup x)
    intro y hy
    have := (adjIn_comp hnd hc hxc y).mp ((F.adj_spec x y).mp hy)
    rcases this with hp | hp
    · left
      have h2 := (AdjPair_char_left hcnd hix' y).mp hp
      rw [h2]
      rfl
    · right
      obtain ⟨_, h2⟩ := (AdjPair_char_right hcnd hix' y).mp hp
      rw [h2]
      rfl
  · have : st.adj x = [] := by
      rcases h : st.adj x with _ | ⟨y, t⟩
      · rfl
      · have hy : y ∈ st.adj x := by rw [h]; exact List.mem_cons_self _ _
        have := (F.adj_spec x y).mp hy
        obtain ⟨L, hc, hp⟩ := this
        have hxc : x ∈ L := by
          rcases hp with hp | hp
          · exact (AdjPair_mem _ _ _ hp).1
          · exact (AdjPair_mem _ _ _ hp).2
        exact absurd ⟨L, hc, hxc⟩ hx
    rw [this]
    simp

/-- A vertex of degree at most `1` sits at an end of its component. -/
theorem comp_end {n : ℕ} {st : GEState} {comps : List (List ℕ)}
    (F : ForestInv n st comps) {L : List ℕ} (hc : L ∈ comps) {x : ℕ}
    (hx : x ∈ L) (hdeg : st.degree x ≤ 1) :
    L.head? = some x ∨ L.getLast? = some x := by
  have hnd := flatten_nodup_of_perm F.flat_perm
  have hcnd := comp_nodup hnd hc
  obtain ⟨i, hi, hix⟩ := List.getElem_of_mem hx
  have hix' : L[i]? = some x := by rw [List.getElem?_eq_getElem hi, hix]
  by_cases h0 : i = 0
  · left
    rw [List.head?_eq_getElem?, ← h0]
    exact hix'
  · by_cases hlast : i + 1 = L.length
    · right
      rw [List.getLast?_eq_getElem?]
      have : L.length - 1 = i := by omega
      rw [this]
      exact hix'
    · exfalso
      have hi1 : i + 1 < L.length := by omega
      obtain ⟨w₁, hy₁⟩ : ∃ w, L[i + 1]? = some w := ⟨_, List.getElem?_eq_getElem hi1⟩
      obtain ⟨w₂, hy₂⟩ : ∃ w, L[i - 1]? = some w :=
        ⟨_, List.getElem?_eq_getElem (by omega)⟩
      have hmem₁ : w₁ ∈ st.adj x := by
        rw [F.adj_spec]
        exact ⟨L, hc, Or.inl ((AdjPair_char_left hcnd hix' _).mpr hy₁)⟩
      have hmem₂ : w₂ ∈ st.adj x := by
        rw [F.adj_spec]
        exact ⟨L, hc, Or.inr ((AdjPair_char_right hcnd hix' _).mpr ⟨by omega, hy₂⟩)⟩
      have hne : w₁ ≠ w₂ := by
        intro h
        have h2 : L[i - 1]? = some w₁ := by
          rw [h]
          exact hy₂
        have := nodup_getElem?_inj hcnd hy₁ h2
        omega
      have := two_mem_le_length hmem₁ hmem₂ hne
      rw [← F.deg_len] at this
      omega

theorem length_le_one_of_unique {l : List ℕ} (hnd : l.Nodup)
    (h : ∀ y ∈ l, ∀ z ∈ l, y = z) : l.length ≤ 1 := by
  match l with
  | [] => simp
  | [x] => simp
  | x :: y :: t =>
      obtain ⟨hx, _⟩ := List.nodup_cons.mp hnd
      have := h x (List.mem_cons_self _ _) y
        (List.mem_cons_of_mem _ (List.mem_cons_self _ _))
      exact absurd (this ▸ List.mem_cons_self y t) hx

/-- The head of a component has degree at most `1`: its only possible
neighbour is the second entry. -/
theorem head_deg_le_one {n : ℕ} {st : GEState} {comps : List (List ℕ)}
    (F : ForestInv n st comps) {L : List ℕ} (hc : L ∈ comps) {x : ℕ}
    (hh : L.head? = some x) : st.degree x ≤ 1 := by
  have hnd := flatten_nodup_of_perm F.flat_perm
  have hcnd := comp_nodup hnd hc
  have hx0 : L[0]? = some x := by rw [← List.head?_eq_getElem?]; exact hh
  have hxc : x ∈ L := List.getElem?_mem hx0
  have hchar : ∀ y ∈ st.adj x, L[0 + 1]? = some y := by
    intro y hy
    have := (adjIn_comp hnd hc hxc y).mp ((F.adj_spec x y).mp hy)
    rcases this with hp | hp
    · exact (AdjPair_char_left hcnd hx0 y).mp hp
    · obtain ⟨h1, _⟩ := (AdjPair_char_right hcnd hx0 y).mp hp
      omega
  rw [F.deg_len]
  apply length_le_one_of_unique (F.adj_nodup x)
  intro y hy z hz
  have := (hchar y hy).symm.trans (hchar z hz)
  exact Option.some_injective _ this

/-- The last entry of a component has degree at most `1`: its only possible
neighbour is the second-to-last entry. -/
theorem last_deg_le_one {n : ℕ} {st : GEState} {comps : List (List ℕ)}
    (F : ForestInv n st comps) {L : List ℕ} (hc : L ∈ comps) {x : ℕ}
    (hh : L.getLast? = some x) : st.degree x ≤ 1 := by
  have hnd := flatten_nodup_of_perm F.flat_perm
  have hcnd := comp_nodup hnd hc
  have hxl : L[L.length - 1]? = some x := by
    rw [← List.getLast?_eq_getElem?]; exact hh
  have hlen : L.length - 1 < L.length := (List.getElem?_eq_some_iff.mp hxl).1
  have hxc : x ∈ L := List.getElem?_mem hxl
  have hchar : ∀ y ∈ st.adj x, L[L.length - 1 - 1]? = some y := by
    intro y hy
    have := (adjIn_comp hnd hc hxc y).mp ((F.adj_spec x y).mp hy)
    rcases this with hp | hp
    · have := (AdjPair_char_left hcnd hxl y).mp hp
      have h1 := (List.getElem?_eq_some_iff.mp this).1
      omega
    · exact ((AdjPair_char_right hcnd hxl y).mp hp).2
  rw [F.deg_len]
  apply length_le_one_of_unique (F.adj_nodup x)
  intro y hy z hz
  have := (hchar y hy).symm.trans (hchar z hz)
  exact Option.some_injective _ this

theorem AdjIn_nil (x y : ℕ) : ¬ AdjIn [] x y := by
  intro ⟨c, hc, _⟩
  cases hc

theorem AdjIn_cons (c : List ℕ) (t : List (List ℕ)) (x y : ℕ) :
    AdjIn (c :: t) x y ↔ (AdjPair c x y ∨ AdjPair c y x) ∨ AdjIn t x y := by
  constructor
  · intro ⟨c', hc', hp⟩
    rcases List.mem_cons.mp hc' with h | h
    · exact Or.inl (h ▸ hp)
    · exact Or.inr ⟨c', h, hp⟩
  · intro h
    rcases h with hp | ⟨c', hc', hp⟩
    · exact ⟨c, List.mem_cons_self _ _, hp⟩
    · exact ⟨c', List.mem_cons_of_mem _ hc', hp⟩

theorem AdjIn_perm {comps comps' : List (List ℕ)} (h : comps.Perm comps')
    (x y : ℕ) : AdjIn comps x y ↔ AdjIn comps' x y := by
  constructor <;> intro ⟨c, hc, hp⟩
  · exact ⟨c, h.mem_iff.mp hc, hp⟩
  · exact ⟨c, h.mem_iff.mpr hc, hp⟩

/-- Orient a path so that the distinguished end comes last. -/
theorem orient_last {c : List ℕ} {u : ℕ}
    (hend : c.head? = some u ∨ c.getLast? = some u) :
    ∃ P : List ℕ, P.Perm c ∧ P.getLast? = some u ∧
      (∀ x y, AdjPair P x y ∨ AdjPair P y x ↔ AdjPair c x y ∨ AdjPair c y x) := by
  rcases hend with hh | hl
  · refine ⟨c.reverse, List.reverse_perm c, ?_, ?_⟩
    · rw [List.getLast?_reverse]
      exact hh
    · intro x y
      rw [AdjPair_reverse, AdjPair_reverse]
      tauto
  · exact ⟨c, List.Perm.refl c, hl, fun x y => Iff.rfl⟩

/-- Orient a path so that the distinguished end comes first. -/
theorem orient_head {c : List ℕ} {v : ℕ}
    (hend : c.head? = some v ∨ c.getLast? = some v) :
    ∃ P : List ℕ, P.Perm c ∧ P.head? = some v ∧
      (∀ x y, AdjPair P x y ∨ AdjPair P y x ↔ AdjPair c x y ∨ AdjPair c y x) := by
  rcases hend with hh | hl
  · exact ⟨c, List.Perm.refl c, hh, fun x y => Iff.rfl⟩
  · refine ⟨c.reverse, List.reverse_perm c, ?_, ?_⟩
    · rw [List.head?_reverse]
      exact hl
    · intro x y
      rw [AdjPair_reverse, AdjPair_reverse]
      tauto

/-- Redirecting the parent pointer of `r₁` does not disturb parent chains
that avoid `r₁`. -/
theorem iterate_of_ne (parent : ℕ → ℕ) (r₁ r₂ x m : ℕ)
    (h : ∀ j, j < m → parent^[j] x ≠ r₁) :
    ∀ j, j ≤ m → (fun w => if w = r₁ then r₂ else parent w)^[j] x = parent^[j] x := by
  intro j
  induction j with
  | zero => intro _; rfl
  | succ j ih =>
      intro hj
      rw [Function.iterate_succ_apply', Function.iterate_succ_apply', ih (by omega)]
      show (if parent^[j] x = r₁ then r₂ else parent (parent^[j] x)) = _
      rw [if_neg (h j (by omega))]

theorem addState_degree (n : ℕ) (st : GEState) (u v x : ℕ) :
    (addState n st u v).degree x =
      if x = v then (if x = u then st.degree x + 1 else st.degree x) + 1
      else (if x = u then st.degree x + 1 else st.degree x) := rfl

theorem addState_adjL (n : ℕ) (st : GEState) (u v x : ℕ) :
    (addState n st u v).adj x =
      if x = v then (if x = u then st.adj x ++ [v] else st.adj x) ++ [u]
      else (if x = u then st.adj x ++ [v] else st.adj x) := rfl

theorem addState_parent (n : ℕ) (st : GEState) (u v : ℕ) :
    (addState n st u v).parent =
      fun w => if w = ufFind st.parent n u then ufFind st.parent n v else st.parent w := rfl

theorem addState_count (n : ℕ) (st : GEState) (u v : ℕ) :
    (addState n st u v).edgeCount = st.edgeCount + 1 := rfl

/-- Membership in the updated adjacency lists. -/
theorem mem_addState_adj (n : ℕ) (st : GEState) (u v x y : ℕ) (huv : u ≠ v) :
    y ∈ (addState n st u v).adj x ↔
      (y ∈ st.adj x ∨ (x = u ∧ y = v) ∨ (x = v ∧ y = u)) := by
  rw [addState_adjL]
  by_cases hv : x = v
  · have hxu : x ≠ u := by rw [hv]; exact Ne.symm huv
    rw [if_pos hv, if_neg hxu]
    simp only [List.mem_append, List.mem_singleton]
    constructor
    · intro h
      rcases h with h | h
      · exact Or.inl h
      · exact Or.inr (Or.inr ⟨hv, h⟩)
    · intro h
      rcases h with h | ⟨h1, _⟩ | ⟨_, h2⟩
      · exact Or.inl h
      · exact absurd h1 hxu
      · exact Or.inr h2
  · rw [if_neg hv]
    by_cases hu : x = u
    · rw [if_pos hu]
      simp only [List.mem_append, List.mem_singleton]
      constructor
      · intro h
        rcases h with h | h
        · exact Or.inl h
        · exact Or.inr (Or.inl ⟨hu, h⟩)
      · intro h
        rcases h with h | ⟨_, h2⟩ | ⟨h1, _⟩
        · exact Or.inl h
        · exact Or.inr h2
        · exact absurd h1 hv
    · rw [if_neg hu]
      constructor
      · exact Or.inl
      · intro h
        rcases h with h | ⟨h1, _⟩ | ⟨h1, _⟩
        · exact h
        · exact absurd h1 hu
        · exact absurd h1 hv

/-- Each step of the selection fold either leaves the state unchanged or is
the accepting update. -/
theorem acceptEdge_eq_or (n : ℕ) (st : GEState) (e : GEdge) :
    acceptEdge n st e = st ∨ acceptEdge n st e = addState n st e.src e.dst := by
  unfold acceptEdge
  by_cases hg1 : n ≤ st.edgeCount
  · rw [if_pos hg1]; exact Or.inl rfl
  · rw [if_neg hg1]
    by_cases hg2 : 2 ≤ st.degree e.src ∨ 2 ≤ st.degree e.dst
    · rw [if_pos hg2]; exact Or.inl rfl
    · rw [if_neg hg2]
      by_cases hg3 : st.edgeCount < n - 1 ∧
          ufFind st.parent n e.src = ufFind st.parent n e.dst
      · rw [if_pos hg3]; exact Or.inl rfl
      · rw [if_neg hg3]
        exact Or.inr rfl

theorem acceptEdge_fix (n : ℕ) (st : GEState) (e : GEdge)
    (h : n ≤ st.edgeCount) : acceptEdge n st e = st := by
  unfold acceptEdge
  rw [if_pos h]

theorem acceptEdge_deg_mono (n : ℕ) (st : GEState) (e : GEdge) (x : ℕ) :
    st.degree x ≤ (acceptEdge n st e).degree x := by
  rcases acceptEdge_eq_or n st e with h | h <;> rw [h]
  rw [addState_degree]
  split <;> split <;> omega

theorem acceptEdge_adj_mono (n : ℕ) (st : GEState) (e : GEdge) (x y : ℕ)
    (hy : y ∈ st.adj x) : y ∈ (acceptEdge n st e).adj x := by
  rcases acceptEdge_eq_or n st e with h | h <;> rw [h]
  · exact hy
  rw [addState_adjL]
  split
  · split
    · exact List.mem_append_left _ (List.mem_append_left _ hy)
    · exact List.mem_append_left _ hy
  · split
    · exact List.mem_append_left _ hy
    · exact hy

theorem acceptEdge_outcome (n : ℕ) (st : GEState) (e : GEdge) :
    (n ≤ st.edgeCount) ∨
    ((2 ≤ st.degree e.src ∨ 2 ≤ st.degree e.dst) ∧ acceptEdge n st e = st) ∨
    (st.edgeCount < n - 1 ∧ ufFind st.parent n e.src = ufFind st.parent n e.dst ∧
      acceptEdge n st e = st) ∨
    e.dst ∈ (acceptEdge n st e).adj e.src := by
  by_cases hg1 : n ≤ st.edgeCount
  · exact Or.inl hg1
  by_cases hg2 : 2 ≤ st.degree e.src ∨ 2 ≤ st.degree e.dst
  · refine Or.inr (Or.inl ⟨hg2, ?_⟩)
    unfold acceptEdge
    rw [if_neg hg1, if_pos hg2]
  by_cases hg3 : st.edgeCount < n - 1 ∧
      ufFind st.parent n e.src = ufFind st.parent n e.dst
  · refine Or.inr (Or.inr (Or.inl ⟨hg3.1, hg3.2, ?_⟩))
    unfold acceptEdge
    rw [if_neg hg1, if_neg hg2, if_pos hg3]
  · refine Or.inr (Or.inr (Or.inr ?_))
    have hacc : acceptEdge n st e = addState n st e.src e.dst := by
      unfold acceptEdge
      rw [if_neg hg1, if_neg hg2, if_neg hg3]
      rfl
    rw [hacc, addState_adjL]
    by_cases hsd : e.src = e.dst
    · rw [if_pos hsd, if_pos rfl]
      exact List.mem_append_left _ (List.mem_append_right _ (List.mem_singleton_self _))
    · rw [if_neg hsd, if_pos rfl]
      exact List.mem_append_right _ (List.mem_singleton_self _)

/-- Packaged union-find data for a vertex of a component: a fuel bound, the
in-component chain, the fixpoint property, and the value of `ufFind`. -/
theorem uf_root_data {n : ℕ} {st : GEState} {comps : List (List ℕ)}
    (F : ForestInv n st comps) (hfll : comps.flatten.length = n)
    {c : List ℕ} (hc : c ∈ comps) {x : ℕ} (hx : x ∈ c) :
    ∃ k, k < c.length ∧ (∀ j, j ≤ k → st.parent^[j] x ∈ c) ∧
      st.parent (st.parent^[k] x) = st.parent^[k] x ∧
      ufFind st.parent n x = st.parent^[k] x := by
  obtain ⟨k, hk, hchain, hfix⟩ := F.uf_reach c hc x hx
  have hcn : c.length ≤ n := by
    have := comp_length_le comps c hc
    omega
  exact ⟨k, hk, hchain, hfix, ufFind_eq_iterate _ n k x (by omega) hfix⟩

set_option maxHeartbeats 1000000 in
/-- Accepting an edge between two distinct components merges them into one
path; the forest invariant is preserved. -/
theorem addState_forest_A (n : ℕ) (st : GEState) (u v : ℕ) (hne : u ≠ v)
    (hun : u < n) (hvn : v < n) (comps : List (List ℕ))
    (F : ForestInv n st comps)
    (hdu : st.degree u ≤ 1) (hdv : st.degree v ≤ 1)
    (hroots : ufFind st.parent n u ≠ ufFind st.parent n v) :
    ∃ comps', ForestInv n (addState n st u v) comps' := by
  have hflnd : comps.flatten.Nodup := flatten_nodup_of_perm F.flat_perm
  have hfll : comps.flatten.length = n := by
    rw [F.flat_perm.length_eq, List.length_range]
  obtain ⟨c₁, hc₁, hu₁⟩ := List.mem_flatten.mp
    (F.flat_perm.mem_iff.mpr (List.mem_range.mpr hun))
  obtain ⟨c₂, hc₂, hv₂⟩ := List.mem_flatten.mp
    (F.flat_perm.mem_iff.mpr (List.mem_range.mpr hvn))
  have hc12 : c₁ ≠ c₂ := by
    intro h
    have hv₁ : v ∈ c₁ := by rw [h]; exact hv₂
    exact hroots (F.uf_same c₁ hc₁ u hu₁ v hv₁)
  have hp1 := List.perm_cons_erase hc₁
  have hc₂e := (List.mem_cons.mp (hp1.mem_iff.mp hc₂)).resolve_left (Ne.symm hc12)
  have hp2 := List.perm_cons_erase hc₂e
  obtain ⟨t₂, hcp⟩ : ∃ t₂, comps.Perm (c₁ :: c₂ :: t₂) := ⟨_, hp1.trans (hp2.cons c₁)⟩
  have hnd3 : (c₁ ++ (c₂ ++ t₂.flatten)).Nodup := by
    have h1 : (c₁ :: c₂ :: t₂).flatten.Nodup := hcp.flatten.nodup_iff.mp hflnd
    simpa [List.flatten_cons] using h1
  obtain ⟨hnd_c₁, hnd_rest, hdisj₁⟩ := List.nodup_append.mp hnd3
  obtain ⟨hnd_c₂, hnd_ft₂, hdisj₂⟩ := List.nodup_append.mp hnd_rest
  have hdisj12 : ∀ w, w ∈ c₁ → w ∈ c₂ → False := fun w h1 h2 =>
    hdisj₁ h1 (List.mem_append_left _ h2)
  have hdisj1t : ∀ w, w ∈ c₁ → w ∈ t₂.flatten → False := fun w h1 h2 =>
    hdisj₁ h1 (List.mem_append_right _ h2)
  obtain ⟨P₁, hP₁p, hP₁l, hP₁adj⟩ := orient_last (comp_end F hc₁ hu₁ hdu)
  obtain ⟨P₂, hP₂p, hP₂h, hP₂adj⟩ := orient_head (comp_end F hc₂ hv₂ hdv)
  have hlenP : (P₁ ++ P₂).length = c₁.length + c₂.length := by
    rw [List.length_append, hP₁p.length_eq, hP₂p.length_eq]
  have hc₂pos : 0 < c₂.length := List.length_pos.mpr (List.ne_nil_of_mem hv₂)
  have hc₁pos : 0 < c₁.length := List.length_pos.mpr (List.ne_nil_of_mem hu₁)
  have hc₁n : c₁.length ≤ n := by
    have := comp_length_le comps c₁ hc₁
    omega
  have hc₂n : c₂.length ≤ n := by
    have := comp_length_le comps c₂ hc₂
    omega
  obtain ⟨ku, hku, hchu, hfixu, hufu⟩ := uf_root_data F hfll hc₁ hu₁
  obtain ⟨kv, hkv, hchv, hfixv, hufv⟩ := uf_root_data F hfll hc₂ hv₂
  have hr₁c : ufFind st.parent n u ∈ c₁ := by
    rw [hufu]
    exact hchu ku le_rfl
  have hr₂c : ufFind st.parent n v ∈ c₂ := by
    rw [hufv]
    exact hchv kv le_rfl
  have hfixr₂ : st.parent (ufFind st.parent n v) = ufFind st.parent n v := by
    rw [hufv]
    exact hfixv
  have hpnew_ne : ∀ w, w ≠ ufFind st.parent n u →
      (addState n st u v).parent w = st.parent w := by
    intro w hw
    rw [addState_parent]
    exact if_neg hw
  have hpnew_r₁ : (addState n st u v).parent (ufFind st.parent n u) =
      ufFind st.parent n v := by
    rw [addState_parent]
    exact if_pos rfl
  have hpnew_r₂ : (addState n st u v).parent (ufFind st.parent n v) =
      ufFind st.parent n v := by
    rw [hpnew_ne _ (Ne.symm hroots)]
    exact hfixr₂
  -- union-find data in the untouched components
  have hT : ∀ c ∈ t₂, ∀ x ∈ c,
      ∃ k, k < c.length ∧
        (∀ j, j ≤ k → (addState n st u v).parent^[j] x ∈ c) ∧
        (addState n st u v).parent ((addState n st u v).parent^[k] x) =
          (addState n st u v).parent^[k] x ∧
        ufFind (addState n st u v).parent n x = ufFind st.parent n x := by
    intro c hct x hx
    have hcc : c ∈ comps := hcp.mem_iff.mpr
      (List.mem_cons_of_mem _ (List.mem_cons_of_mem _ hct))
    obtain ⟨k, hk, hch, hfix, huf⟩ := uf_root_data F hfll hcc hx
    have hnr₁ : ∀ j, j < k + 1 → st.parent^[j] x ≠ ufFind st.parent n u := by
      intro j hj heq
      exact hdisj1t _ hr₁c
        (List.mem_flatten.mpr ⟨c, hct, heq ▸ hch j (by omega)⟩)
    have hpres : ∀ j, j ≤ k + 1 →
        (addState n st u v).parent^[j] x = st.parent^[j] x := by
      intro j hj
      rw [addState_parent]
      exact iterate_of_ne st.parent _ _ x (k + 1) hnr₁ j hj
    have hfixn : (addState n st u v).parent ((addState n st u v).parent^[k] x) =
        (addState n st u v).parent^[k] x := by
      rw [hpres k (by omega), hpnew_ne _ (hnr₁ k (by omega))]
      exact hfix
    have hkn : k ≤ n := by
      have := comp_length_le comps c hcc
      omega
    refine ⟨k, hk, ?_, hfixn, ?_⟩
    · intro j hj
      rw [hpres j (by omega)]
      exact hch j hj
    · rw [ufFind_eq_iterate ((addState n st u v).parent) n k x hkn hfixn,
        hpres k (by omega), huf]
  -- union-find data in the second merged component
  have hC₂ : ∀ x ∈ c₂,
      ∃ k, k < c₂.length ∧
        (∀ j, j ≤ k → (addState n st u v).parent^[j] x ∈ c₂) ∧
        (addState n st u v).parent ((addState n st u v).parent^[k] x) =
          (addState n st u v).parent^[k] x ∧
        ufFind (addState n st u v).parent n x = ufFind st.parent n v := by
    intro x hx
    obtain ⟨k, hk, hch, hfix, huf⟩ := uf_root_data F hfll hc₂ hx
    have hroot : st.parent^[k] x = ufFind st.parent n v := by
      have h2 := F.uf_same c₂ hc₂ x hx v hv₂
      rw [huf] at h2
      exact h2
    have hnr₁ : ∀ j, j < k + 1 → st.parent^[j] x ≠ ufFind st.parent n u := by
      intro j hj heq
      exact hdisj12 _ hr₁c (heq ▸ hch j (by omega))
    have hpres : ∀ j, j ≤ k + 1 →
        (addState n st u v).parent^[j] x = st.parent^[j] x := by
      intro j hj
      rw [addState_parent]
      exact iterate_of_ne st.parent _ _ x (k + 1) hnr₁ j hj
    have hfixn : (addState n st u v).parent ((addState n st u v).parent^[k] x) =
        (addState n st u v).parent^[k] x := by
      rw [hpres k (by omega), hroot]
      exact hpnew_r₂
    refine ⟨k, hk, ?_, hfixn, ?_⟩
    · intro j hj
      rw [hpres j (by omega)]
      exact hch j hj
    · have hkn : k ≤ n := by omega
      rw [ufFind_eq_iterate ((addState n st u v).parent) n k x hkn hfixn,
        hpres k (by omega), hroot]
  -- union-find data in the first merged component
  have hC₁ : ∀ x ∈ c₁,
      ∃ k, k ≤ c₁.length ∧
        (∀ j, j ≤ k → (addState n st u v).parent^[j] x ∈ c₁ ∨
            (addState n st u v).parent^[j] x ∈ c₂) ∧
        (addState n st u v).parent ((addState n st u v).parent^[k] x) =
          (addState n st u v).parent^[k] x ∧
        ufFind (addState n st u v).parent n x = ufFind st.parent n v := by
    intro x hx
    obtain ⟨k₁x, hk, hch, hfix, huf⟩ := uf_root_data F hfll hc₁ hx
    have hroot : st.parent^[k₁x] x = ufFind st.parent n u := by
      have h2 := F.uf_same c₁ hc₁ x hx u hu₁
      rw [huf] at h2
      exact h2
    have hex : ∃ j, st.parent^[j] x = ufFind st.parent n u := ⟨k₁x, hroot⟩
    have hj₀ := Nat.find_spec hex
    have hj₀le : Nat.find hex ≤ k₁x := Nat.find_min' hex hroot
    have hnr₁ : ∀ j, j < Nat.find hex → st.parent^[j] x ≠ ufFind st.parent n u :=
      fun j hj => Nat.find_min hex hj
    have hpres : ∀ j, j ≤ Nat.find hex →
        (addState n st u v).parent^[j] x = st.parent^[j] x := by
      intro j hj
      rw [addState_parent]
      exact iterate_of_ne st.parent _ _ x (Nat.find hex) hnr₁ j hj
    have hstep : (addState n st u v).parent^[Nat.find hex + 1] x =
        ufFind st.parent n v := by
      rw [Function.iterate_succ_apply', hpres _ le_rfl, hj₀, hpnew_r₁]
    have hfixn : (addState n st u v).parent
        ((addState n st u v).parent^[Nat.find hex + 1] x) =
        (addState n st u v).parent^[Nat.find hex + 1] x := by
      rw [hstep]
      exact hpnew_r₂
    refine ⟨Nat.find hex + 1, by omega, ?_, hfixn, ?_⟩
    · intro j hj
      by_cases hjle : j ≤ Nat.find hex
      · left
        rw [hpres j hjle]
        exact hch j (by omega)
      · have hjeq : j = Nat.find hex + 1 := by omega
        right
        rw [hjeq, hstep]
        exact hr₂c
    · have hkn : Nat.find hex + 1 ≤ n := by omega
      rw [ufFind_eq_iterate ((addState n st u v).parent) n (Nat.find hex + 1) x
        hkn hfixn, hstep]
  refine ⟨(P₁ ++ P₂) :: t₂, ?_, ?_, ?_, ?_, ?_, ?_, ?_, ?_⟩
  · -- flat_perm
    show ((P₁ ++ P₂) :: t₂).flatten.Perm (List.range n)
    have h1 : ((P₁ ++ P₂) :: t₂).flatten = (P₁ ++ P₂) ++ t₂.flatten := by
      rw [List.flatten_cons]
    rw [h1]
    have h2 : ((P₁ ++ P₂) ++ t₂.flatten).Perm (c₁ ++ (c₂ ++ t₂.flatten)) := by
      have h3 := hP₁p.append (hP₂p.append (List.Perm.refl t₂.flatten))
      have h4 : (P₁ ++ P₂) ++ t₂.flatten = P₁ ++ (P₂ ++ t₂.flatten) :=
        List.append_assoc _ _ _
      rw [h4]
      exact h3
    have h5 : comps.flatten.Perm (c₁ ++ (c₂ ++ t₂.flatten)) := by
      have h6 := hcp.flatten
      simpa [List.flatten_cons] using h6
    exact h2.trans (h5.symm.trans F.flat_perm)
  · -- nonempty
    intro c hc
    rcases List.mem_cons.mp hc with h | h
    · subst h
      intro hnil
      have hl := congrArg List.length hnil
      rw [hlenP, List.length_nil] at hl
      omega
    · exact F.nonempty c (hcp.mem_iff.mpr
        (List.mem_cons_of_mem _ (List.mem_cons_of_mem _ h)))
  · -- adj_spec
    intro x y
    have hL := mem_addState_adj n st u v x y hne
    have hO : AdjIn comps x y ↔
        ((AdjPair c₁ x y ∨ AdjPair c₁ y x) ∨
         ((AdjPair c₂ x y ∨ AdjPair c₂ y x) ∨ AdjIn t₂ x y)) := by
      rw [AdjIn_perm hcp, AdjIn_cons, AdjIn_cons]
    have hR : AdjIn ((P₁ ++ P₂) :: t₂) x y ↔
        ((AdjPair (P₁ ++ P₂) x y ∨ AdjPair (P₁ ++ P₂) y x) ∨ AdjIn t₂ x y) :=
      AdjIn_cons _ _ _ _
    have hxy := AdjPair_append P₁ P₂ x y
    have hyx := AdjPair_append P₁ P₂ y x
    have h1 := hP₁adj x y
    have h2 := hP₂adj x y
    have hlpx : (P₁.getLast? = some x ∧ P₂.head? = some y) ↔ (x = u ∧ y = v) := by
      constructor
      · intro ⟨a1, a2⟩
        rw [hP₁l] at a1
        rw [hP₂h] at a2
        exact ⟨(Option.some_inj.mp a1).symm, (Option.some_inj.mp a2).symm⟩
      · intro ⟨b1, b2⟩
        rw [b1, b2]
        exact ⟨hP₁l, hP₂h⟩
    have hlpy : (P₁.getLast? = some y ∧ P₂.head? = some x) ↔ (y = u ∧ x = v) := by
      constructor
      · intro ⟨a1, a2⟩
        rw [hP₁l] at a1
        rw [hP₂h] at a2
        exact ⟨(Option.some_inj.mp a1).symm, (Option.some_inj.mp a2).symm⟩
      · intro ⟨b1, b2⟩
        rw [b1, b2]
        exact ⟨hP₁l, hP₂h⟩
    have hF := F.adj_spec x y
    rw [hL, hR, hxy, hyx, hlpx, hlpy, hF, hO]
    constructor
    · intro hmem
      rcases hmem with (hc | hc | ht) | hp | hp
      · rcases h1.mpr hc with hA | hA
        · exact Or.inl (Or.inl (Or.inl hA))
        · exact Or.inl (Or.inr (Or.inl hA))
      · rcases h2.mpr hc with hA | hA
        · exact Or.inl (Or.inl (Or.inr (Or.inl hA)))
        · exact Or.inl (Or.inr (Or.inr (Or.inl hA)))
      · exact Or.inr ht
      · exact Or.inl (Or.inl (Or.inr (Or.inr hp)))
      · exact Or.inl (Or.inr (Or.inr (Or.inr ⟨hp.2, hp.1⟩)))
    · intro hmem
      rcases hmem with (hA | hA) | ht
      · rcases hA with hp | hp | hp
        · exact Or.inl (Or.inl (h1.mp (Or.inl hp)))
        · exact Or.inl (Or.inr (Or.inl (h2.mp (Or.inl hp))))
        · exact Or.inr (Or.inl hp)
      · rcases hA with hp | hp | hp
        · exact Or.inl (Or.inl (h1.mp (Or.inr hp)))
        · exact Or.inl (Or.inr (Or.inl (h2.mp (Or.inr hp))))
        · exact Or.inr (Or.inr ⟨hp.2, hp.1⟩)
      · exact Or.inl (Or.inr (Or.inr ht))
  · -- deg_len
    intro x
    rw [addState_degree, addState_adjL]
    by_cases hv : x = v
    · have hxu : x ≠ u := by rw [hv]; exact Ne.symm hne
      rw [if_pos hv, if_neg hxu, if_pos hv, if_neg hxu, List.length_append,
        F.deg_len]
      rfl
    · by_cases hu : x = u
      · rw [if_neg hv, if_pos hu, if_neg hv, if_pos hu, List.length_append,
          F.deg_len]
        rfl
      · rw [if_neg hv, if_neg hu, if_neg hv, if_neg hu]
        exact F.deg_len x
  · -- adj_nodup
    intro x
    rw [addState_adjL]
    by_cases hv : x = v
    · have hxu : x ≠ u := by rw [hv]; exact Ne.symm hne
      rw [if_pos hv, if_neg hxu, List.nodup_append]
      refine ⟨F.adj_nodup x, List.nodup_singleton u, ?_⟩
      intro w hw hw2
      rw [List.mem_singleton] at hw2
      subst hw2
      rw [hv] at hw
      exact hdisj12 w hu₁ (adj_subset_comp F hc₂ hv₂ hw)
    · by_cases hu : x = u
      · rw [if_neg hv, if_pos hu, List.nodup_append]
        refine ⟨F.adj_nodup x, List.nodup_singleton v, ?_⟩
        intro w hw hw2
        rw [List.mem_singleton] at hw2
        subst hw2
        rw [hu] at hw
        exact hdisj12 w (adj_subset_comp F hc₁ hu₁ hw) hv₂
      · rw [if_neg hv, if_neg hu]
        exact F.adj_nodup x
  · -- uf_reach
    intro c hc x hx
    rcases List.mem_cons.mp hc with h | h
    · subst h
      rcases List.mem_append.mp hx with hx1 | hx2
      · obtain ⟨k, hk, hch, hfixn, _⟩ := hC₁ x (hP₁p.mem_iff.mp hx1)
        refine ⟨k, by rw [hlenP]; omega, ?_, hfixn⟩
        intro j hj
        rcases hch j hj with h1 | h2
        · exact List.mem_append_left _ (hP₁p.mem_iff.mpr h1)
        · exact List.mem_append_right _ (hP₂p.mem_iff.mpr h2)
      · obtain ⟨k, hk, hch, hfixn, _⟩ := hC₂ x (hP₂p.mem_iff.mp hx2)
        refine ⟨k, by rw [hlenP]; omega, ?_, hfixn⟩
        intro j hj
        exact List.mem_append_right _ (hP₂p.mem_iff.mpr (hch j hj))
    · obtain ⟨k, hk, hch, hfixn, _⟩ := hT c h x hx
      exact ⟨k, hk, hch, hfixn⟩
  · -- uf_same
    intro c hc x hx y hy
    rcases List.mem_cons.mp hc with h | h
    · subst h
      have hvalx : ufFind (addState n st u v).parent n x =
          ufFind st.parent n v := by
        rcases List.mem_append.mp hx with h1 | h2
        · exact (hC₁ x (hP₁p.mem_iff.mp h1)).choose_spec.2.2.2
        · exact (hC₂ x (hP₂p.mem_iff.mp h2)).choose_spec.2.2.2
      have hvaly : ufFind (addState n st u v).parent n y =
          ufFind st.parent n v := by
        rcases List.mem_append.mp hy with h1 | h2
        · exact (hC₁ y (hP₁p.mem_iff.mp h1)).choose_spec.2.2.2
        · exact (hC₂ y (hP₂p.mem_iff.mp h2)).choose_spec.2.2.2
      rw [hvalx, hvaly]
    · have hcc : c ∈ comps := hcp.mem_iff.mpr
        (List.mem_cons_of_mem _ (List.mem_cons_of_mem _ h))
      have h1 := (hT c h x hx).choose_spec.2.2.2
      have h2 := (hT c h y hy).choose_spec.2.2.2
      rw [h1, h2]
      exact F.uf_same c hcc x hx y hy
  · -- count
    show (addState n st u v).edgeCount + ((P₁ ++ P₂) :: t₂).length = n
    rw [addState_count, List.length_cons]
    have h1 := hcp.length_eq
    rw [List.length_cons, List.length_cons] at h1
    have h2 := F.count
    omega

/-- Closing the final edge between the two ends of the single remaining path
yields the Hamiltonian-cycle invariant. -/
theorem cycle_from_path (n : ℕ) (st : GEState) (u v : ℕ) (hne : u ≠ v)
    (c : List ℕ) (hflat : c.Perm (List.range n))
    (hadj : ∀ x y, y ∈ st.adj x ↔ AdjPair c x y ∨ AdjPair c y x)
    (hclosing : (c.head? = some u ∧ c.getLast? = some v) ∨
      (c.head? = some v ∧ c.getLast? = some u))
    (hcount : st.edgeCount + 1 = n) :
    ∃ C, CycleInv n (addState n st u v) C := by
  refine ⟨c, hflat, ?_, ?_⟩
  · intro x y
    rw [mem_addState_adj n st u v x y hne, hadj]
    rcases hclosing with ⟨hh, hl⟩ | ⟨hh, hl⟩
    · have e1 : (c.getLast? = some x ∧ c.head? = some y) ↔ (x = v ∧ y = u) := by
        constructor
        · intro ⟨a1, a2⟩
          rw [hl] at a1
          rw [hh] at a2
          exact ⟨(Option.some_inj.mp a1).symm, (Option.some_inj.mp a2).symm⟩
        · intro ⟨b1, b2⟩
          rw [b1, b2]
          exact ⟨hl, hh⟩
      have e2 : (c.getLast? = some y ∧ c.head? = some x) ↔ (y = v ∧ x = u) := by
        constructor
        · intro ⟨a1, a2⟩
          rw [hl] at a1
          rw [hh] at a2
          exact ⟨(Option.some_inj.mp a1).symm, (Option.some_inj.mp a2).symm⟩
        · intro ⟨b1, b2⟩
          rw [b1, b2]
          exact ⟨hl, hh⟩
      rw [e1, e2]
      constructor
      · intro h
        rcases h with (hA | hB) | hp | hp
        · exact Or.inl hA
        · exact Or.inr (Or.inl hB)
        · exact Or.inr (Or.inr (Or.inr ⟨hp.2, hp.1⟩))
        · exact Or.inr (Or.inr (Or.inl hp))
      · intro h
        rcases h with hA | hB | hp | hp
        · exact Or.inl (Or.inl hA)
        · exact Or.inl (Or.inr hB)
        · exact Or.inr (Or.inr hp)
        · exact Or.inr (Or.inl ⟨hp.2, hp.1⟩)
    · have e1 : (c.getLast? = some x ∧ c.head? = some y) ↔ (x = u ∧ y = v) := by
        constructor
        · intro ⟨a1, a2⟩
          rw [hl] at a1
          rw [hh] at a2
          exact ⟨(Option.some_inj.mp a1).symm, (Option.some_inj.mp a2).symm⟩
        · intro ⟨b1, b2⟩
          rw [b1, b2]
          exact ⟨hl, hh⟩
      have e2 : (c.getLast? = some y ∧ c.head? = some x) ↔ (y = u ∧ x = v) := by
        constructor
        · intro ⟨a1, a2⟩
          rw [hl] at a1
          rw [hh] at a2
          exact ⟨(Option.some_inj.mp a1).symm, (Option.some_inj.mp a2).symm⟩
        · intro ⟨b1, b2⟩
          rw [b1, b2]
          exact ⟨hl, hh⟩
      rw [e1, e2]
      constructor
      · intro h
        rcases h with (hA | hB) | hp | hp
        · exact Or.inl hA
        · exact Or.inr (Or.inl hB)
        · exact Or.inr (Or.inr (Or.inl hp))
        · exact Or.inr (Or.inr (Or.inr ⟨hp.2, hp.1⟩))
      · intro h
        rcases h with hA | hB | hp | hp
        · exact Or.inl (Or.inl hA)
        · exact Or.inl (Or.inr hB)
        · exact Or.inr (Or.inl hp)
        · exact Or.inr (Or.inr ⟨hp.2, hp.1⟩)
  · show (addState n st u v).edgeCount = n
    rw [addState_count]
    exact hcount

/-- With a single component left and the final slot open, accepting an edge
between two low-degree vertices closes the Hamiltonian cycle. -/
theorem addState_cycle_B (n : ℕ) (st : GEState) (u v : ℕ) (hne : u ≠ v)
    (hun : u < n) (hvn : v < n) (comps : List (List ℕ))
    (F : ForestInv n st comps) (hdu : st.degree u ≤ 1) (hdv : st.degree v ≤ 1)
    (hcnt : st.edgeCount = n - 1) (hn1 : 1 ≤ n) :
    ∃ C, CycleInv n (addState n st u v) C := by
  have hlen1 : comps.length = 1 := by
    have := F.count
    omega
  obtain ⟨c, hceq⟩ := List.length_eq_one.mp hlen1
  subst hceq
  have hcm : c ∈ [c] := List.mem_singleton.mpr rfl
  have hflat : c.Perm (List.range n) := by
    have h := F.flat_perm
    simpa using h
  have hu_c : u ∈ c := hflat.mem_iff.mpr (List.mem_range.mpr hun)
  have hv_c : v ∈ c := hflat.mem_iff.mpr (List.mem_range.mpr hvn)
  have hadj : ∀ x y, y ∈ st.adj x ↔ AdjPair c x y ∨ AdjPair c y x := by
    intro x y
    rw [F.adj_spec, show ([c] : List (List ℕ)) = c :: [] from rfl, AdjIn_cons]
    constructor
    · intro h
      rcases h with h | h
      · exact h
      · exact absurd h (AdjIn_nil x y)
    · exact Or.inl
  have hend_u := comp_end F hcm hu_c hdu
  have hend_v := comp_end F hcm hv_c hdv
  have hclosing : (c.head? = some u ∧ c.getLast? = some v) ∨
      (c.head? = some v ∧ c.getLast? = some u) := by
    rcases hend_u with h1 | h1 <;> rcases hend_v with h2 | h2
    · rw [h1] at h2
      exact absurd (Option.some_inj.mp h2) hne
    · exact Or.inl ⟨h1, h2⟩
    · exact Or.inr ⟨h2, h1⟩
    · rw [h1] at h2
      exact absurd (Option.some_inj.mp h2) hne
  exact cycle_from_path n st u v hne c hflat hadj hclosing (by omega)

/-- `acceptEdge` preserves the loop invariant. -/
theorem acceptEdge_inv (n : ℕ) (st : GEState) (e : GEdge) (hsd : e.src < e.dst)
    (hdn : e.dst < n) (hinv : GEInv n st) : GEInv n (acceptEdge n st e) := by
  by_cases hg1 : n ≤ st.edgeCount
  · rw [acceptEdge_fix n st e hg1]
    exact hinv
  rcases hinv with ⟨comps, F⟩ | ⟨C, hC⟩
  · by_cases hg2 : 2 ≤ st.degree e.src ∨ 2 ≤ st.degree e.dst
    · have h : acceptEdge n st e = st := by
        unfold acceptEdge
        rw [if_neg hg1, if_pos hg2]
      rw [h]
      exact Or.inl ⟨comps, F⟩
    by_cases hg3 : st.edgeCount < n - 1 ∧
        ufFind st.parent n e.src = ufFind st.parent n e.dst
    · have h : acceptEdge n st e = st := by
        unfold acceptEdge
        rw [if_neg hg1, if_neg hg2, if_pos hg3]
      rw [h]
      exact Or.inl ⟨comps, F⟩
    · have hacc : acceptEdge n st e = addState n st e.src e.dst := by
        unfold acceptEdge
        rw [if_neg hg1, if_neg hg2, if_neg hg3]
        rfl
      rw [hacc]
      have hne : e.src ≠ e.dst := Nat.ne_of_lt hsd
      obtain ⟨h2u, h2v⟩ := not_or.mp hg2
      have hdu : st.degree e.src ≤ 1 := by omega
      have hdv : st.degree e.dst ≤ 1 := by omega
      rcases Nat.lt_or_ge st.edgeCount (n - 1) with hlt | hge
      · have hroots : ufFind st.parent n e.src ≠ ufFind st.parent n e.dst :=
          fun h => hg3 ⟨hlt, h⟩
        exact Or.inl (addState_forest_A n st e.src e.dst hne (by omega) hdn
          comps F hdu hdv hroots)
      · have hcnt : st.edgeCount = n - 1 := by omega
        exact Or.inr (addState_cycle_B n st e.src e.dst hne (by omega) hdn
          comps F hdu hdv hcnt (by omega))
  · exact absurd (le_of_eq hC.count.symm) hg1

theorem flatten_map_singleton (l : List ℕ) :
    (l.map (fun i => [i])).flatten = l := by
  induction l with
  | nil => rfl
  | cons a t ih => simp [ih]

/-- The initial state is the forest of singleton paths. -/
theorem initState_forest (n : ℕ) :
    ForestInv n initState ((List.range n).map (fun i => [i])) := by
  refine ⟨?_, ?_, ?_, ?_, ?_, ?_, ?_, ?_⟩
  · rw [flatten_map_singleton]
  · intro c hc
    obtain ⟨i, _, hi⟩ := List.mem_map.mp hc
    rw [← hi]
    simp
  · intro x y
    constructor
    · intro h
      exact absurd h (List.not_mem_nil y)
    · intro ⟨c, hc, hp⟩
      obtain ⟨i, _, hi⟩ := List.mem_map.mp hc
      rw [← hi] at hp
      rcases hp with hp | hp
      · exact absurd hp (AdjPair_single i x y)
      · exact absurd hp (AdjPair_single i y x)
  · intro x
    rfl
  · intro x
    exact List.nodup_nil
  · intro c hc x hx
    refine ⟨0, ?_, ?_, ?_⟩
    · obtain ⟨i, _, hi⟩ := List.mem_map.mp hc
      rw [← hi]
      simp
    · intro j hj
      have hj0 : j = 0 := by omega
      rw [hj0]
      exact hx
    · rfl
  · intro c hc x hx y hy
    obtain ⟨i, _, hi⟩ := List.mem_map.mp hc
    rw [← hi, List.mem_singleton] at hx hy
    rw [hx, hy]
  · show initState.edgeCount + _ = n
    have h1 : initState.edgeCount = 0 := rfl
    rw [h1, List.length_map, List.length_range]
    omega

theorem foldl_acceptEdge_inv (n : ℕ) (l : List GEdge)
    (hl : ∀ e ∈ l, e.src < e.dst ∧ e.dst < n) :
    ∀ st : GEState, GEInv n st → GEInv n (l.foldl (acceptEdge n) st) := by
  induction l with
  | nil => intro st h; exact h
  | cons e t ih =>
      intro st h
      rw [List.foldl_cons]
      exact ih (fun e' he' => hl e' (List.mem_cons_of_mem _ he')) _
        (acceptEdge_inv n st e (hl e (List.mem_cons_self _ _)).1
          (hl e (List.mem_cons_self _ _)).2 h)

theorem foldl_deg_mono (n : ℕ) (l : List GEdge) :
    ∀ (st : GEState) (x : ℕ),
      st.degree x ≤ (l.foldl (acceptEdge n) st).degree x := by
  induction l with
  | nil => intro st x; exact le_refl _
  | cons e t ih =>
      intro st x
      rw [List.foldl_cons]
      exact le_trans (acceptEdge_deg_mono n st e x) (ih _ x)

theorem foldl_adj_mono (n : ℕ) (l : List GEdge) :
    ∀ (st : GEState) (x y : ℕ), y ∈ st.adj x →
      y ∈ (l.foldl (acceptEdge n) st).adj x := by
  induction l with
  | nil => intro st x y h; exact h
  | cons e t ih =>
      intro st x y h
      rw [List.foldl_cons]
      exact ih _ x y (acceptEdge_adj_mono n st e x y h)

theorem foldl_fix (n : ℕ) (l : List GEdge) :
    ∀ st : GEState, n ≤ st.edgeCount → l.foldl (acceptEdge n) st = st := by
  induction l with
  | nil => intro st _; rfl
  | cons e t ih =>
      intro st h
      rw [List.foldl_cons, acceptEdge_fix n st e h]
      exact ih st h

theorem mem_sorted_edgeList (graph : Graph) (n : ℕ) (e : GEdge)
    (h : e ∈ (edgeList graph n).mergeSort (fun a b => a.dist ≤ b.dist)) :
    e.src < e.dst ∧ e.dst < n := by
  have h1 := (List.mergeSort_perm (edgeList graph n) _).mem_iff.mp h
  have h2 := (mem_edgeList graph n e).mp h1
  exact ⟨h2.1, h2.2.1⟩

theorem buildState_eq (graph : Graph) (n : ℕ) :
    buildState graph n = ((edgeList graph n).mergeSort
      (fun a b => a.dist ≤ b.dist)).foldl (acceptEdge n) initState := rfl

theorem buildState_inv (graph : Graph) (n : ℕ) : GEInv n (buildState graph n) :=
  foldl_acceptEdge_inv n _ (fun e he => mem_sorted_edgeList graph n e he)
    initState (Or.inl ⟨_, initState_forest n⟩)

theorem forest_count_lt {n : ℕ} {st : GEState} {comps : List (List ℕ)}
    (F : ForestInv n st comps) (hn : 1 ≤ n) : st.edgeCount < n := by
  have hc := F.count
  rcases comps with _ | ⟨c, t⟩
  · exfalso
    have hl := F.flat_perm.length_eq
    rw [List.length_range] at hl
    simp at hl
    omega
  · rw [List.length_cons] at hc
    omega

/-- An end of a component of length at least two has degree exactly `1`. -/
theorem end_deg_eq_one {n : ℕ} {st : GEState} {comps : List (List ℕ)}
    (F : ForestInv n st comps) {L : List ℕ} (hc : L ∈ comps) {x : ℕ}
    (hh : L.head? = some x ∨ L.getLast? = some x) (hlen : 2 ≤ L.length) :
    st.degree x = 1 := by
  have hnd := flatten_nodup_of_perm F.flat_perm
  have hcnd := comp_nodup hnd hc
  have hge : 1 ≤ st.degree x := by
    rcases hh with hh | hh
    · have hx0 : L[0]? = some x := by rw [← List.head?_eq_getElem?]; exact hh
      obtain ⟨w, h1⟩ : ∃ w, L[0 + 1]? = some w :=
        ⟨_, List.getElem?_eq_getElem (by omega)⟩
      have hw : w ∈ st.adj x := by
        rw [F.adj_spec]
        exact ⟨L, hc, Or.inl ⟨0, hx0, h1⟩⟩
      have := List.length_pos.mpr (List.ne_nil_of_mem hw)
      rw [F.deg_len]
      omega
    · have hxl : L[L.length - 1]? = some x := by
        rw [← List.getLast?_eq_getElem?]; exact hh
      obtain ⟨w, h1⟩ : ∃ w, L[L.length - 2]? = some w :=
        ⟨_, List.getElem?_eq_getElem (by omega)⟩
      have hw : w ∈ st.adj x := by
        rw [F.adj_spec]
        refine ⟨L, hc, Or.inr ⟨L.length - 2, h1, ?_⟩⟩
        have he : L.length - 2 + 1 = L.length - 1 := by omega
        rw [he]
        exact hxl
      have := List.length_pos.mpr (List.ne_nil_of_mem hw)
      rw [F.deg_len]
      omega
  have hle : st.degree x ≤ 1 := by
    rcases hh with hh | hh
    · exact head_deg_le_one F hc hh
    · exact last_deg_le_one F hc hh
  omega

/-- An interior vertex of a component has degree at least `2`. -/
theorem internal_deg_ge_two {n : ℕ} {st : GEState} {comps : List (List ℕ)}
    (F : ForestInv n st comps) {L : List ℕ} (hc : L ∈ comps) {x i : ℕ}
    (hx : L[i]? = some x) (h0 : 1 ≤ i) (hi : i + 1 < L.length) :
    2 ≤ st.degree x := by
  have hnd := flatten_nodup_of_perm F.flat_perm
  have hcnd := comp_nodup hnd hc
  obtain ⟨w₁, hy₁⟩ : ∃ w, L[i + 1]? = some w := ⟨_, List.getElem?_eq_getElem hi⟩
  obtain ⟨w₂, hy₂⟩ : ∃ w, L[i - 1]? = some w :=
    ⟨_, List.getElem?_eq_getElem (by omega)⟩
  have hmem₁ : w₁ ∈ st.adj x := by
    rw [F.adj_spec]
    exact ⟨L, hc, Or.inl ((AdjPair_char_left hcnd hx _).mpr hy₁)⟩
  have hmem₂ : w₂ ∈ st.adj x := by
    rw [F.adj_spec]
    exact ⟨L, hc, Or.inr ((AdjPair_char_right hcnd hx _).mpr ⟨by omega, hy₂⟩)⟩
  have hne : w₁ ≠ w₂ := by
    intro h
    have h2 : L[i - 1]? = some w₁ := by
      rw [h]
      exact hy₂
    have := nodup_getElem?_inj hcnd hy₁ h2
    omega
  have := two_mem_le_length hmem₁ hmem₂ hne
  rw [F.deg_len]
  omega

/-- Every candidate edge between low-degree, finally non-adjacent vertices
was examined at some point of the fold, and its rejection pins down a state
in which the two vertices already shared a component. -/
theorem processed_edge (graph : Graph) (n : ℕ) (hn : 3 ≤ n) (u v : ℕ)
    (huv : u < v) (hvn : v < n)
    (comps_f : List (List ℕ)) (Ff : ForestInv n (buildState graph n) comps_f)
    (hdu : (buildState graph n).degree u ≤ 1)
    (hdv : (buildState graph n).degree v ≤ 1)
    (hnadj : v ∉ (buildState graph n).adj u) :
    ∃ st₁ comps₁ c₁, ForestInv n st₁ comps₁ ∧ c₁ ∈ comps₁ ∧ u ∈ c₁ ∧ v ∈ c₁ ∧
      st₁.edgeCount < n - 1 ∧
      (∀ x, st₁.degree x ≤ (buildState graph n).degree x) ∧
      (∀ x y, y ∈ st₁.adj x → y ∈ (buildState graph n).adj x) := by
  have hmem : (⟨u, v, graph u v⟩ : GEdge) ∈
      (edgeList graph n).mergeSort (fun a b => a.dist ≤ b.dist) :=
    (List.mergeSort_perm _ _).mem_iff.mpr (edgeList_complete graph n u v huv hvn)
  obtain ⟨l₁, l₂, hsplit⟩ := List.append_of_mem hmem
  have hbuild : buildState graph n =
      l₂.foldl (acceptEdge n) (acceptEdge n (l₁.foldl (acceptEdge n) initState)
        ⟨u, v, graph u v⟩) := by
    rw [buildState_eq, hsplit, List.foldl_append, List.foldl_cons]
  have hmem₁ : ∀ e ∈ l₁, e.src < e.dst ∧ e.dst < n := by
    intro e he
    apply mem_sorted_edgeList graph n
    rw [hsplit]
    exact List.mem_append_left _ he
  have hinv₁ : GEInv n (l₁.foldl (acceptEdge n) initState) :=
    foldl_acceptEdge_inv n l₁ hmem₁ initState (Or.inl ⟨_, initState_forest n⟩)
  have hdegm : ∀ x, (l₁.foldl (acceptEdge n) initState).degree x ≤
      (buildState graph n).degree x := by
    intro x
    rw [hbuild]
    exact le_trans (acceptEdge_deg_mono n _ _ x) (foldl_deg_mono n l₂ _ x)
  have hadjm : ∀ x y, y ∈ (l₁.foldl (acceptEdge n) initState).adj x →
      y ∈ (buildState graph n).adj x := by
    intro x y hy
    rw [hbuild]
    exact foldl_adj_mono n l₂ _ x y (acceptEdge_adj_mono n _ _ x y hy)
  rcases hinv₁ with ⟨comps₁, F₁⟩ | ⟨C, hC⟩
  · rcases acceptEdge_outcome n (l₁.foldl (acceptEdge n) initState)
        ⟨u, v, graph u v⟩ with h | ⟨hg2, _⟩ | ⟨hg3a, hg3b, _⟩ | hacc
    · exfalso
      have := forest_count_lt F₁ (by omega)
      omega
    · exfalso
      have hg2' : 2 ≤ (l₁.foldl (acceptEdge n) initState).degree u ∨
          2 ≤ (l₁.foldl (acceptEdge n) initState).degree v := hg2
      rcases hg2' with h2 | h2
      · have := hdegm u
        omega
      · have := hdegm v
        omega
    · -- rejected by the premature-cycle guard: same component already
      have hg3b' : ufFind (l₁.foldl (acceptEdge n) initState).parent n u =
          ufFind (l₁.foldl (acceptEdge n) initState).parent n v := hg3b
      have hflnd₁ := flatten_nodup_of_perm F₁.flat_perm
      have hfll₁ : comps₁.flatten.length = n := by
        rw [F₁.flat_perm.length_eq, List.length_range]
      obtain ⟨c₁, hc₁, hu₁⟩ := List.mem_flatten.mp
        (F₁.flat_perm.mem_iff.mpr (List.mem_range.mpr (by omega : u < n)))
      obtain ⟨c₂, hc₂, hv₂⟩ := List.mem_flatten.mp
        (F₁.flat_perm.mem_iff.mpr (List.mem_range.mpr hvn))
      obtain ⟨ku, _, hchu, hfixu, hufu⟩ := uf_root_data F₁ hfll₁ hc₁ hu₁
      obtain ⟨kv, _, hchv, hfixv, hufv⟩ := uf_root_data F₁ hfll₁ hc₂ hv₂
      have hr₁ : ufFind (l₁.foldl (acceptEdge n) initState).parent n u ∈ c₁ := by
        rw [hufu]
        exact hchu ku le_rfl
      have hr₂ : ufFind (l₁.foldl (acceptEdge n) initState).parent n v ∈ c₂ := by
        rw [hufv]
        exact hchv kv le_rfl
      have hr₁' : ufFind (l₁.foldl (acceptEdge n) initState).parent n v ∈ c₁ := by
        rw [← hg3b']
        exact hr₁
      have hceq : c₁ = c₂ := comp_eq_of_mem hflnd₁ hc₁ hc₂ hr₁' hr₂
      refine ⟨_, comps₁, c₁, F₁, hc₁, hu₁, ?_, hg3a, hdegm, hadjm⟩
      rw [hceq]
      exact hv₂
    · exfalso
      have hacc' : v ∈ (acceptEdge n (l₁.foldl (acceptEdge n) initState)
          ⟨u, v, graph u v⟩).adj u := hacc
      apply hnadj
      rw [hbuild]
      exact foldl_adj_mono n l₂ _ u v hacc'
  · exfalso
    have hfix : buildState graph n = l₁.foldl (acceptEdge n) initState := by
      rw [hbuild, acceptEdge_fix n _ _ (le_of_eq hC.count.symm),
        foldl_fix n l₂ _ (le_of_eq hC.count.symm)]
    have hcnt := hC.count
    rw [← hfix] at hcnt
    have := forest_count_lt Ff (by omega)
    omega

set_option maxHeartbeats 1000000 in
/-- If the fold ended with a single open path, its two ends would have formed
an acceptable closing edge: the state that rejected that edge has both ends
frozen inside one component whose adjacency can no longer change, which traps
the final path inside that proper sub-component — impossible. -/
theorem single_impossible (n : ℕ) (stf st₁ : GEState) (P : List ℕ)
    (Ff : ForestInv n stf [P]) (hn : 3 ≤ n)
    (u₀ v₀ : ℕ) (hheadq : P.head? = some u₀) (hlastq : P.getLast? = some v₀)
    (comps₁ : List (List ℕ)) (F₁ : ForestInv n st₁ comps₁)
    (c₁ : List ℕ) (hc₁ : c₁ ∈ comps₁) (hu₁ : u₀ ∈ c₁) (hv₁ : v₀ ∈ c₁)
    (hcnt₁ : st₁.edgeCount < n - 1)
    (hdegm : ∀ x, st₁.degree x ≤ stf.degree x)
    (hadjm : ∀ x y, y ∈ st₁.adj x → y ∈ stf.adj x) : False := by
  have hPperm : P.Perm (List.range n) := by simpa using Ff.flat_perm
  have hPnd : P.Nodup := hPperm.nodup_iff.mpr (List.nodup_range n)
  have hPlen : P.length = n := by rw [hPperm.length_eq, List.length_range]
  have hPm : P ∈ [P] := List.mem_singleton.mpr rfl
  have hu₀q : P[0]? = some u₀ := by rw [← List.head?_eq_getElem?]; exact hheadq
  have hv₀q : P[P.length - 1]? = some v₀ := by
    rw [← List.getLast?_eq_getElem?]; exact hlastq
  have hne : u₀ ≠ v₀ := by
    intro h
    have := nodup_getElem?_inj hPnd hu₀q (h.symm ▸ hv₀q)
    omega
  have hd1u : stf.degree u₀ = 1 :=
    end_deg_eq_one Ff hPm (Or.inl hheadq) (by omega)
  have hd1v : stf.degree v₀ = 1 :=
    end_deg_eq_one Ff hPm (Or.inr hlastq) (by omega)
  have hflnd₁ := flatten_nodup_of_perm F₁.flat_perm
  have hc₁nd := comp_nodup hflnd₁ hc₁
  have hcl2 : 2 ≤ c₁.length := two_mem_le_length hu₁ hv₁ hne
  have hd₁u : st₁.degree u₀ ≤ 1 := le_trans (hdegm u₀) (le_of_eq hd1u)
  have hd₁v : st₁.degree v₀ ≤ 1 := le_trans (hdegm v₀) (le_of_eq hd1v)
  have hend_u1 := comp_end F₁ hc₁ hu₁ hd₁u
  have hend_v1 := comp_end F₁ hc₁ hv₁ hd₁v
  have hpin : (c₁.head? = some u₀ ∧ c₁.getLast? = some v₀) ∨
      (c₁.head? = some v₀ ∧ c₁.getLast? = some u₀) := by
    rcases hend_u1 with h1 | h1 <;> rcases hend_v1 with h2 | h2
    · rw [h1] at h2
      exact absurd (Option.some_inj.mp h2) hne
    · exact Or.inl ⟨h1, h2⟩
    · exact Or.inr ⟨h2, h1⟩
    · rw [h1] at h2
      exact absurd (Option.some_inj.mp h2) hne
  have hfreeze : ∀ x ∈ c₁, ∀ y, y ∈ stf.adj x → y ∈ c₁ := by
    intro x hx y hy
    obtain ⟨i, hi, hix⟩ := List.getElem_of_mem hx
    have hix' : c₁[i]? = some x := by rw [List.getElem?_eq_getElem hi, hix]
    have hdeq : st₁.degree x = stf.degree x := by
      by_cases hiend : i = 0 ∨ i + 1 = c₁.length
      · have hxend : c₁.head? = some x ∨ c₁.getLast? = some x := by
          rcases hiend with h | h
          · left
            rw [List.head?_eq_getElem?, ← h]
            exact hix'
          · right
            rw [List.getLast?_eq_getElem?]
            have he : c₁.length - 1 = i := by omega
            rw [he]
            exact hix'
        have h₁ := end_deg_eq_one F₁ hc₁ hxend hcl2
        have hxuv : x = u₀ ∨ x = v₀ := by
          rcases hpin with ⟨hh, hl⟩ | ⟨hh, hl⟩ <;> rcases hxend with hx1 | hx1
          · left
            rw [hh] at hx1
            exact (Option.some_inj.mp hx1).symm
          · right
            rw [hl] at hx1
            exact (Option.some_inj.mp hx1).symm
          · right
            rw [hh] at hx1
            exact (Option.some_inj.mp hx1).symm
          · left
            rw [hl] at hx1
            exact (Option.some_inj.mp hx1).symm
        have h₂ : stf.degree x = 1 := by
          rcases hxuv with h | h <;> rw [h]
          · exact hd1u
          · exact hd1v
        rw [h₁, h₂]
      · push_neg at hiend
        have h₁ : 2 ≤ st₁.degree x :=
          internal_deg_ge_two F₁ hc₁ hix' (by omega) (by omega)
        have h₂ : stf.degree x ≤ 2 := forest_deg_le_two Ff x
        have h₃ := hdegm x
        omega
    have hlen_le : (stf.adj x).length ≤ (st₁.adj x).length := by
      rw [← F₁.deg_len, ← Ff.deg_len, hdeq]
    have hsub := mem_of_sub_length (F₁.adj_nodup x) (Ff.adj_nodup x)
      (fun z hz => hadjm x z hz) hlen_le
    exact adj_subset_comp F₁ hc₁ hx (hsub y hy)
  have hPsub : ∀ i, i < P.length → ∀ a, P[i]? = some a → a ∈ c₁ := by
    intro i
    induction i with
    | zero =>
        intro _ a ha
        rw [hu₀q] at ha
        rw [← Option.some_inj.mp ha]
        exact hu₁
    | succ i ih =>
        intro hi a ha
        have hi2 : i < P.length := by omega
        obtain ⟨w, hPi⟩ : ∃ w, P[i]? = some w := ⟨_, List.getElem?_eq_getElem hi2⟩
        have hprev : w ∈ c₁ := ih (by omega) _ hPi
        have hadjf : a ∈ stf.adj w := by
          rw [Ff.adj_spec]
          exact ⟨P, hPm, Or.inl ⟨i, hPi, ha⟩⟩
        exact hfreeze _ hprev a hadjf
  obtain ⟨t₁, hpermc⟩ : ∃ t, comps₁.Perm (c₁ :: t) := ⟨_, List.perm_cons_erase hc₁⟩
  have hlen_er : 0 < t₁.length := by
    have h1 := hpermc.length_eq
    rw [List.length_cons] at h1
    have h2 := F₁.count
    omega
  obtain ⟨c', hc'⟩ := List.exists_mem_of_length_pos hlen_er
  have hc'1 : c' ∈ comps₁ := hpermc.mem_iff.mpr (List.mem_cons_of_mem _ hc')
  obtain ⟨w, hw⟩ := List.exists_mem_of_ne_nil c' (F₁.nonempty c' hc'1)
  have hndall : (c₁ ++ t₁.flatten).Nodup := by
    have h1 := hpermc.flatten.nodup_iff.mp hflnd₁
    simpa [List.flatten_cons] using h1
  obtain ⟨hnd1, hnd2, hdis⟩ := List.nodup_append.mp hndall
  have hwc₁ : w ∉ c₁ := fun hwc =>
    hdis hwc (List.mem_flatten.mpr ⟨c', hc', hw⟩)
  have hwn : w < n := List.mem_range.mp (F₁.flat_perm.mem_iff.mp
    (List.mem_flatten.mpr ⟨c', hc'1, hw⟩))
  have hwP : w ∈ P := hPperm.mem_iff.mpr (List.mem_range.mpr hwn)
  obtain ⟨j, hj, hjw⟩ := List.getElem_of_mem hwP
  exact hwc₁ (hPsub j hj w (by rw [List.getElem?_eq_getElem hj, hjw]))

set_option maxHeartbeats 1000000 in
/-- For `n ≥ 3` the selection fold cannot end in a forest state. -/
theorem final_not_forest (graph : Graph) (n : ℕ) (hn : 3 ≤ n)
    (comps_f : List (List ℕ)) (Ff : ForestInv n (buildState graph n) comps_f) :
    False := by
  have hflndf := flatten_nodup_of_perm Ff.flat_perm
  by_cases hone : comps_f.length = 1
  · obtain ⟨P, hPeq⟩ := List.length_eq_one.mp hone
    subst hPeq
    have hPperm : P.Perm (List.range n) := by simpa using Ff.flat_perm
    have hPnd : P.Nodup := hPperm.nodup_iff.mpr (List.nodup_range n)
    have hPlen : P.length = n := by rw [hPperm.length_eq, List.length_range]
    have hPm : P ∈ [P] := List.mem_singleton.mpr rfl
    have h0lt : 0 < P.length := by omega
    obtain ⟨u₀, hu₀q⟩ : ∃ a, P[0]? = some a := ⟨_, List.getElem?_eq_getElem h0lt⟩
    obtain ⟨v₀, hv₀q⟩ : ∃ a, P[P.length - 1]? = some a :=
      ⟨_, List.getElem?_eq_getElem (by omega)⟩
    have hheadq : P.head? = some u₀ := by rw [List.head?_eq_getElem?]; exact hu₀q
    have hlastq : P.getLast? = some v₀ := by
      rw [List.getLast?_eq_getElem?]
      exact hv₀q
    have hu₀P : u₀ ∈ P := List.getElem?_mem hu₀q
    have hv₀P : v₀ ∈ P := List.getElem?_mem hv₀q
    have hu₀n : u₀ < n := List.mem_range.mp (hPperm.mem_iff.mp hu₀P)
    have hv₀n : v₀ < n := List.mem_range.mp (hPperm.mem_iff.mp hv₀P)
    have hne : u₀ ≠ v₀ := by
      intro h
      have := nodup_getElem?_inj hPnd hu₀q (h.symm ▸ hv₀q)
      omega
    have hdu : (buildState graph n).degree u₀ ≤ 1 :=
      head_deg_le_one Ff hPm hheadq
    have hdv : (buildState graph n).degree v₀ ≤ 1 :=
      last_deg_le_one Ff hPm hlastq
    have hnadj_uv : v₀ ∉ (buildState graph n).adj u₀ := by
      intro hmem
      have h1 := (adjIn_comp hflndf hPm hu₀P v₀).mp
        ((Ff.adj_spec u₀ v₀).mp hmem)
      rcases h1 with hp | hp
      · have h2 := (AdjPair_char_left hPnd hu₀q v₀).mp hp
        have := nodup_getElem?_inj hPnd h2 hv₀q
        omega
      · obtain ⟨h1', h2⟩ := (AdjPair_char_right hPnd hu₀q v₀).mp hp
        omega
    have hnadj_vu : u₀ ∉ (buildState graph n).adj v₀ := by
      intro hmem
      have h1 := (adjIn_comp hflndf hPm hv₀P u₀).mp
        ((Ff.adj_spec v₀ u₀).mp hmem)
      rcases h1 with hp | hp
      · have h2 := (AdjPair_char_left hPnd hv₀q u₀).mp hp
        have h3 := (List.getElem?_eq_some_iff.mp h2).1
        omega
      · obtain ⟨h1', h2⟩ := (AdjPair_char_right hPnd hv₀q u₀).mp hp
        have := nodup_getElem?_inj hPnd h2 hu₀q
        omega
    rcases Nat.lt_or_ge u₀ v₀ with hlt | hge
    · obtain ⟨st₁, comps₁, c₁, F₁, hc₁, hu₁, hv₁, hcnt₁, hdegm, hadjm⟩ :=
        processed_edge graph n hn u₀ v₀ hlt hv₀n [P] Ff hdu hdv hnadj_uv
      exact single_impossible n (buildState graph n) st₁ P Ff hn u₀ v₀
        hheadq hlastq comps₁ F₁ c₁ hc₁ hu₁ hv₁ hcnt₁ hdegm hadjm
    · have hlt : v₀ < u₀ := by omega
      obtain ⟨st₁, comps₁, c₁, F₁, hc₁, hv₁, hu₁, hcnt₁, hdegm, hadjm⟩ :=
        processed_edge graph n hn v₀ u₀ hlt hu₀n [P] Ff hdv hdu hnadj_vu
      exact single_impossible n (buildState graph n) st₁ P Ff hn u₀ v₀
        hheadq hlastq comps₁ F₁ c₁ hc₁ hu₁ hv₁ hcnt₁ hdegm hadjm
  · rcases comps_f with _ | ⟨C₁, t⟩
    · have hl := Ff.flat_perm.length_eq
      rw [List.length_range] at hl
      simp at hl
      omega
    rcases t with _ | ⟨C₂, rest⟩
    · exact hone rfl
    have hC₁m : C₁ ∈ C₁ :: C₂ :: rest := List.mem_cons_self _ _
    have hC₂m : C₂ ∈ C₁ :: C₂ :: rest :=
      List.mem_cons_of_mem _ (List.mem_cons_self _ _)
    have hnd3 : (C₁ ++ (C₂ ++ rest.flatten)).Nodup := by
      simpa [List.flatten_cons] using hflndf
    obtain ⟨hndC₁, hrest, hdisj₁⟩ := List.nodup_append.mp hnd3
    obtain ⟨u₀, hu₀q⟩ : ∃ a, C₁[0]? = some a :=
      ⟨_, List.getElem?_eq_getElem (List.length_pos.mpr (Ff.nonempty C₁ hC₁m))⟩
    obtain ⟨v₀, hv₀q⟩ : ∃ a, C₂[0]? = some a :=
      ⟨_, List.getElem?_eq_getElem (List.length_pos.mpr (Ff.nonempty C₂ hC₂m))⟩
    have hheadq₁ : C₁.head? = some u₀ := by rw [List.head?_eq_getElem?]; exact hu₀q
    have hheadq₂ : C₂.head? = some v₀ := by rw [List.head?_eq_getElem?]; exact hv₀q
    have hu₀C₁ : u₀ ∈ C₁ := List.getElem?_mem hu₀q
    have hv₀C₂ : v₀ ∈ C₂ := List.getElem?_mem hv₀q
    have hdisj12 : ∀ w, w ∈ C₁ → w ∈ C₂ → False := fun w h1 h2 =>
      hdisj₁ h1 (List.mem_append_left _ h2)
    have hne : u₀ ≠ v₀ := fun h =>
      hdisj12 u₀ hu₀C₁ (by rw [h]; exact hv₀C₂)
    have hu₀n : u₀ < n := List.mem_range.mp (Ff.flat_perm.mem_iff.mp
      (List.mem_flatten.mpr ⟨C₁, hC₁m, hu₀C₁⟩))
    have hv₀n : v₀ < n := List.mem_range.mp (Ff.flat_perm.mem_iff.mp
      (List.mem_flatten.mpr ⟨C₂, hC₂m, hv₀C₂⟩))
    have hdu : (buildState graph n).degree u₀ ≤ 1 :=
      head_deg_le_one Ff hC₁m hheadq₁
    have hdv : (buildState graph n).degree v₀ ≤ 1 :=
      head_deg_le_one Ff hC₂m hheadq₂
    have hnadj_uv : v₀ ∉ (buildState graph n).adj u₀ := fun hmem =>
      hdisj12 v₀ (adj_subset_comp Ff hC₁m hu₀C₁ hmem) hv₀C₂
    have hnadj_vu : u₀ ∉ (buildState graph n).adj v₀ := fun hmem =>
      hdisj12 u₀ hu₀C₁ (adj_subset_comp Ff hC₂m hv₀C₂ hmem)
    have hmain : ∀ st₁ comps₁ c₁, ForestInv n st₁ comps₁ → c₁ ∈ comps₁ →
        u₀ ∈ c₁ → v₀ ∈ c₁ →
        (∀ x y, y ∈ st₁.adj x → y ∈ (buildState graph n).adj x) → False := by
      intro st₁ comps₁ c₁ F₁ hc₁ hu₁ hv₁ hadjm
      have hflnd₁ := flatten_nodup_of_perm F₁.flat_perm
      have hc₁pos : 0 < c₁.length := List.length_pos.mpr (List.ne_nil_of_mem hu₁)
      obtain ⟨h0, hh0⟩ : ∃ a, c₁[0]? = some a :=
        ⟨_, List.getElem?_eq_getElem hc₁pos⟩
      have hh0n : h0 < n := by
        have hmem : h0 ∈ c₁ := List.getElem?_mem hh0
        exact List.mem_range.mp (F₁.flat_perm.mem_iff.mp
          (List.mem_flatten.mpr ⟨c₁, hc₁, hmem⟩))
      obtain ⟨D, hD, hh₀D⟩ := List.mem_flatten.mp
        (Ff.flat_perm.mem_iff.mpr (List.mem_range.mpr hh0n))
      have hstep : ∀ i, i < c₁.length → ∀ a, c₁[i]? = some a → a ∈ D := by
        intro i
        induction i with
        | zero =>
            intro _ a ha
            rw [hh0] at ha
            rw [← Option.some_inj.mp ha]
            exact hh₀D
        | succ i ih =>
            intro hi a ha
            have hi2 : i < c₁.length := by omega
            obtain ⟨w, hCi⟩ : ∃ w, c₁[i]? = some w :=
              ⟨_, List.getElem?_eq_getElem hi2⟩
            have hprev : w ∈ D := ih (by omega) _ hCi
            have hadj₁ : a ∈ st₁.adj w := by
              rw [F₁.adj_spec]
              exact ⟨c₁, hc₁, Or.inl ⟨i, hCi, ha⟩⟩
            exact adj_subset_comp Ff hD hprev (hadjm _ a hadj₁)
      obtain ⟨iu, hiu, hiuv⟩ := List.getElem_of_mem hu₁
      obtain ⟨iv, hiv, hivv⟩ := List.getElem_of_mem hv₁
      have hu₀D : u₀ ∈ D :=
        hstep iu hiu u₀ (by rw [List.getElem?_eq_getElem hiu, hiuv])
      have hv₀D : v₀ ∈ D :=
        hstep iv hiv v₀ (by rw [List.getElem?_eq_getElem hiv, hivv])
      have hDC₁ : D = C₁ := comp_eq_of_mem hflndf hD hC₁m hu₀D hu₀C₁
      exact hdisj12 v₀ (by rw [← hDC₁]; exact hv₀D) hv₀C₂
    rcases Nat.lt_or_ge u₀ v₀ with hlt | hge
    · obtain ⟨st₁, comps₁, c₁, F₁, hc₁, hu₁, hv₁, hcnt₁, hdegm, hadjm⟩ :=
        processed_edge graph n hn u₀ v₀ hlt hv₀n _ Ff hdu hdv hnadj_uv
      exact hmain st₁ comps₁ c₁ F₁ hc₁ hu₁ hv₁ hadjm
    · have hlt : v₀ < u₀ := by omega
      obtain ⟨st₁, comps₁, c₁, F₁, hc₁, hv₁, hu₁, hcnt₁, hdegm, hadjm⟩ :=
        processed_edge graph n hn v₀ u₀ hlt hu₀n _ Ff hdv hdu hnadj_vu
      exact hmain st₁ comps₁ c₁ F₁ hc₁ hu₁ hv₁ hadjm

/-- For `n ≥ 3` the edge-selection fold produces a Hamiltonian cycle. -/
theorem buildState_cycle (graph : Graph) (n : ℕ) (hn : 3 ≤ n) :
    ∃ C, CycleInv n (buildState graph n) C := by
  rcases buildState_inv graph n with ⟨comps, F⟩ | hC
  · exact (final_not_forest graph n hn comps F).elim
  · exact hC

theorem cyc_getElem? (C : List ℕ) (n : ℕ) (hlen : C.length = n) (hn : 0 < n)
    (i : ℕ) : C[i % n]? = some (cyc C n i) := by
  have hlt : i % n < C.length := by
    rw [hlen]
    exact Nat.mod_lt _ hn
  rw [List.getElem?_eq_getElem hlt]
  unfold cyc
  rw [List.getD_eq_getElem C 0 hlt]

theorem cyc_mod_congr (C : List ℕ) (n i j : ℕ) (h : i % n = j % n) :
    cyc C n i = cyc C n j := by
  unfold cyc
  rw [h]

theorem cyc_inj (C : List ℕ) (n : ℕ) (hnd : C.Nodup) (hlen : C.length = n)
    (hn : 0 < n) (i j : ℕ) (h : cyc C n i = cyc C n j) : i % n = j % n := by
  have h1 := cyc_getElem? C n hlen hn i
  have h2 := cyc_getElem? C n hlen hn j
  rw [h] at h1
  exact nodup_getElem?_inj hnd h1 h2

theorem mod_succ_lt (n i : ℕ) (h : i % n + 1 < n) : (i + 1) % n = i % n + 1 := by
  rw [← Nat.mod_add_mod]
  exact Nat.mod_eq_of_lt h

theorem mod_succ_top (n i : ℕ) (hn : 0 < n) (h : i % n + 1 = n) :
    (i + 1) % n = 0 := by
  rw [← Nat.mod_add_mod, h]
  exact Nat.mod_self n

theorem mod_pred_ge (n i : ℕ) (hn : 0 < n) (h : 1 ≤ i % n) :
    (i + (n - 1)) % n = i % n - 1 := by
  rw [← Nat.mod_add_mod]
  have him : i % n < n := Nat.mod_lt _ hn
  have he : i % n + (n - 1) = (i % n - 1) + n := by omega
  rw [he, Nat.add_mod_right]
  exact Nat.mod_eq_of_lt (by omega)

theorem mod_pred_zero (n i : ℕ) (hn : 0 < n) (h : i % n = 0) :
    (i + (n - 1)) % n = n - 1 := by
  rw [← Nat.mod_add_mod, h, Nat.zero_add]
  exact Nat.mod_eq_of_lt (by omega)

/-- Cancellation of the fixed stride `d ∈ {1, n-1}` modulo `n`. -/
theorem step_cancel (n d : ℕ) (hn : 1 ≤ n) (hd : d = 1 ∨ d = n - 1)
    (j₀ a b : ℕ) (h : (j₀ + a * d) % n = (j₀ + b * d) % n) : a % n = b % n := by
  have h0 : j₀ + a * d ≡ j₀ + b * d [MOD n] := h
  have h1 : a * d ≡ b * d [MOD n] := Nat.ModEq.add_left_cancel' j₀ h0
  have hg : Nat.gcd n d = 1 := by
    rcases hd with hd | hd
    · rw [hd]
      exact Nat.gcd_one_right n
    · rw [hd]
      have h1' := Nat.gcd_dvd_left n (n - 1)
      have h2' := Nat.gcd_dvd_right n (n - 1)
      have h3 := Nat.dvd_sub' h1' h2'
      have h4 : n - (n - 1) = 1 := by omega
      rw [h4] at h3
      exact Nat.dvd_one.mp h3
  exact Nat.ModEq.cancel_right_of_coprime hg h1

/-- The adjacency lists of the cycle state contain exactly the two cyclic
neighbours. -/
theorem cyc_adj (n : ℕ) (st : GEState) (hn : 3 ≤ n) (C : List ℕ)
    (hC : CycleInv n st C) (i y : ℕ) :
    y ∈ st.adj (cyc C n i) ↔ y = cyc C n (i + 1) ∨ y = cyc C n (i + (n - 1)) := by
  have hnd : C.Nodup := hC.perm.nodup_iff.mpr (List.nodup_range n)
  have hlen : C.length = n := by rw [hC.perm.length_eq, List.length_range]
  have hn0 : 0 < n := by omega
  have hq : ∀ j, C[j % n]? = some (cyc C n j) := cyc_getElem? C n hlen hn0
  have hqi := hq i
  have him : i % n < n := Nat.mod_lt _ hn0
  rw [hC.adj_spec]
  constructor
  · intro h
    rcases h with hp | hp | ⟨hl, hh⟩ | ⟨hl, hh⟩
    · left
      have h2 := (AdjPair_char_left hnd hqi y).mp hp
      have hb := (List.getElem?_eq_some_iff.mp h2).1
      rw [hlen] at hb
      have hmod := mod_succ_lt n i hb
      have h3 := hq (i + 1)
      rw [hmod, h2] at h3
      exact Option.some_inj.mp h3
    · right
      obtain ⟨h1, h2⟩ := (AdjPair_char_right hnd hqi y).mp hp
      have hmod := mod_pred_ge n i hn0 h1
      have h3 := hq (i + (n - 1))
      rw [hmod, h2] at h3
      exact Option.some_inj.mp h3
    · left
      have hli : C[C.length - 1]? = some (cyc C n i) := by
        rw [← List.getLast?_eq_getElem?]
        exact hl
      have hieq := nodup_getElem?_inj hnd hqi hli
      have hmod : (i + 1) % n = 0 := by
        apply mod_succ_top n i hn0
        rw [hieq, hlen]
        omega
      have h3 := hq (i + 1)
      rw [hmod] at h3
      have hh0 : C[0]? = some y := by
        rw [← List.head?_eq_getElem?]
        exact hh
      rw [hh0] at h3
      exact Option.some_inj.mp h3
    · right
      have hh0 : C[0]? = some (cyc C n i) := by
        rw [← List.head?_eq_getElem?]
        exact hh
      have hieq : i % n = 0 := nodup_getElem?_inj hnd hqi hh0
      have hmod := mod_pred_zero n i hn0 hieq
      have h3 := hq (i + (n - 1))
      rw [hmod] at h3
      have hlq : C[C.length - 1]? = some y := by
        rw [← List.getLast?_eq_getElem?]
        exact hl
      rw [hlen] at hlq
      rw [hlq] at h3
      exact Option.some_inj.mp h3
  · intro h
    rcases h with h | h
    · subst h
      by_cases hcase : i % n + 1 < n
      · refine Or.inl ((AdjPair_char_left hnd hqi _).mpr ?_)
        have hmod := mod_succ_lt n i hcase
        have h3 := hq (i + 1)
        rw [hmod] at h3
        exact h3
      · have hieq : i % n + 1 = n := by omega
        refine Or.inr (Or.inr (Or.inl ⟨?_, ?_⟩))
        · rw [List.getLast?_eq_getElem?, hlen]
          have he : n - 1 = i % n := by omega
          rw [he]
          exact hqi
        · rw [List.head?_eq_getElem?]
          have hmod := mod_succ_top n i hn0 hieq
          have h3 := hq (i + 1)
          rw [hmod] at h3
          exact h3
    · subst h
      by_cases hcase : 1 ≤ i % n
      · refine Or.inr (Or.inl ((AdjPair_char_right hnd hqi _).mpr ⟨hcase, ?_⟩))
        have hmod := mod_pred_ge n i hn0 hcase
        have h3 := hq (i + (n - 1))
        rw [hmod] at h3
        exact h3
      · have hieq : i % n = 0 := by omega
        refine Or.inr (Or.inr (Or.inr ⟨?_, ?_⟩))
        · rw [List.getLast?_eq_getElem?, hlen]
          have hmod := mod_pred_zero n i hn0 hieq
          have h3 := hq (i + (n - 1))
          rw [hmod] at h3
          exact h3
        · rw [List.head?_eq_getElem?, ← hieq]
          exact hqi

theorem walkLoop_zero (adj : ℕ → List ℕ) (n : ℕ) (visited : ℕ → Bool)
    (tour : List ℕ) (current : ℕ) :
    walkLoop adj n 0 visited tour current = tour := rfl

theorem walkLoop_succ_some (adj : ℕ → List ℕ) (n fuel : ℕ) (visited : ℕ → Bool)
    (tour : List ℕ) (current next : ℕ) (hlen : tour.length < n)
    (hfind : (adj current).find?
      (fun nb => !(decide (nb = current) || visited nb)) = some next) :
    walkLoop adj n (fuel + 1) visited tour current =
      walkLoop adj n fuel (fun j => decide (j = current) || visited j)
        (tour ++ [current]) next := by
  rw [walkLoop, if_pos hlen]
  show (match (adj current).find?
      (fun nb => !(decide (nb = current) || visited nb)) with
    | some next => walkLoop adj n fuel
        (fun j => decide (j = current) || visited j) (tour ++ [current]) next
    | none => tour ++ [current]) = _
  rw [hfind]

theorem walkLoop_succ_none (adj : ℕ → List ℕ) (n fuel : ℕ) (visited : ℕ → Bool)
    (tour : List ℕ) (current : ℕ) (hlen : tour.length < n)
    (hfind : (adj current).find?
      (fun nb => !(decide (nb = current) || visited nb)) = none) :
    walkLoop adj n (fuel + 1) visited tour current = tour ++ [current] := by
  rw [walkLoop, if_pos hlen]
  show (match (adj current).find?
      (fun nb => !(decide (nb = current) || visited nb)) with
    | some next => walkLoop adj n fuel
        (fun j => decide (j = current) || visited j) (tour ++ [current]) next
    | none => tour ++ [current]) = _
  rw [hfind]

theorem find?_eq_some_of_unique {l : List ℕ} {p : ℕ → Bool} {z : ℕ}
    (hex : z ∈ l) (hz : p z = true) (huniq : ∀ x ∈ l, p x = true → x = z) :
    l.find? p = some z := by
  induction l with
  | nil => cases hex
  | cons a t ih =>
      by_cases hpa : p a = true
      · rw [List.find?_cons_of_pos t hpa]
        exact congrArg some (huniq a (List.mem_cons_self _ _) hpa)
      · rw [List.find?_cons_of_neg t hpa]
        apply ih
        · rcases List.mem_cons.mp hex with h | h
          · exact absurd (h ▸ hz) hpa
          · exact h
        · exact fun x hx hpx => huniq x (List.mem_cons_of_mem _ hx) hpx

set_option maxHeartbeats 1000000 in
/-- Loop invariant of the reconstruction walk: after `k` visited vertices the
walk continues along the fixed stride `d` and ends with the full sweep. -/
theorem walkLoop_inv (n : ℕ) (st : GEState) (hn : 3 ≤ n) (C : List ℕ)
    (hC : CycleInv n st C) (j₀ d : ℕ) (hd : d = 1 ∨ d = n - 1) :
    ∀ m k, k + m = n → 1 ≤ k →
      walkLoop st.adj n m
        (fun j => decide (∃ t, t < k ∧ j = cyc C n (j₀ + t * d)))
        ((List.range k).map (fun t => cyc C n (j₀ + t * d)))
        (cyc C n (j₀ + k * d)) =
      (List.range n).map (fun t => cyc C n (j₀ + t * d)) := by
  have hnd : C.Nodup := hC.perm.nodup_iff.mpr (List.nodup_range n)
  have hlen : C.length = n := by rw [hC.perm.length_eq, List.length_range]
  have hn0 : 0 < n := by omega
  intro m
  induction m with
  | zero =>
      intro k hk _
      have hkn : k = n := by omega
      subst hkn
      exact walkLoop_zero _ _ _ _ _
  | succ m ih =>
      intro k hk hk1
      have hklen : ((List.range k).map (fun t => cyc C n (j₀ + t * d))).length
          < n := by
        rw [List.length_map, List.length_range]
        omega
      have hnext_eq : cyc C n (j₀ + k * d + d) = cyc C n (j₀ + (k + 1) * d) := by
        have he : j₀ + k * d + d = j₀ + (k + 1) * d := by ring
        rw [he]
      have hdn : d ≤ n := by omega
      have hprev_eq : cyc C n (j₀ + k * d + (n - d)) =
          cyc C n (j₀ + (k - 1) * d) := by
        apply cyc_mod_congr
        have hkk : k = (k - 1) + 1 := by omega
        have h2 : k * d = (k - 1) * d + d := by
          conv_lhs => rw [hkk]
          rw [Nat.succ_mul]
        have h1 : j₀ + k * d + (n - d) = j₀ + (k - 1) * d + n := by omega
        rw [h1, Nat.add_mod_right]
      have hadj' : ∀ y, y ∈ st.adj (cyc C n (j₀ + k * d)) ↔
          y = cyc C n (j₀ + k * d + d) ∨ y = cyc C n (j₀ + k * d + (n - d)) := by
        intro y
        have h0 := cyc_adj n st hn C hC (j₀ + k * d) y
        rcases hd with hd1 | hd1
        · subst hd1
          exact h0
        · subst hd1
          have he : n - (n - 1) = 1 := by omega
          rw [he, h0]
          exact Or.comm
      have hprev_vis : ∃ t, t < k + 1 ∧
          cyc C n (j₀ + k * d + (n - d)) = cyc C n (j₀ + t * d) :=
        ⟨k - 1, by omega, hprev_eq⟩
      -- the predicate characterization
      have hpred : ∀ nb,
          ((!(decide (nb = cyc C n (j₀ + k * d)) ||
            decide (∃ t, t < k ∧ nb = cyc C n (j₀ + t * d)))) = true) ↔
          ¬ ∃ t, t < k + 1 ∧ nb = cyc C n (j₀ + t * d) := by
        intro nb
        rw [Bool.not_eq_true', Bool.or_eq_false_iff, decide_eq_false_iff_not,
          decide_eq_false_iff_not]
        constructor
        · intro ⟨h1, h2⟩ ⟨t, ht, hnb⟩
          rcases Nat.lt_or_ge t k with htk | htk
          · exact h2 ⟨t, htk, hnb⟩
          · have ht' : t = k := by omega
            rw [ht'] at hnb
            have hke : j₀ + k * d = j₀ + k * d := rfl
            exact h1 hnb
        · intro hno
          constructor
          · intro hnb
            exact hno ⟨k, by omega, hnb⟩
          · intro ⟨t, ht, hnb⟩
            exact hno ⟨t, by omega, hnb⟩
      have hvfun : (fun j => decide (j = cyc C n (j₀ + k * d)) ||
          decide (∃ t, t < k ∧ j = cyc C n (j₀ + t * d))) =
          (fun j => decide (∃ t, t < k + 1 ∧ j = cyc C n (j₀ + t * d))) := by
        funext j
        by_cases hj : ∃ t, t < k + 1 ∧ j = cyc C n (j₀ + t * d)
        · have hRHS : decide (∃ t, t < k + 1 ∧ j = cyc C n (j₀ + t * d)) = true :=
            decide_eq_true hj
          rw [hRHS]
          obtain ⟨t, ht, hjt⟩ := hj
          rcases Nat.lt_or_ge t k with htk | htk
          · have h2 : decide (∃ t, t < k ∧ j = cyc C n (j₀ + t * d)) = true :=
              decide_eq_true ⟨t, htk, hjt⟩
            rw [h2, Bool.or_true]
          · have ht' : t = k := by omega
            rw [ht'] at hjt
            have h1 : decide (j = cyc C n (j₀ + k * d)) = true := decide_eq_true hjt
            rw [h1, Bool.true_or]
        · have hRHS : decide (∃ t, t < k + 1 ∧ j = cyc C n (j₀ + t * d)) = false :=
            decide_eq_false hj
          rw [hRHS]
          have h1 : decide (j = cyc C n (j₀ + k * d)) = false :=
            decide_eq_false (fun h => hj ⟨k, by omega, h⟩)
          have h2 : decide (∃ t, t < k ∧ j = cyc C n (j₀ + t * d)) = false := by
            apply decide_eq_false
            intro ⟨t, ht, hjt⟩
            exact hj ⟨t, by omega, hjt⟩
          rw [h1, h2, Bool.false_or]
      rcases Nat.lt_or_ge (k + 1) n with hk1n | hk1n
      · -- interior step: the next vertex is unvisited, everything else is not
        have hnext_unvis : ¬ ∃ t, t < k + 1 ∧
            cyc C n (j₀ + (k + 1) * d) = cyc C n (j₀ + t * d) := by
          intro ⟨t, ht, heq⟩
          have h1 := cyc_inj C n hnd hlen hn0 _ _ heq
          have h2 := step_cancel n d (by omega) hd j₀ (k + 1) t h1
          rw [Nat.mod_eq_of_lt hk1n, Nat.mod_eq_of_lt (by omega)] at h2
          omega
        have hfind : (st.adj (cyc C n (j₀ + k * d))).find?
            (fun nb => !(decide (nb = cyc C n (j₀ + k * d)) ||
              decide (∃ t, t < k ∧ nb = cyc C n (j₀ + t * d)))) =
            some (cyc C n (j₀ + (k + 1) * d)) := by
          apply find?_eq_some_of_unique
          · exact (hadj' _).mpr (Or.inl hnext_eq.symm)
          · exact (hpred _).mpr hnext_unvis
          · intro x hx hpx
            rcases (hadj' x).mp hx with h | h
            · rw [h]
              exact hnext_eq
            · exfalso
              apply (hpred x).mp hpx
              rw [h]
              exact hprev_vis
        rw [walkLoop_succ_some st.adj n m _ _ _ _ hklen hfind]
        have ihh := ih (k + 1) (by omega) (by omega)
        have htour : (List.range (k + 1)).map (fun t => cyc C n (j₀ + t * d)) =
            (List.range k).map (fun t => cyc C n (j₀ + t * d)) ++
              [cyc C n (j₀ + k * d)] := by
          rw [List.range_succ, List.map_append, List.map_singleton]
        rw [htour, ← hvfun] at ihh
        exact ihh
      · -- final step: both neighbours are already visited
        have hkeq : k + 1 = n := by omega
        have hnext_vis : ∃ t, t < k + 1 ∧
            cyc C n (j₀ + (k + 1) * d) = cyc C n (j₀ + t * d) := by
          refine ⟨0, by omega, ?_⟩
          apply cyc_mod_congr
          rw [hkeq]
          have he : j₀ + 0 * d = j₀ := by ring
          rw [he]
          exact Nat.add_mul_mod_self_left j₀ n d
        have hfind : (st.adj (cyc C n (j₀ + k * d))).find?
            (fun nb => !(decide (nb = cyc C n (j₀ + k * d)) ||
              decide (∃ t, t < k ∧ nb = cyc C n (j₀ + t * d)))) = none := by
          rw [List.find?_eq_none]
          intro x hx hpx
          rcases (hadj' x).mp hx with h | h
          · apply (hpred x).mp hpx
            rw [h, hnext_eq]
            exact hnext_vis
          · apply (hpred x).mp hpx
            rw [h]
            exact hprev_vis
        rw [walkLoop_succ_none st.adj n m _ _ _ hklen hfind]
        have htour : (List.range k).map (fun t => cyc C n (j₀ + t * d)) ++
            [cyc C n (j₀ + k * d)] =
            (List.range (k + 1)).map (fun t => cyc C n (j₀ + t * d)) := by
          rw [List.range_succ, List.map_append, List.map_singleton]
        rw [htour, hkeq]

theorem generateTour_one (graph : Graph) : generateTour 1 graph = [0] := by
  show walkLoop (buildState graph 1).adj 1 1 (fun _ => false) [] 0 = [0]
  have h2 : buildState graph 1 = initState := by
    show ((edgeList graph 1).mergeSort (fun a b => a.dist ≤ b.dist)).foldl
      (acceptEdge 1) initState = initState
    rw [show edgeList graph 1 = [] from rfl, List.mergeSort_nil]
    rfl
  rw [h2]
  rfl

theorem generateTour_two (graph : Graph) : generateTour 2 graph = [0, 1] := by
  show walkLoop (buildState graph 2).adj 2 2 (fun _ => false) [] 0 = [0, 1]
  have h2 : buildState graph 2 = acceptEdge 2 initState ⟨0, 1, graph 0 1⟩ := by
    show ((edgeList graph 2).mergeSort (fun a b => a.dist ≤ b.dist)).foldl
      (acceptEdge 2) initState = _
    rw [show edgeList graph 2 = [⟨0, 1, graph 0 1⟩] from rfl,
      List.mergeSort_singleton]
    rfl
  rw [h2]
  rfl

set_option maxHeartbeats 1000000 in
/-- The greedy-edge constructor always returns a permutation of the city
indices: the selection fold ends in a Hamiltonian cycle for `n ≥ 3`, and the
adjacency walk traverses it completely. -/
theorem greedyTour_perm (n : ℕ) (graph : Graph) (hn : 1 ≤ n) :
    (generateTour n graph).Perm (List.range n) := by
  rcases Nat.lt_or_ge n 3 with hsmall | hge
  · interval_cases n
    · rw [generateTour_one]
      exact List.Perm.refl _
    · rw [generateTour_two]
      exact List.Perm.refl _
  · obtain ⟨C, hC⟩ := buildState_cycle graph n hge
    have hnd : C.Nodup := hC.perm.nodup_iff.mpr (List.nodup_range n)
    have hlen : C.length = n := by rw [hC.perm.length_eq, List.length_range]
    have hn0 : 0 < n := by omega
    have h0C : (0 : ℕ) ∈ C := hC.perm.mem_iff.mpr (List.mem_range.mpr (by omega))
    obtain ⟨j₀, hj₀lt, hj₀⟩ := List.getElem_of_mem h0C
    have hcyc0 : cyc C n j₀ = 0 := by
      have h1 := cyc_getElem? C n hlen hn0 j₀
      have h2 : j₀ % n = j₀ := Nat.mod_eq_of_lt (by rw [← hlen]; exact hj₀lt)
      rw [h2, List.getElem?_eq_getElem hj₀lt] at h1
      have h3 := Option.some_inj.mp h1
      rw [← h3]
      exact hj₀
    show (walkLoop (buildState graph n).adj n n (fun _ => false) [] 0).Perm _
    have hadj0 : ∀ y, y ∈ (buildState graph n).adj 0 ↔
        y = cyc C n (j₀ + 1) ∨ y = cyc C n (j₀ + (n - 1)) := by
      intro y
      have h0 := cyc_adj n (buildState graph n) hge C hC j₀ y
      rw [hcyc0] at h0
      exact h0
    have hz1 : cyc C n (j₀ + 1) ≠ 0 := by
      intro h
      rw [← hcyc0] at h
      have h1 : (j₀ + 1 * 1) % n = (j₀ + 0 * 1) % n := by
        have e1 : j₀ + 1 * 1 = j₀ + 1 := by ring
        have e2 : j₀ + 0 * 1 = j₀ := by ring
        rw [e1, e2]
        exact cyc_inj C n hnd hlen hn0 _ _ h
      have h2 := step_cancel n 1 (by omega) (Or.inl rfl) j₀ 1 0 h1
      rw [Nat.mod_eq_of_lt (by omega : (1 : ℕ) < n),
        Nat.mod_eq_of_lt (by omega : (0 : ℕ) < n)] at h2
      omega
    have hfind0 : ∃ next, ((buildState graph n).adj 0).find?
        (fun nb => !(decide (nb = 0) || false)) = some next := by
      have hmem : cyc C n (j₀ + 1) ∈ (buildState graph n).adj 0 :=
        (hadj0 _).mpr (Or.inl rfl)
      have hp : (fun nb => !(decide (nb = (0 : ℕ)) || false))
          (cyc C n (j₀ + 1)) = true := by
        show (!(decide ((cyc C n (j₀ + 1)) = 0) || false)) = true
        rw [decide_eq_false hz1]
        rfl
      have hs : (((buildState graph n).adj 0).find?
          (fun nb => !(decide (nb = (0 : ℕ)) || false))).isSome :=
        List.find?_isSome.mpr ⟨cyc C n (j₀ + 1), hmem, hp⟩
      exact Option.isSome_iff_exists.mp hs
    obtain ⟨next, hfind0⟩ := hfind0
    have hnextmem := List.mem_of_find?_eq_some hfind0
    have hdir : ∃ d, (d = 1 ∨ d = n - 1) ∧ next = cyc C n (j₀ + 1 * d) := by
      rcases (hadj0 next).mp hnextmem with h | h
      · refine ⟨1, Or.inl rfl, ?_⟩
        rw [show j₀ + 1 * 1 = j₀ + 1 from by ring]
        exact h
      · refine ⟨n - 1, Or.inr rfl, ?_⟩
        rw [show j₀ + 1 * (n - 1) = j₀ + (n - 1) from by ring]
        exact h
    obtain ⟨d, hd, hnextval⟩ := hdir
    have heq : walkLoop (buildState graph n).adj n n (fun _ => false) [] 0 =
        walkLoop (buildState graph n).adj n ((n - 1) + 1) (fun _ => false) [] 0 :=
      congrArg (fun f => walkLoop (buildState graph n).adj n f
        (fun _ => false) [] 0) (by omega)
    have hstep := walkLoop_succ_some (buildState graph n).adj n (n - 1)
      (fun _ => false) [] 0 next (by exact hn0) hfind0
    rw [heq, hstep, hnextval]
    have hv1 : ∀ k : ℕ, k = 1 → (fun j => decide (j = (0 : ℕ)) || false) =
        (fun j => decide (∃ t, t < k ∧ j = cyc C n (j₀ + t * d))) := by
      intro k hk
      funext j
      by_cases hj : j = 0
      · have hex : ∃ t, t < k ∧ j = cyc C n (j₀ + t * d) := by
          refine ⟨0, by omega, ?_⟩
          rw [show j₀ + 0 * d = j₀ from by ring, hcyc0]
          exact hj
        rw [decide_eq_true hj, decide_eq_true hex]
        rfl
      · have hnex : ¬ ∃ t, t < k ∧ j = cyc C n (j₀ + t * d) := by
          intro ⟨t, ht, hjt⟩
          have ht0 : t = 0 := by omega
          rw [ht0, show j₀ + 0 * d = j₀ from by ring, hcyc0] at hjt
          exact hj hjt
        rw [decide_eq_false hj, decide_eq_false hnex]
        rfl
    have ht1 : ∀ k : ℕ, k = 1 → ([] : List ℕ) ++ [0] =
        (List.range k).map (fun t => cyc C n (j₀ + t * d)) := by
      intro k hk
      subst hk
      rw [List.nil_append]
      have hr : (List.range 1).map (fun t => cyc C n (j₀ + t * d)) =
          [cyc C n (j₀ + 0 * d)] := rfl
      rw [hr, show j₀ + 0 * d = j₀ from by ring, hcyc0]
    rw [hv1 1 rfl, ht1 1 rfl, walkLoop_inv n (buildState graph n) hge C hC j₀ d hd
      (n - 1) 1 (by omega) (le_refl 1)]
    apply Genetic.nodup_lt_perm_range
    · apply List.Nodup.map_on ?_ (List.nodup_range n)
      intro a ha b hb hfab
      rw [List.mem_range] at ha hb
      have h1 := cyc_inj C n hnd hlen hn0 _ _ hfab
      have h2 := step_cancel n d (by omega) hd j₀ a b h1
      rw [Nat.mod_eq_of_lt ha, Nat.mod_eq_of_lt hb] at h2
      exact h2
    · rw [List.length_map, List.length_range]
    · intro x hx
      obtain ⟨t, _, hxt⟩ := List.mem_map.mp hx
      rw [← hxt]
      have hmem : cyc C n (j₀ + t * d) ∈ C :=
        List.getElem?_mem (cyc_getElem? C n hlen hn0 _)
      exact List.mem_range.mp (hC.perm.mem_iff.mp hmem)

end GreedyEdge

/-- **C7.** For every point set of `n ≥ 1` points whose ids are exactly
`{0..n-1}` and whose angles lie in `[0, 2π)`, and for every distance matrix,
each tour constructor — `NearestNeighbor.generateTour`,
`GreedyEdge.generateTour`, `AngularSort.generateTour` and
`SonarVisit.generateTour` — returns a permutation of `{0..n-1}`: no
duplicates and no omissions; in particular the greedy-edge adjacency-list
walk never dead-ends before all `n` points are visited.  The abstract
parameters `pi` and `centerDist` stand for the float constant `Math.PI` and
the `Math.hypot` distance from the centre used by sonar-visit. -/
theorem claim_C7 (n : ℕ) (hn : 1 ≤ n) (graph : Graph)
    (points : List Point)
    (hids : (points.map (fun p => p.id)).Perm (List.range n))
    (pi : ℚ) (hpi : 0 < pi) (centerDist : Point → ℚ)
    (gridSize : ℕ) (hg : 1 ≤ gridSize)
    (hangles : ∀ p ∈ points, 0 ≤ p.angle ∧ p.angle < 2 * pi)
    (startCity : ℕ) (hstart : startCity < n) :
    (NearestNeighbor.generateTour n graph startCity).Perm (List.range n) ∧
    (GreedyEdge.generateTour n graph).Perm (List.range n) ∧
    (AngularSort.generateTour points).Perm (List.range n) ∧
    (SonarVisit.generateTour pi centerDist points gridSize).Perm
      (List.range n) := by
  have hmapnd : (points.map (fun p => p.id)).Nodup :=
    hids.nodup_iff.mpr (List.nodup_range n)
  have hnd : points.Nodup := List.Nodup.of_map _ hmapnd
  exact ⟨NearestNeighbor.nnTour_perm n graph startCity hstart,
    GreedyEdge.greedyTour_perm n graph hn,
    (AngularSort.angularTour_perm points).trans hids,
    (SonarVisit.sonarTour_perm pi centerDist points gridSize hpi hg hnd
      hangles).trans hids⟩

theorem claim_C7_witness :
    (NearestNeighbor.generateTour 3 zeroGraph 0).Perm (List.range 3) ∧
    (GreedyEdge.generateTour 3 zeroGraph).Perm (List.range 3) ∧
    (AngularSort.generateTour
      [⟨0, 0, 0, 0⟩, ⟨0, 0, 0, 1⟩, ⟨0, 0, 0, 2⟩]).Perm (List.range 3) ∧
    (SonarVisit.generateTour (22 / 7) (fun _ => 0)
      [⟨0, 0, 0, 0⟩, ⟨0, 0, 0, 1⟩, ⟨0, 0, 0, 2⟩] 1).Perm (List.range 3) :=
  claim_C7 3 (by norm_num) zeroGraph
    [⟨0, 0, 0, 0⟩, ⟨0, 0, 0, 1⟩, ⟨0, 0, 0, 2⟩] (by decide)
    (22 / 7) (by norm_num) (fun _ => 0) 1 (le_refl 1)
    (by
      intro p hp
      fin_cases hp <;> exact ⟨by norm_num, by norm_num⟩)
    0 (by norm_num)

end Sonar
